import Mathlib

/-! # Modular linear-algebra engine of `gaussian_solver.c`

Shallow embedding of `src/O3_level/e2e/gaussian_solver.c`.

Conventions of the embedding:

* C integers are mathematical integers (`Int`); the elements of the `int32_t`
  arrays are values in `[-2^31, 2^31)`.  The C operators `%` and `/` truncate
  towards zero, so they are `Int.tmod` and `Int.tdiv`.
* Where the result of a signed operation on array elements can leave its type,
  the result is wrapped into the type (`wrap32`, `wrap64`), which is what the
  two's-complement machine computes: the negation `-h[..]` of an `int32_t`, and
  the products, sums and difference of the `int64_t` accumulation `total` in
  `solve_unknown_f`.  The remaining operations work on remainders modulo a
  positive 32-bit `q` and are not wrapped: a remainder `x % q` is smaller in
  magnitude than `q`, the elimination multiplies two residues in `int64_t`, and
  the 32-bit arithmetic of `modinv` has a model of its own (`modinv32`).
* Dimensions and indices (C `int`) are natural numbers.
* C arrays are lists; reading index `i` of an array is `rd xs i`, reading
  `A[i][j]` of an array of rows is `entry A i j`.
* `malloc` always succeeds, so the "memory allocation failed" exits are not
  part of the model.
* A `for` loop that writes every cell of a fresh or in-place array from values
  that the loop itself does not modify is written as the list of the written
  values (`List.range` followed by `List.map`).
-/

namespace GaussianSolver

/-! ## Arrays -/

/-- Array read `xs[i]`. -/
def rd (xs : List Int) (i : Nat) : Int := xs.getD i 0

/-- Array read `mask[i]` of a boolean array. -/
def rdb (xs : List Bool) (i : Nat) : Bool := xs.getD i false

/-- Row pointer `M[i]` of an array of rows. -/
def rowOf (M : List (List Int)) (i : Nat) : List Int := M.getD i []

/-- Matrix read `M[i][j]`. -/
def entry (M : List (List Int)) (i j : Nat) : Int := rd (rowOf M i) j

/-! ## Machine integers -/

/-- Value of a signed 32-bit result: the integer `x` wrapped into
`[-2^31, 2^31)`. -/
def wrap32 (x : Int) : Int := (x + 2147483648) % 4294967296 - 2147483648

/-- Value of a signed 64-bit result: the integer `x` wrapped into
`[-2^63, 2^63)`. -/
def wrap64 (x : Int) : Int :=
  (x + 9223372036854775808) % 18446744073709551616 - 9223372036854775808

/-! ## ModularArithmetic -/

/-- The recurring idiom `x % q; if (x < 0) x += q;` with the C remainder. -/
def normq (x q : Int) : Int :=
  let y := Int.tmod x q
  if y < 0 then y + q else y

/-- The `while (newr != 0)` loop of `modinv`, on the loop state
`(t, newt, r, newr)`; it returns the `(t, r)` the loop exits with.  The first
argument bounds the number of iterations. -/
def modinvLoop : Nat → Int → Int → Int → Int → Int × Int
  | 0, t, _, r, _ => (t, r)
  | fuel + 1, t, newt, r, newr =>
    if newr = 0 then (t, r)
    else
      let quotient := Int.tdiv r newr
      modinvLoop fuel newt (t - quotient * newt) newr (r - quotient * newr)

/-- Function `modinv(a, q)`: extended Euclidean algorithm, `-1` when there is no
inverse.  The remainder `newr` strictly decreases from `a mod q`, so that many
iterations are enough (`modinvLoop_fuel`). -/
def modinv (a q : Int) : Int :=
  let a1 := normq a q
  if a1 = 0 then -1
  else
    let tr := modinvLoop a1.toNat 0 1 q a1
    if tr.2 > 1 then -1
    else if tr.1 < 0 then tr.1 + q
    else tr.1

/-- Function `to_centered_mod(x, q)`. -/
def to_centered_mod (x q : Int) : Int :=
  let x1 := normq x q
  if x1 > Int.tdiv q 2 then x1 - q else x1

/-! ## ResultReporting -/

/-- Status codes `solve_status_t`. -/
inductive solve_status_t where
  | SOLVE_OK
  | SOLVE_NO_PIVOT
  | SOLVE_NO_INVERSE
  | SOLVE_NO_KNOWN_G
  | SOLVE_SINGULAR_MATRIX
  deriving DecidableEq

open solve_status_t

/-- Result record `solve_result_t`: `x` is `none` for the C null pointer. -/
structure solve_result_t where
  x : Option (List Int)
  n : Nat
  status : solve_status_t
  message : String
  deriving DecidableEq

/-! ## GaussianEliminationSolver -/

/-- Lines 72-89: the augmented matrix `[A|b]`, every entry reduced into
`[0, q)`. -/
def buildAug (A : List (List Int)) (b : List Int) (n : Nat) (q : Int) : List (List Int) :=
  (List.range n).map fun i =>
    (List.range n).map (fun j => normq (entry A i j) q) ++ [normq (rd b i) q]

/-- Pivot test of lines 96-98 on the value `v = M[row][col]`. -/
def pivotOk (v q : Int) : Bool :=
  decide (Int.tmod v q ≠ 0) && decide (modinv v q ≠ -1)

/-- Lines 95-103: scan of `k` rows starting at `row`; the first row that
passes the pivot test, `none` for `pivot_row == -1`. -/
def findPivotFrom (M : List (List Int)) (q : Int) (col : Nat) : Nat → Nat → Option Nat
  | 0, _ => none
  | k + 1, row =>
    if pivotOk (entry M row col) q then some row
    else findPivotFrom M q col k (row + 1)

/-- Pivot search of column `col`: rows `col .. n-1`. -/
def findPivot (M : List (List Int)) (q : Int) (n col : Nat) : Option Nat :=
  findPivotFrom M q col (n - col) col

/-- Lines 115-119: exchange of the row pointers `M[col]` and `M[pivot_row]`. -/
def swapRows (M : List (List Int)) (n col pivot_row : Nat) : List (List Int) :=
  (List.range n).map fun i =>
    if i = col then rowOf M pivot_row
    else if i = pivot_row then rowOf M col
    else rowOf M i

/-- Lines 132-135: the pivot row multiplied by `inv_pivot` from column `col`
to the augmented column. -/
def normalizeRow (M : List (List Int)) (q : Int) (n col : Nat) (inv_pivot : Int) :
    List (List Int) :=
  (List.range n).map fun i =>
    if i = col then
      (List.range (n + 1)).map fun j =>
        if col ≤ j then normq (entry M col j * inv_pivot) q else entry M col j
    else rowOf M i

/-- Lines 139-147: every other row minus `factor` times the pivot row, from
column `col` to the augmented column. -/
def eliminateRows (M : List (List Int)) (q : Int) (n col : Nat) : List (List Int) :=
  (List.range n).map fun row =>
    if row = col then rowOf M row
    else
      let factor := normq (entry M row col) q
      (List.range (n + 1)).map fun j =>
        if col ≤ j then normq (entry M row j - factor * entry M col j) q
        else entry M row j

/-- How the elimination loop of lines 92-148 ends. -/
inductive ElimOutcome where
  | done (M : List (List Int))
  | noPivot (col : Nat)
  | noInverse (pivot_val : Int)
  deriving DecidableEq

/-- The elimination loop for the `k` columns starting at `col`. -/
def eliminate (q : Int) (n : Nat) : Nat → Nat → List (List Int) → ElimOutcome
  | 0, _, M => ElimOutcome.done M
  | k + 1, col, M =>
    match findPivot M q n col with
    | none => ElimOutcome.noPivot col
    | some pivot_row =>
      let M1 := swapRows M n col pivot_row
      let pivot_val := Int.tmod (entry M1 col col) q
      let inv_pivot := modinv pivot_val q
      if inv_pivot = -1 then ElimOutcome.noInverse pivot_val
      else
        let M2 := normalizeRow M1 q n col inv_pivot
        eliminate q n k (col + 1) (eliminateRows M2 q n col)

/-- Line 110: `"no pivot in column %d, singular matrix"`. -/
def noPivotMessage (col : Nat) : String :=
  "no pivot in column " ++ toString col ++ ", singular matrix"

/-- Line 128: `"modular inverse not found for pivot %d"`. -/
def noInverseMessage (pivot_val : Int) : String :=
  "modular inverse not found for pivot " ++ toString pivot_val

/-- Function `gaussian_mod_q_solve(A, b, n, q)`. -/
def gaussian_mod_q_solve (A : List (List Int)) (b : List Int) (n : Nat) (q : Int) :
    solve_result_t :=
  match eliminate q n n 0 (buildAug A b n q) with
  | ElimOutcome.noPivot col =>
    { x := none, n := n, status := SOLVE_NO_PIVOT,
      message := noPivotMessage col }
  | ElimOutcome.noInverse pivot_val =>
    { x := none, n := n, status := SOLVE_NO_INVERSE,
      message := noInverseMessage pivot_val }
  | ElimOutcome.done M =>
    { x := some ((List.range n).map fun i => to_centered_mod (entry M i n) q),
      n := n, status := SOLVE_OK, message := "ok" }

/-! ## CirculantSystemBuilder -/

/-- Array read `I[idx]` of an index array. -/
def rdn (xs : List Nat) (i : Nat) : Nat := xs.getD i 0

/-- Lines 188-194: the counter `num_known_g`. -/
def num_known_g (g_mask : List Bool) (n : Nat) : Nat :=
  (List.range n).countP fun i => rdb g_mask i

/-- Lines 188-194: the counter `num_unknown_f`. -/
def num_unknown_f (f_mask : List Bool) (n : Nat) : Nat :=
  (List.range n).countP fun i => !rdb f_mask i

/-- Lines 207-212: the index list `I_g` of the known `g` positions. -/
def I_g (g_mask : List Bool) (n : Nat) : List Nat :=
  (List.range n).filter fun i => rdb g_mask i

/-- Lines 207-212: the index list `I_f_known`. -/
def I_f_known (f_mask : List Bool) (n : Nat) : List Nat :=
  (List.range n).filter fun i => rdb f_mask i

/-- Lines 207-212: the index list `I_f_unk`. -/
def I_f_unk (f_mask : List Bool) (n : Nat) : List Nat :=
  (List.range n).filter fun i => !rdb f_mask i

/-- Lines 223-231: the circulant row `Hk` built from `h` for the known-g
index `k`.  The negation `-h[n + k - j]` is a negation of an `int32_t`. -/
def circulantRow (h : List Int) (n k : Nat) (mod : Int) : List Int :=
  (List.range n).map fun j =>
    normq (if k ≥ j then rd h (k - j) else wrap32 (-(rd h (n + k - j)))) mod

/-- Lines 234-238: the accumulator `total` after the loop over the known
positions of `f`; the product `(int64_t)Hk[j] * f[j]` and the sum
`total += ...` are operations on `int64_t`. -/
def totalOf (Hk f : List Int) (known : List Nat) : Int :=
  known.foldl (fun total j => wrap64 (total + wrap64 (rd Hk j * rd f j))) 0

/-- Lines 234-241: the right-hand side `rhs` of the equation of index `k`.  The
difference `g[k] - total` is a difference of `int64_t`. -/
def rhsOf (g f : List Int) (f_mask : List Bool) (h : List Int) (n k : Nat) (mod : Int) : Int :=
  let Hk := circulantRow h n k mod
  let total := totalOf Hk f (I_f_known f_mask n)
  normq (wrap64 (rd g k - total)) mod

/-- Lines 244-248: the row of `A` of the equation of index `k`, with
`num_unknown_f` entries. -/
def rowOfA (f_mask : List Bool) (h : List Int) (n k : Nat) (mod : Int) : List Int :=
  let Hk := circulantRow h n k mod
  (List.range (num_unknown_f f_mask n)).map fun idx =>
    normq (rd Hk (rdn (I_f_unk f_mask n) idx)) mod

/-- Lines 215-251: the matrix `A` handed to the solver. -/
def systemA (g_mask f_mask : List Bool) (h : List Int) (n : Nat) (mod : Int) :
    List (List Int) :=
  (List.range (num_known_g g_mask n)).map fun i =>
    rowOfA f_mask h n (rdn (I_g g_mask n) i) mod

/-- Lines 215-251: the vector `bvec` handed to the solver. -/
def systemB (g : List Int) (g_mask : List Bool) (f : List Int) (f_mask : List Bool)
    (h : List Int) (n : Nat) (mod : Int) : List Int :=
  (List.range (num_known_g g_mask n)).map fun i =>
    rhsOf g f f_mask h n (rdn (I_g g_mask n) i) mod

/-- Function `solve_unknown_f(g, g_mask, f, f_mask, h, n, mod)`. -/
def solve_unknown_f (g : List Int) (g_mask : List Bool) (f : List Int) (f_mask : List Bool)
    (h : List Int) (n : Nat) (mod : Int) : solve_result_t :=
  if num_known_g g_mask n = 0 then
    { x := none, n := 0, status := SOLVE_NO_KNOWN_G, message := "no known g" }
  else
    gaussian_mod_q_solve (systemA g_mask f_mask h n mod) (systemB g g_mask f f_mask h n mod)
      (num_known_g g_mask n) mod

/-! ## Specification-side notions -/

/-- Coefficient `k` of the product `h * F` in `Z[x]/(x^n + 1)`. -/
def negacyclic (h : List Int) (F : Nat → Int) (n k : Nat) : Int :=
  ∑ j in Finset.range n, if j ≤ k then rd h (k - j) * F j else -(rd h (n + k - j) * F j)

/-- The list of rows `A` has `n` rows of `m` entries each. -/
def IsMatrix (A : List (List Int)) (n m : Nat) : Prop :=
  A.length = n ∧ ∀ row ∈ A, row.length = m

instance (A : List (List Int)) (n m : Nat) : Decidable (IsMatrix A n m) := by
  unfold IsMatrix; infer_instance

/-- The integer `x` is the value of an `int32_t`. -/
def In32 (x : Int) : Prop := -2147483648 ≤ x ∧ x < 2147483648

instance (x : Int) : Decidable (In32 x) := by
  unfold In32; infer_instance

/-- The integer `x` is the value of an `int64_t`. -/
def In64 (x : Int) : Prop := -9223372036854775808 ≤ x ∧ x < 9223372036854775808

instance (x : Int) : Decidable (In64 x) := by
  unfold In64; infer_instance

/-- Adding the terms `φ j`, for `j` running through `known`, to the
accumulator `acc` stays within 64 bits: every term and every partial sum is the
value of an `int64_t`. -/
def AccInRange (φ : Nat → Int) : Int → List Nat → Prop
  | _, [] => True
  | acc, j :: js => In64 (φ j) ∧ In64 (acc + φ j) ∧ AccInRange φ (acc + φ j) js

instance (φ : Nat → Int) (acc : Int) (known : List Nat) : Decidable (AccInRange φ acc known) := by
  induction known generalizing acc with
  | nil => unfold AccInRange; infer_instance
  | cons j js ih => unfold AccInRange; infer_instance

/-- Building the equation of the known-g index `k` does not overflow: every
`h[n + k - j]` that is negated has its negation in 32 bits (it is not `-2^31`),
every product `Hk[j] * f[j]` and every partial sum of `total` is in 64 bits, and
so is the difference `g[k] - total`. -/
def RowNoOverflow (g f : List Int) (f_mask : List Bool) (h : List Int) (n k : Nat)
    (mod : Int) : Prop :=
  (∀ j, j < n → k < j → In32 (-(rd h (n + k - j)))) ∧
  AccInRange (fun j => rd (circulantRow h n k mod) j * rd f j) 0 (I_f_known f_mask n) ∧
  In64 (rd g k - totalOf (circulantRow h n k mod) f (I_f_known f_mask n))

instance (g f : List Int) (f_mask : List Bool) (h : List Int) (n k : Nat) (mod : Int) :
    Decidable (RowNoOverflow g f f_mask h n k mod) := by
  unfold RowNoOverflow; infer_instance

/-- Building the system does not overflow in any of its equations. -/
def NoOverflow (g : List Int) (g_mask : List Bool) (f : List Int) (f_mask : List Bool)
    (h : List Int) (n : Nat) (mod : Int) : Prop :=
  ∀ i, i < num_known_g g_mask n → RowNoOverflow g f f_mask h n (rdn (I_g g_mask n) i) mod

instance (g : List Int) (g_mask : List Bool) (f : List Int) (f_mask : List Bool)
    (h : List Int) (n : Nat) (mod : Int) : Decidable (NoOverflow g g_mask f f_mask h n mod) := by
  unfold NoOverflow; infer_instance

/-! ## Notions used by the proofs -/

/-- Invariant of the extended Euclidean loop of `modinv` for the reduced
argument `a` and the modulus `q`. -/
def LoopInv (a q t newt r newr : Int) : Prop :=
  0 ≤ newr ∧ newr < r ∧ t * a ≡ r [ZMOD q] ∧ newt * a ≡ newr [ZMOD q] ∧
  (∀ d : Int, (d ∣ r ∧ d ∣ newr) ↔ (d ∣ q ∧ d ∣ a)) ∧
  ∃ s : Int, (s = 1 ∨ s = -1) ∧ 0 < s * newt ∧ s * t ≤ 0 ∧
    s * (r * newt - newr * t) = q ∧ (-(s * t) < s * newt ∨ 0 < newr)

/-- Row that ends up at index `i` after exchanging rows `c` and `p`. -/
def swapIdx (c p i : Nat) : Nat := if i = c then p else if i = p then c else i

/-- Every entry of the `n × (n+1)` working matrix is a residue in `[0, q)`. -/
def InRange (M : List (List Int)) (n : Nat) (q : Int) : Prop :=
  ∀ i, i < n → ∀ j, j ≤ n → 0 ≤ entry M i j ∧ entry M i j < q

/-- The columns before `c` are the unit vectors. -/
def IdCols (M : List (List Int)) (n c : Nat) : Prop :=
  ∀ c', c' < c → ∀ r, r < n → entry M r c' = if r = c' then 1 else 0

/-- Row `i` of the working matrix applied to the vector `z` of length `n+1`. -/
def rowDot (M : List (List Int)) (n i : Nat) (z : Nat → Int) : Int :=
  ∑ j in Finset.range (n + 1), entry M i j * z j

/-- The vector `z` is annihilated modulo `q` by every row; with `z n = -1` this
says that `z 0 .. z (n-1)` solves the system held in the working matrix. -/
def Sat (M : List (List Int)) (n : Nat) (q : Int) (z : Nat → Int) : Prop :=
  ∀ i, i < n → rowDot M n i z ≡ 0 [ZMOD q]

/-- The vector `y` solves `A·y ≡ b (mod q)` on the first `n` rows and columns. -/
def Solves (A : List (List Int)) (b : List Int) (n : Nat) (q : Int) (y : Nat → Int) : Prop :=
  ∀ i, i < n → (∑ j in Finset.range n, entry A i j * y j) ≡ rd b i [ZMOD q]

/-- The vector `y` extended by `-1` in position `n`. -/
def extend (n : Nat) (y : Nat → Int) (j : Nat) : Int := if j < n then y j else -1

/-- Coefficient of `F j` in coefficient `k` of `h * F`. -/
def circCoeff (h : List Int) (n k j : Nat) : Int :=
  if j ≤ k then rd h (k - j) else -(rd h (n + k - j))

/-- Test vector of the failing column `c`: it is annihilated by the working
matrix and has a `1` in position `c`. -/
def kernelVec (M : List (List Int)) (c : Nat) (j : Nat) : Int :=
  if j < c then -(entry M j c) else if j = c then 1 else 0

/-- The leading `n × n` block of `A` as a matrix over the integers. -/
def matOf (A : List (List Int)) (n : Nat) : Matrix (Fin n) (Fin n) Int :=
  fun i j => entry A i.val j.val

/-- Determinant of the leading `n × n` block of `A`. -/
def detOf (A : List (List Int)) (n : Nat) : Int := (matOf A n).det

/-- The integer `d` has an inverse modulo `q`. -/
def InvertibleMod (d q : Int) : Prop := ∃ u : Int, d * u ≡ 1 [ZMOD q]

/-! ## Memory accesses to the matrix argument -/

/-- Lines 72-86: the cells `A[i][j]` that `gaussian_mod_q_solve` reads while it
copies `A` into the augmented matrix, for the dimension `n` it is handed:
every `i < n` and `j < n`, in the order of the two nested loops.  The matrix
argument is read nowhere else. -/
def readsOfA (n : Nat) : List (Nat × Nat) :=
  (List.range n).flatMap fun i => (List.range n).map fun j => (i, j)

/-- Number of cells allocated for row `i` of an array of rows. -/
def rowWidth (A : List (List Int)) (i : Nat) : Nat := (rowOf A i).length

/-- The read of cell `p = (i, j)` stays inside the rows and columns allocated
for `A`. -/
def inBounds (A : List (List Int)) (p : Nat × Nat) : Bool :=
  decide (p.1 < A.length) && decide (p.2 < rowWidth A p.1)

/-- The working matrices `M` and `N` have the same left `n × n` block. -/
def LeftEq (M N : List (List Int)) (n : Nat) : Prop :=
  ∀ i, i < n → ∀ j, j < n → entry M i j = entry N i j

/-- Shape of a successful result `r` for the dimension `n`, the modulus `q` and
the final working matrix `M`: the solution is present with `n` entries, the
message is `"ok"`, and entry `i` is the centered representative of `M[i][n]`,
inside `(-q/2, q/2]`. -/
def OkShape (r : solve_result_t) (M : List (List Int)) (n : Nat) (q : Int) : Prop :=
  ∃ xs, r.x = some xs ∧ xs.length = n ∧ r.message = "ok" ∧
    ∀ i, i < n → rd xs i = to_centered_mod (entry M i n) q ∧
      -q < 2 * rd xs i ∧ 2 * rd xs i ≤ q

/-! ## The elimination loop column by column -/

/-- Lines 92-148: the working matrix at the top of iteration `col` of the
elimination loop, that is after the columns `0 .. col-1` were processed without
failing (`eliminate` run for one column at a time); `none` when the loop has
returned before. -/
def stateAt (q : Int) (n : Nat) (M0 : List (List Int)) : Nat → Option (List (List Int))
  | 0 => some M0
  | c + 1 =>
    match stateAt q n M0 c with
    | none => none
    | some M =>
      match eliminate q n 1 c M with
      | ElimOutcome.done M' => some M'
      | _ => none

/-- The value `v` is invertible modulo `q`: non-zero modulo `q` and coprime to
`q`. -/
def InvertibleEntry (v q : Int) : Prop := v % q ≠ 0 ∧ Int.gcd v q = 1

instance (v q : Int) : Decidable (InvertibleEntry v q) := by
  unfold InvertibleEntry; infer_instance

/-- Right-hand side with `1` in position `k` and `0` elsewhere. -/
def unitVec (n k : Nat) : List Int := (List.range n).map fun i => if i = k then 1 else 0

/-- Matrix whose column `k` is the solution returned for the right-hand side
`unitVec n k`. -/
def inverseOf (A : List (List Int)) (n : Nat) (q : Int) : Matrix (Fin n) (Fin n) Int :=
  fun j k => rd ((gaussian_mod_q_solve A (unitVec n k.val) n q).x.getD []) j.val

/-- The leading `m × m` block of the array of rows `A`. -/
def squareBlock (A : List (List Int)) (m : Nat) : List (List Int) :=
  (List.range m).map fun i => (List.range m).map fun j => entry A i j

/-! ## 32-bit arithmetic of `modinv` -/

/-- The loop of `modinv` with every arithmetic result wrapped to 32 bits. -/
def modinvLoop32 : Nat → Int → Int → Int → Int → Int × Int
  | 0, t, _, r, _ => (t, r)
  | fuel + 1, t, newt, r, newr =>
    if newr = 0 then (t, r)
    else
      let quotient := wrap32 (Int.tdiv r newr)
      modinvLoop32 fuel newt (wrap32 (t - wrap32 (quotient * newt))) newr
        (wrap32 (r - wrap32 (quotient * newr)))

/-- Function `modinv(a, q)` with every arithmetic result wrapped to 32 bits. -/
def modinv32 (a q : Int) : Int :=
  let a0 := wrap32 (Int.tmod a q)
  let a1 := if a0 < 0 then wrap32 (a0 + q) else a0
  if a1 = 0 then -1
  else
    let tr := modinvLoop32 a1.toNat 0 1 q a1
    if tr.2 > 1 then -1
    else if tr.1 < 0 then wrap32 (tr.1 + q)
    else tr.1

/-- The values held and computed by the loop of `modinv` from the state
`(t, newt, r, newr)`: at the top of each iteration `t`, `newt`, `r`, `newr`,
and in each iteration that is run `quotient`, `quotient * newt` and
`quotient * newr`. -/
def modinvTrace : Nat → Int → Int → Int → Int → List Int
  | 0, t, newt, r, newr => [t, newt, r, newr]
  | fuel + 1, t, newt, r, newr =>
    if newr = 0 then [t, newt, r, newr]
    else
      let quotient := Int.tdiv r newr
      [t, newt, r, newr, quotient, quotient * newt, quotient * newr] ++
        modinvTrace fuel newt (t - quotient * newt) newr (r - quotient * newr)

/-- The intermediate values of `modinv(a, q)`: the reduced argument, the values
of the loop, and the returned value. -/
def modinvIntermediates (a q : Int) : List Int :=
  let a1 := normq a q
  if a1 = 0 then [Int.tmod a q, a1]
  else [Int.tmod a q, a1] ++ modinvTrace a1.toNat 0 1 q a1 ++ [modinv a q]

/-! ## Array accesses -/

/-- An access `arr[index]` to an array for which `size` cells are allocated;
the index is the integer the C expression evaluates to. -/
structure Access where
  arr : String
  index : Int
  size : Nat
  deriving DecidableEq

/-- The access is in bounds. -/
def Access.ok (a : Access) : Bool := decide (0 ≤ a.index) && decide (a.index < (a.size : Int))

/-- Index into `h` of lines 225-229: `k - j` when `k >= j`, else `n + k - j`,
in integer arithmetic. -/
def circIndex (n k j : Nat) : Int :=
  if k ≥ j then (k : Int) - (j : Int) else (n : Int) + (k : Int) - (j : Int)

/-- Lines 191-194: the accesses of the counting loop of `solve_unknown_f`. -/
def countAccesses (g_mask f_mask : List Bool) (n : Nat) : List Access :=
  (List.range n).flatMap fun i =>
    [⟨"g_mask", (i : Int), g_mask.length⟩, ⟨"f_mask", (i : Int), f_mask.length⟩]

/-- Lines 203-212: the accesses of the loop that fills the index lists; the
write positions `idx_g`, `idx_f_known`, `idx_f_unk` are the numbers of earlier
entries of each kind, and the lists are allocated with `num_known_g`, `n` and
`num_unknown_f` cells. -/
def indexAccesses (g_mask f_mask : List Bool) (n : Nat) : List Access :=
  (List.range n).flatMap fun i =>
    [⟨"g_mask", (i : Int), g_mask.length⟩, ⟨"f_mask", (i : Int), f_mask.length⟩] ++
    (if rdb g_mask i then
      [⟨"I_g", (((List.range i).countP fun t => rdb g_mask t : Nat) : Int),
        num_known_g g_mask n⟩]
    else []) ++
    (if rdb f_mask i then
      [⟨"I_f_known", (((List.range i).countP fun t => rdb f_mask t : Nat) : Int), n⟩]
    else
      [⟨"I_f_unk", (((List.range i).countP fun t => !rdb f_mask t : Nat) : Int),
        num_unknown_f f_mask n⟩])

/-- Lines 218-251: the accesses made while row `i` of the system is built. -/
def rowAccesses (g : List Int) (g_mask : List Bool) (f : List Int) (f_mask : List Bool)
    (h : List Int) (n i : Nat) : List Access :=
  [⟨"A", (i : Int), num_known_g g_mask n⟩, ⟨"I_g", (i : Int), num_known_g g_mask n⟩] ++
  ((List.range n).flatMap fun j =>
    [⟨"h", circIndex n (rdn (I_g g_mask n) i) j, h.length⟩, ⟨"Hk", (j : Int), n⟩]) ++
  ((List.range (I_f_known f_mask n).length).flatMap fun idx =>
    [⟨"I_f_known", (idx : Int), n⟩,
      ⟨"Hk", (rdn (I_f_known f_mask n) idx : Int), n⟩,
      ⟨"f", (rdn (I_f_known f_mask n) idx : Int), f.length⟩]) ++
  [⟨"g", (rdn (I_g g_mask n) i : Int), g.length⟩,
    ⟨"bvec", (i : Int), num_known_g g_mask n⟩] ++
  ((List.range (num_unknown_f f_mask n)).flatMap fun idx =>
    [⟨"I_f_unk", (idx : Int), num_unknown_f f_mask n⟩,
      ⟨"Hk", (rdn (I_f_unk f_mask n) idx : Int), n⟩,
      ⟨"A[i]", (idx : Int), num_unknown_f f_mask n⟩])

/-- Lines 181-262: every array access of `solve_unknown_f` outside the call of
the solver (the loops after the early return are listed whether or not it is
taken). -/
def builderAccesses (g : List Int) (g_mask : List Bool) (f : List Int) (f_mask : List Bool)
    (h : List Int) (n : Nat) : List Access :=
  [⟨"message", 0, 128⟩] ++ countAccesses g_mask f_mask n ++ indexAccesses g_mask f_mask n ++
  ((List.range (num_known_g g_mask n)).flatMap fun i => rowAccesses g g_mask f f_mask h n i) ++
  ((List.range (num_known_g g_mask n)).map fun i =>
    ⟨"A", (i : Int), num_known_g g_mask n⟩)

/-- Lines 54-89: the accesses of `gaussian_mod_q_solve` while it builds the
augmented matrix from the arrays `A` and `b` it is handed. -/
def copyAccesses (A : List (List Int)) (b : List Int) (n : Nat) : List Access :=
  [⟨"message", 0, 128⟩] ++
  (List.range n).flatMap fun i =>
    [⟨"M", (i : Int), n⟩] ++
    ((List.range n).flatMap fun j =>
      [⟨"A", (i : Int), A.length⟩, ⟨"A[i]", (j : Int), rowWidth A i⟩,
        ⟨"M[i]", (j : Int), n + 1⟩]) ++
    [⟨"b", (i : Int), b.length⟩, ⟨"M[i]", (n : Int), n + 1⟩]

/-- Lines 92-148: the accesses of the elimination loop, for every column
`col < n` and every value `p` in `col .. n-1` the scan can leave in
`pivot_row`; all of them go to the `n` row pointers of `M` or to a row of
`n + 1` cells. -/
def elimAccesses (n : Nat) : List Access :=
  (List.range n).flatMap fun col =>
    ((List.range' col (n - col)).flatMap fun row =>
      [⟨"M", (row : Int), n⟩, ⟨"M[i]", (col : Int), n + 1⟩]) ++
    ((List.range n).map fun i => ⟨"M", (i : Int), n⟩) ++
    ((List.range' col (n - col)).flatMap fun p =>
      [⟨"M", (col : Int), n⟩, ⟨"M", (p : Int), n⟩]) ++
    [⟨"M", (col : Int), n⟩, ⟨"M[i]", (col : Int), n + 1⟩] ++
    ((List.range' col (n + 1 - col)).map fun j => ⟨"M[i]", (j : Int), n + 1⟩) ++
    ((List.range n).flatMap fun row =>
      [⟨"M", (row : Int), n⟩, ⟨"M[i]", (col : Int), n + 1⟩, ⟨"M", (col : Int), n⟩] ++
      ((List.range' col (n + 1 - col)).map fun j => ⟨"M[i]", (j : Int), n + 1⟩))

/-- Lines 150-168: the accesses made while the solution is extracted and the
working matrix released. -/
def extractAccesses (n : Nat) : List Access :=
  (List.range n).flatMap fun i =>
    [⟨"x", (i : Int), n⟩, ⟨"M", (i : Int), n⟩, ⟨"M[i]", (n : Int), n + 1⟩,
      ⟨"M", (i : Int), n⟩]

/-- Every array access of `gaussian_mod_q_solve(A, b, n, q)`. -/
def gaussianAccesses (A : List (List Int)) (b : List Int) (n : Nat) : List Access :=
  copyAccesses A b n ++ elimAccesses n ++ extractAccesses n

/-! ## Modular arithmetic -/

theorem tmod_bounds (x q : Int) (hq : 0 < q) : -q < Int.tmod x q ∧ Int.tmod x q < q := by
  refine ⟨?_, Int.tmod_lt_of_pos x hq⟩
  rcases le_or_lt 0 x with hx | hx
  · have := Int.tmod_nonneg q hx
    omega
  · have h1 : Int.tmod (-x) q < q := Int.tmod_lt_of_pos (-x) hq
    have h2 : Int.tmod (-x) q = -Int.tmod x q := by
      rw [Int.tmod_def, Int.tmod_def, Int.neg_tdiv]
      ring
    omega

theorem tmod_modEq (x q : Int) : Int.tmod x q ≡ x [ZMOD q] := by
  rw [Int.tmod_def]
  exact (Int.modEq_iff_dvd.2 ⟨x.tdiv q, by ring⟩)

theorem normq_eq_emod (x q : Int) (hq : 0 < q) : normq x q = x % q := by
  have hb := tmod_bounds x q hq
  have hm := tmod_modEq x q
  unfold normq
  simp only
  split_ifs with h
  · have h2 : (Int.tmod x q + q) % q = x % q := by
      rw [Int.add_emod_self]; exact hm
    rw [← h2, Int.emod_eq_of_lt (by omega) (by omega)]
  · rw [← hm, Int.emod_eq_of_lt (by omega) (by omega)]

theorem loopInv_init (a q : Int) (ha : 0 < a) (haq : a < q) : LoopInv a q 0 1 q a := by
  refine ⟨ha.le, haq, ?_, ?_, fun d => Iff.rfl, 1, Or.inl rfl, by norm_num, by norm_num,
    by ring, Or.inr ha⟩
  · exact Int.modEq_iff_dvd.2 ⟨1, by ring⟩
  · simp

theorem loopInv_step (a q t newt r newr : Int) (h : LoopInv a q t newt r newr) (hne : newr ≠ 0) :
    LoopInv a q newt (t - Int.tdiv r newr * newt) newr (r - Int.tdiv r newr * newr) ∧
    r - Int.tdiv r newr * newr < newr := by
  obtain ⟨h0, hlt, ht, hnt, hd, s, hs, hsn, hst, hdet, hstrict⟩ := h
  have hpos : 0 < newr := lt_of_le_of_ne h0 (Ne.symm hne)
  have hq : Int.tdiv r newr = r / newr := Int.tdiv_eq_ediv (by omega) h0
  rw [hq]
  have hmod : r - r / newr * newr = r % newr := by
    have := Int.emod_add_ediv r newr
    linarith [mul_comm (r / newr) newr]
  have hm0 : 0 ≤ r - r / newr * newr := hmod ▸ Int.emod_nonneg r hne
  have hm1 : r - r / newr * newr < newr := hmod ▸ Int.emod_lt_of_pos r hpos
  have hquot : 1 ≤ r / newr := Int.le_ediv_of_mul_le hpos (by omega)
  refine ⟨⟨hm0, hm1, hnt, ?_, ?_, -s, ?_, ?_, ?_, ?_, ?_⟩, hm1⟩
  · have : (t - r / newr * newt) * a = t * a - r / newr * (newt * a) := by ring
    rw [this]
    exact Int.ModEq.sub ht (Int.ModEq.mul_left _ hnt)
  · intro d
    rw [← hd d]
    constructor
    · rintro ⟨h1, h2⟩
      refine ⟨?_, h1⟩
      have : r = (r - r / newr * newr) + r / newr * newr := by ring
      rw [this]
      exact dvd_add h2 (Dvd.dvd.mul_left h1 _)
    · rintro ⟨h1, h2⟩
      exact ⟨h2, dvd_sub h1 (Dvd.dvd.mul_left h2 _)⟩
  · rcases hs with rfl | rfl <;> simp
  · have hp : 0 < r / newr * (s * newt) := mul_pos (by omega) hsn
    nlinarith
  · nlinarith
  · linear_combination hdet
  · rcases hquot.lt_or_eq with h2 | h1
    · left
      have : 2 * (s * newt) ≤ r / newr * (s * newt) := by
        apply mul_le_mul_of_nonneg_right (by omega) hsn.le
      nlinarith
    · rw [← h1]
      right; omega

theorem modinvLoop_spec (a q : Int) (hq : 0 < q) :
    ∀ (fuel : Nat) (t newt r newr : Int), LoopInv a q t newt r newr → newr.toNat ≤ fuel →
      (modinvLoop fuel t newt r newr).2 = Int.gcd q a ∧
      (modinvLoop fuel t newt r newr).1 * a ≡ (modinvLoop fuel t newt r newr).2 [ZMOD q] ∧
      -q < (modinvLoop fuel t newt r newr).1 ∧ (modinvLoop fuel t newt r newr).1 < q := by
  have exit : ∀ t newt r : Int, LoopInv a q t newt r 0 →
      r = Int.gcd q a ∧ t * a ≡ r [ZMOD q] ∧ -q < t ∧ t < q := by
    intro t newt r h
    obtain ⟨_, hlt, ht, _, hd, s, hs, hsn, hst, hdet, hstrict⟩ := h
    refine ⟨?_, ht, ?_, ?_⟩
    · have h1 : r ∣ q ∧ r ∣ a := (hd r).1 ⟨dvd_refl r, dvd_zero r⟩
      have h2 : ((Int.gcd q a : Int)) ∣ r :=
        ((hd _).2 ⟨Int.gcd_dvd_left, Int.gcd_dvd_right⟩).1
      have h3 : r ∣ (Int.gcd q a : Int) := Int.dvd_gcd h1.1 h1.2
      exact Int.dvd_antisymm hlt.le (Int.ofNat_nonneg _) h3 h2
    all_goals
      have hlt2 : -(s * t) < s * newt := by
        rcases hstrict with h | h
        · exact h
        · exact absurd h (lt_irrefl 0)
      have hb : s * newt ≤ q := by
        have : s * newt ≤ r * (s * newt) := by
          have := mul_le_mul_of_nonneg_right (show (1:Int) ≤ r by omega) hsn.le
          simpa using this
        nlinarith
      rcases hs with rfl | rfl <;> omega
  intro fuel
  induction fuel with
  | zero =>
    intro t newt r newr h hf
    have h0 : newr = 0 := by
      have := h.1
      omega
    subst h0
    simpa [modinvLoop] using exit t newt r h
  | succ k ih =>
    intro t newt r newr h hf
    by_cases h0 : newr = 0
    · subst h0
      simpa [modinvLoop] using exit t newt r h
    · have hs := loopInv_step a q t newt r newr h h0
      have := ih _ _ _ _ hs.1 (by have := hs.2; have := hs.1.1; omega)
      simpa [modinvLoop, h0] using this

/-- The iteration bound of `modinvLoop` is never reached: from any state
satisfying the loop invariant, more iterations than the current remainder
`newr` change nothing, the loop having left through `newr == 0`. -/
theorem modinvLoop_fuel (a q : Int) :
    ∀ (fuel k : Nat) (t newt r newr : Int), LoopInv a q t newt r newr → newr.toNat ≤ fuel →
      modinvLoop (fuel + k) t newt r newr = modinvLoop fuel t newt r newr := by
  intro fuel
  induction fuel with
  | zero =>
    intro k t newt r newr h hf
    have h0 : newr = 0 := by
      have := h.1
      omega
    subst h0
    cases k with
    | zero => rfl
    | succ k => simp [modinvLoop]
  | succ m ih =>
    intro k t newt r newr h hf
    have e : m + 1 + k = (m + k) + 1 := by omega
    rw [e]
    by_cases h0 : newr = 0
    · simp [modinvLoop, h0]
    · have hs := loopInv_step a q t newt r newr h h0
      have := ih k _ _ _ _ hs.1 (by have := hs.2; have := hs.1.1; omega)
      simpa [modinvLoop, h0] using this

theorem gcd_emod_right (a q : Int) : Int.gcd q (a % q) = Int.gcd q a := by
  have key : a % q = a - q * (a / q) := by
    have := Int.emod_add_ediv a q
    linarith
  apply Nat.dvd_antisymm
  · apply Int.natCast_dvd_natCast.1
    apply Int.dvd_gcd Int.gcd_dvd_left
    have h1 : (Int.gcd q (a % q) : Int) ∣ a % q := Int.gcd_dvd_right
    have h2 : (Int.gcd q (a % q) : Int) ∣ q := Int.gcd_dvd_left
    have h3 : a = a % q + q * (a / q) := by rw [key]; ring
    have h4 := dvd_add h1 (Dvd.dvd.mul_right h2 (a / q))
    rwa [← h3] at h4
  · apply Int.natCast_dvd_natCast.1
    apply Int.dvd_gcd Int.gcd_dvd_left
    rw [key]
    exact dvd_sub Int.gcd_dvd_right (Dvd.dvd.mul_right Int.gcd_dvd_left _)

/-- What `modinv` computes, for a positive modulus: the sentinel exactly on the
non-units, otherwise the inverse in `[0, q)`. -/
theorem modinv_spec (a q : Int) (hq : 0 < q) :
    ((a % q = 0 ∨ Int.gcd a q ≠ 1) ∧ modinv a q = -1) ∨
    ((a % q ≠ 0 ∧ Int.gcd a q = 1) ∧ 0 ≤ modinv a q ∧ modinv a q < q ∧
      a * modinv a q ≡ 1 [ZMOD q]) := by
  have hn := normq_eq_emod a q hq
  unfold modinv
  simp only [hn]
  by_cases h0 : a % q = 0
  · left; exact ⟨Or.inl h0, by simp [h0]⟩
  · rw [if_neg h0]
    have hpos : 0 < a % q := lt_of_le_of_ne (Int.emod_nonneg a hq.ne') (Ne.symm h0)
    have hlt : a % q < q := Int.emod_lt_of_pos a hq
    have hspec := modinvLoop_spec (a % q) q hq (a % q).toNat 0 1 q (a % q)
      (loopInv_init _ _ hpos hlt) le_rfl
    obtain ⟨hr, hta, hl, hu⟩ := hspec
    rw [gcd_emod_right, Int.gcd_comm] at hr
    have hgpos : 0 < Int.gcd a q := Int.gcd_pos_of_ne_zero_right a hq.ne'
    by_cases hg : Int.gcd a q = 1
    · right
      refine ⟨⟨h0, hg⟩, ?_⟩
      rw [hg] at hr
      have hr1 : ¬ (modinvLoop (a % q).toNat 0 1 q (a % q)).2 > 1 := by rw [hr]; norm_num
      rw [if_neg hr1]
      rw [hr] at hta
      have hta2 : a * (modinvLoop (a % q).toNat 0 1 q (a % q)).1 ≡ 1 [ZMOD q] := by
        have h1 : a * (modinvLoop (a % q).toNat 0 1 q (a % q)).1 ≡
            (modinvLoop (a % q).toNat 0 1 q (a % q)).1 * (a % q) [ZMOD q] := by
          rw [mul_comm]
          exact Int.ModEq.mul_left _ (Int.mod_modEq a q).symm
        exact h1.trans hta
      split_ifs with hneg
      · refine ⟨by omega, by omega, ?_⟩
        have : a * ((modinvLoop (a % q).toNat 0 1 q (a % q)).1 + q) =
            a * (modinvLoop (a % q).toNat 0 1 q (a % q)).1 + q * a := by ring
        rw [this]
        have h2 : a * (modinvLoop (a % q).toNat 0 1 q (a % q)).1 + q * a ≡
            a * (modinvLoop (a % q).toNat 0 1 q (a % q)).1 [ZMOD q] :=
          Int.modEq_iff_dvd.2 ⟨-a, by ring⟩
        exact h2.trans hta2
      · exact ⟨by omega, hu, hta2⟩
    · left
      refine ⟨Or.inr hg, ?_⟩
      have : (modinvLoop (a % q).toNat 0 1 q (a % q)).2 > 1 := by
        rw [hr]
        have : 1 < Int.gcd a q := by omega
        exact_mod_cast this
      rw [if_pos this]

/-! ## Reading tabulated arrays -/

theorem rd_tab (φ : Nat → Int) (m j : Nat) (hj : j < m) :
    rd ((List.range m).map φ) j = φ j := by
  simp [rd, List.getD_eq_getElem?_getD, List.getElem?_map, List.getElem?_range hj]

theorem rd_tab_snoc_lt (φ : Nat → Int) (v : Int) (m j : Nat) (hj : j < m) :
    rd ((List.range m).map φ ++ [v]) j = φ j := by
  have h : j < ((List.range m).map φ).length := by simpa using hj
  simp [rd, List.getD_eq_getElem?_getD, List.getElem?_append_left h, List.getElem?_map,
    List.getElem?_range hj]

theorem rd_tab_snoc_eq (φ : Nat → Int) (v : Int) (m : Nat) :
    rd ((List.range m).map φ ++ [v]) m = v := by
  have h : ((List.range m).map φ).length ≤ m := by simp
  simp [rd, List.getD_eq_getElem?_getD, List.getElem?_append_right h]

theorem rowOf_tab (F : Nat → List Int) (n i : Nat) (hi : i < n) :
    rowOf ((List.range n).map F) i = F i := by
  simp [rowOf, List.getD_eq_getElem?_getD, List.getElem?_map, List.getElem?_range hi]

theorem entry_tab (F : Nat → List Int) (n i j : Nat) (hi : i < n) :
    entry ((List.range n).map F) i j = rd (F i) j := by
  unfold entry
  rw [rowOf_tab F n i hi]

/-! ## Entries after each in-place operation -/

theorem normq_range (x q : Int) (hq : 0 < q) : 0 ≤ normq x q ∧ normq x q < q := by
  rw [normq_eq_emod x q hq]
  exact ⟨Int.emod_nonneg x hq.ne', Int.emod_lt_of_pos x hq⟩

theorem normq_modEq (x q : Int) (hq : 0 < q) : normq x q ≡ x [ZMOD q] := by
  rw [normq_eq_emod x q hq]
  exact Int.mod_modEq x q

theorem normq_of_range (x q : Int) (h0 : 0 ≤ x) (h1 : x < q) : normq x q = x := by
  rw [normq_eq_emod x q (by omega)]
  exact Int.emod_eq_of_lt h0 h1

theorem entry_buildAug (A : List (List Int)) (b : List Int) (n : Nat) (q : Int) (i j : Nat)
    (hi : i < n) (hj : j ≤ n) :
    entry (buildAug A b n q) i j =
      if j < n then normq (entry A i j) q else normq (rd b i) q := by
  unfold buildAug
  rw [entry_tab _ n i j hi]
  by_cases h : j < n
  · rw [if_pos h, rd_tab_snoc_lt _ _ n j h]
  · have : j = n := by omega
    subst this
    rw [if_neg h, rd_tab_snoc_eq]

theorem entry_swapRows (M : List (List Int)) (n c p i j : Nat) (hi : i < n) :
    entry (swapRows M n c p) i j = entry M (swapIdx c p i) j := by
  unfold swapRows swapIdx
  rw [entry_tab _ n i j hi]
  split_ifs <;> rfl

theorem entry_normalizeRow (M : List (List Int)) (q : Int) (n c : Nat) (inv : Int) (i j : Nat)
    (hi : i < n) (hj : j ≤ n) :
    entry (normalizeRow M q n c inv) i j =
      if i = c then (if c ≤ j then normq (entry M c j * inv) q else entry M c j)
      else entry M i j := by
  unfold normalizeRow
  rw [entry_tab _ n i j hi]
  by_cases h : i = c
  · rw [if_pos h, if_pos h, rd_tab _ (n + 1) j (by omega)]
  · rw [if_neg h, if_neg h]; rfl

theorem entry_eliminateRows (M : List (List Int)) (q : Int) (n c : Nat) (i j : Nat)
    (hi : i < n) (hj : j ≤ n) :
    entry (eliminateRows M q n c) i j =
      if i = c then entry M i j
      else if c ≤ j then normq (entry M i j - normq (entry M i c) q * entry M c j) q
      else entry M i j := by
  unfold eliminateRows
  rw [entry_tab _ n i j hi]
  by_cases h : i = c
  · rw [if_pos h, if_pos h]; rfl
  · rw [if_neg h, if_neg h]
    simp only
    rw [rd_tab _ (n + 1) j (by omega)]

/-! ## Invariants of the elimination -/

theorem sum_modEq {s : Finset Nat} {f g : Nat → Int} {q : Int}
    (h : ∀ i ∈ s, f i ≡ g i [ZMOD q]) : (∑ i in s, f i) ≡ ∑ i in s, g i [ZMOD q] := by
  rw [Int.modEq_iff_dvd, ← Finset.sum_sub_distrib]
  exact Finset.dvd_sum (fun i hi => Int.modEq_iff_dvd.1 (h i hi))

theorem swapIdx_lt (n c p i : Nat) (hc : c < n) (hp : p < n) (hi : i < n) :
    swapIdx c p i < n := by
  unfold swapIdx; split_ifs <;> omega

theorem swapIdx_swapIdx (c p i : Nat) : swapIdx c p (swapIdx c p i) = i := by
  unfold swapIdx; split_ifs <;> omega

theorem rowDot_swapRows (M : List (List Int)) (n c p i : Nat) (z : Nat → Int) (hi : i < n) :
    rowDot (swapRows M n c p) n i z = rowDot M n (swapIdx c p i) z := by
  unfold rowDot
  apply Finset.sum_congr rfl
  intro j _
  rw [entry_swapRows M n c p i j hi]

theorem sat_swapRows (M : List (List Int)) (n c p : Nat) (q : Int) (z : Nat → Int)
    (hc : c < n) (hp : p < n) : Sat (swapRows M n c p) n q z ↔ Sat M n q z := by
  constructor
  · intro h i hi
    have := h (swapIdx c p i) (swapIdx_lt n c p i hc hp hi)
    rwa [rowDot_swapRows M n c p _ z (swapIdx_lt n c p i hc hp hi), swapIdx_swapIdx] at this
  · intro h i hi
    rw [rowDot_swapRows M n c p i z hi]
    exact h _ (swapIdx_lt n c p i hc hp hi)

theorem inRange_swapRows (M : List (List Int)) (n c p : Nat) (q : Int)
    (hc : c < n) (hp : p < n) (h : InRange M n q) : InRange (swapRows M n c p) n q := by
  intro i hi j hj
  rw [entry_swapRows M n c p i j hi]
  exact h _ (swapIdx_lt n c p i hc hp hi) j hj

theorem idCols_swapRows (M : List (List Int)) (n c p : Nat)
    (hcp : c ≤ p) (h : IdCols M n c) (hp : p < n) : IdCols (swapRows M n c p) n c := by
  intro c' hc' r hr
  rw [entry_swapRows M n c p r c' hr]
  have hc : c < n := by omega
  rw [h c' hc' _ (swapIdx_lt n c p r hc hp hr)]
  unfold swapIdx
  split_ifs <;> first | rfl | omega

theorem rowDot_modEq_of_entries (M N : List (List Int)) (n i k : Nat) (a : Int) (q : Int)
    (z : Nat → Int)
    (h : ∀ j, j ≤ n → entry N i j ≡ entry M i j - a * entry M k j [ZMOD q]) :
    rowDot N n i z ≡ rowDot M n i z - a * rowDot M n k z [ZMOD q] := by
  unfold rowDot
  rw [Finset.mul_sum, ← Finset.sum_sub_distrib]
  apply sum_modEq
  intro j hj
  have hj' : j ≤ n := by
    have := Finset.mem_range.1 hj
    omega
  have := Int.ModEq.mul_right (z j) (h j hj')
  have e : (entry M i j - a * entry M k j) * z j =
      entry M i j * z j - a * (entry M k j * z j) := by ring
  rwa [e] at this

theorem rowDot_congr (M N : List (List Int)) (n i : Nat) (z : Nat → Int)
    (h : ∀ j, j ≤ n → entry N i j = entry M i j) : rowDot N n i z = rowDot M n i z := by
  unfold rowDot
  apply Finset.sum_congr rfl
  intro j hj
  have hj' : j ≤ n := by
    have := Finset.mem_range.1 hj
    omega
  rw [h j hj']

theorem entry_normalizeRow_modEq (M : List (List Int)) (q : Int) (n c : Nat) (inv : Int)
    (hq : 0 < q) (hc : c < n) (hid : IdCols M n c) (j : Nat) (hj : j ≤ n) :
    entry (normalizeRow M q n c inv) c j ≡ inv * entry M c j [ZMOD q] := by
  rw [entry_normalizeRow M q n c inv c j hc hj, if_pos rfl]
  by_cases h : c ≤ j
  · rw [if_pos h, mul_comm inv]
    exact normq_modEq _ q hq
  · rw [if_neg h]
    have : entry M c j = 0 := by
      rw [hid j (by omega) c hc, if_neg (by omega)]
    rw [this, mul_zero]

theorem sat_normalizeRow (M : List (List Int)) (q : Int) (n c : Nat) (inv : Int)
    (z : Nat → Int) (hq : 0 < q) (hc : c < n) (hid : IdCols M n c)
    (hinv : entry M c c * inv ≡ 1 [ZMOD q]) :
    Sat (normalizeRow M q n c inv) n q z ↔ Sat M n q z := by
  have hrow : rowDot (normalizeRow M q n c inv) n c z ≡ inv * rowDot M n c z [ZMOD q] := by
    have := rowDot_modEq_of_entries M (normalizeRow M q n c inv) n c c (1 - inv) q z
      (fun j hj => by
        have := entry_normalizeRow_modEq M q n c inv hq hc hid j hj
        have e : entry M c j - (1 - inv) * entry M c j = inv * entry M c j := by ring
        rwa [e])
    have e : rowDot M n c z - (1 - inv) * rowDot M n c z = inv * rowDot M n c z := by ring
    rwa [e] at this
  have hother : ∀ i, i < n → i ≠ c →
      rowDot (normalizeRow M q n c inv) n i z = rowDot M n i z := by
    intro i hi hne
    apply rowDot_congr
    intro j hj
    rw [entry_normalizeRow M q n c inv i j hi hj, if_neg hne]
  constructor
  · intro h i hi
    by_cases hic : i = c
    · subst hic
      have h1 := hrow.symm.trans (h i hi)
      have h2 := Int.ModEq.mul_left (entry M i i) h1
      have h3 : entry M i i * (inv * rowDot M n i z) ≡ 1 * rowDot M n i z [ZMOD q] := by
        rw [← mul_assoc]
        exact Int.ModEq.mul_right _ hinv
      rw [one_mul] at h3
      rw [mul_zero] at h2
      exact h3.symm.trans h2
    · rw [← hother i hi hic]; exact h i hi
  · intro h i hi
    by_cases hic : i = c
    · subst hic
      have := Int.ModEq.mul_left inv (h i hi)
      rw [mul_zero] at this
      exact hrow.trans this
    · rw [hother i hi hic]; exact h i hi

theorem inRange_normalizeRow (M : List (List Int)) (q : Int) (n c : Nat) (inv : Int)
    (hq : 0 < q) (hc : c < n) (h : InRange M n q) :
    InRange (normalizeRow M q n c inv) n q := by
  intro i hi j hj
  rw [entry_normalizeRow M q n c inv i j hi hj]
  split_ifs
  · exact normq_range _ q hq
  · exact h c hc j hj
  · exact h i hi j hj

theorem idCols_normalizeRow (M : List (List Int)) (q : Int) (n c : Nat) (inv : Int)
    (hc : c < n) (h : IdCols M n c) : IdCols (normalizeRow M q n c inv) n c := by
  intro c' hc' r hr
  rw [entry_normalizeRow M q n c inv r c' hr (by omega)]
  by_cases hrc : r = c
  · subst hrc
    rw [if_pos rfl, if_neg (by omega)]
    exact h c' hc' r hr
  · rw [if_neg hrc]
    exact h c' hc' r hr

theorem pivot_normalizeRow (M : List (List Int)) (q : Int) (n c : Nat) (inv : Int)
    (hq : 2 ≤ q) (hc : c < n) (hinv : entry M c c * inv ≡ 1 [ZMOD q]) :
    entry (normalizeRow M q n c inv) c c = 1 := by
  rw [entry_normalizeRow M q n c inv c c hc (by omega), if_pos rfl, if_pos le_rfl,
    normq_eq_emod _ q (by omega)]
  have : (entry M c c * inv) % q = 1 % q := hinv
  rw [this]
  exact Int.emod_eq_of_lt (by omega) (by omega)

theorem entry_eliminateRows_modEq (M : List (List Int)) (q : Int) (n c : Nat)
    (hq : 0 < q) (hc : c < n) (hid : IdCols M n c) (i j : Nat) (hi : i < n) (hic : i ≠ c)
    (hj : j ≤ n) :
    entry (eliminateRows M q n c) i j ≡
      entry M i j - normq (entry M i c) q * entry M c j [ZMOD q] := by
  rw [entry_eliminateRows M q n c i j hi hj, if_neg hic]
  by_cases h : c ≤ j
  · rw [if_pos h]
    exact normq_modEq _ q hq
  · rw [if_neg h]
    have : entry M c j = 0 := by
      rw [hid j (by omega) c hc, if_neg (by omega)]
    rw [this, mul_zero, sub_zero]

theorem sat_eliminateRows (M : List (List Int)) (q : Int) (n c : Nat) (z : Nat → Int)
    (hq : 0 < q) (hc : c < n) (hid : IdCols M n c) :
    Sat (eliminateRows M q n c) n q z ↔ Sat M n q z := by
  have hpiv : rowDot (eliminateRows M q n c) n c z = rowDot M n c z := by
    apply rowDot_congr
    intro j hj
    rw [entry_eliminateRows M q n c c j hc hj, if_pos rfl]
  have hrow : ∀ i, i < n → i ≠ c → rowDot (eliminateRows M q n c) n i z ≡
      rowDot M n i z - normq (entry M i c) q * rowDot M n c z [ZMOD q] := by
    intro i hi hic
    exact rowDot_modEq_of_entries M _ n i c _ q z
      (fun j hj => entry_eliminateRows_modEq M q n c hq hc hid i j hi hic hj)
  constructor
  · intro h i hi
    by_cases hic : i = c
    · subst hic
      rw [← hpiv]; exact h i hi
    · have h1 := (hrow i hi hic).symm.trans (h i hi)
      have h2 : rowDot M n c z ≡ 0 [ZMOD q] := by rw [← hpiv]; exact h c hc
      have h3 := Int.ModEq.add h1 (Int.ModEq.mul_left (normq (entry M i c) q) h2)
      simpa using h3
  · intro h i hi
    by_cases hic : i = c
    · subst hic
      rw [hpiv]; exact h i hi
    · have h3 := Int.ModEq.sub (h i hi) (Int.ModEq.mul_left (normq (entry M i c) q) (h c hc))
      rw [mul_zero, sub_zero] at h3
      exact (hrow i hi hic).trans h3

theorem inRange_eliminateRows (M : List (List Int)) (q : Int) (n c : Nat)
    (hq : 0 < q) (h : InRange M n q) : InRange (eliminateRows M q n c) n q := by
  intro i hi j hj
  rw [entry_eliminateRows M q n c i j hi hj]
  split_ifs
  · exact h i hi j hj
  · exact normq_range _ q hq
  · exact h i hi j hj

theorem idCols_eliminateRows (M : List (List Int)) (q : Int) (n c : Nat)
    (hq : 0 < q) (hc : c < n) (hr : InRange M n q) (hid : IdCols M n c)
    (hpiv : entry M c c = 1) : IdCols (eliminateRows M q n c) n (c + 1) := by
  intro c' hc' r hrn
  rw [entry_eliminateRows M q n c r c' hrn (by omega)]
  by_cases hrc : r = c
  · subst hrc
    rw [if_pos rfl]
    by_cases hcc : c' = r
    · subst hcc; rw [hpiv, if_pos rfl]
    · exact hid c' (by omega) r hrn
  · rw [if_neg hrc]
    by_cases hcc : c' = c
    · subst hcc
      rw [if_pos le_rfl, if_neg hrc, hpiv, mul_one,
        normq_of_range _ q (hr r hrn c' (by omega)).1 (hr r hrn c' (by omega)).2, sub_self]
      exact normq_of_range 0 q le_rfl hq
    · rw [if_neg (by omega)]
      exact hid c' (by omega) r hrn

/-! ## Pivot search and the elimination loop -/

theorem findPivotFrom_some (M : List (List Int)) (q : Int) (col : Nat) :
    ∀ (k row p : Nat), findPivotFrom M q col k row = some p →
      row ≤ p ∧ p < row + k ∧ pivotOk (entry M p col) q = true ∧
      ∀ r, row ≤ r → r < p → pivotOk (entry M r col) q = false := by
  intro k
  induction k with
  | zero => intro row p h; simp [findPivotFrom] at h
  | succ k ih =>
    intro row p h
    unfold findPivotFrom at h
    by_cases hp : pivotOk (entry M row col) q = true
    · rw [if_pos hp] at h
      have : row = p := by simpa using h
      subst this
      exact ⟨le_rfl, by omega, hp, fun r h1 h2 => by omega⟩
    · rw [if_neg hp] at h
      obtain ⟨h1, h2, h3, h4⟩ := ih (row + 1) p h
      refine ⟨by omega, by omega, h3, ?_⟩
      intro r hr1 hr2
      by_cases hrr : r = row
      · subst hrr; simpa using hp
      · exact h4 r (by omega) hr2

theorem findPivotFrom_none (M : List (List Int)) (q : Int) (col : Nat) :
    ∀ (k row : Nat), findPivotFrom M q col k row = none →
      ∀ r, row ≤ r → r < row + k → pivotOk (entry M r col) q = false := by
  intro k
  induction k with
  | zero => intro row _ r h1 h2; omega
  | succ k ih =>
    intro row h r hr1 hr2
    unfold findPivotFrom at h
    by_cases hp : pivotOk (entry M row col) q = true
    · rw [if_pos hp] at h; simp at h
    · rw [if_neg hp] at h
      by_cases hrr : r = row
      · subst hrr; simpa using hp
      · exact ih (row + 1) h r (by omega) (by omega)

theorem pivotOk_true (v q : Int) (h : pivotOk v q = true) :
    Int.tmod v q ≠ 0 ∧ modinv v q ≠ -1 := by
  unfold pivotOk at h
  simpa using h

/-- One column of the elimination keeps the invariants, and the inverse of the
selected pivot always exists. -/
theorem column_step (q : Int) (n col p : Nat) (M : List (List Int)) (hq : 0 < q)
    (hcol : col < n) (hr : InRange M n q) (hid : IdCols M n col)
    (hp : findPivot M q n col = some p) :
    modinv (Int.tmod (entry (swapRows M n col p) col col) q) q ≠ -1 ∧
    InRange (eliminateRows (normalizeRow (swapRows M n col p) q n col
      (modinv (Int.tmod (entry (swapRows M n col p) col col) q) q)) q n col) n q ∧
    IdCols (eliminateRows (normalizeRow (swapRows M n col p) q n col
      (modinv (Int.tmod (entry (swapRows M n col p) col col) q) q)) q n col) n (col + 1) ∧
    ∀ z, Sat (eliminateRows (normalizeRow (swapRows M n col p) q n col
      (modinv (Int.tmod (entry (swapRows M n col p) col col) q) q)) q n col) n q z ↔
      Sat M n q z := by
  obtain ⟨h1, h2, h3, _⟩ := findPivotFrom_some M q col (n - col) col p hp
  have hpn : p < n := by omega
  obtain ⟨hnz, hinv⟩ := pivotOk_true _ _ h3
  have hsw : entry (swapRows M n col p) col col = entry M p col := by
    rw [entry_swapRows M n col p col col hcol]
    simp [swapIdx]
  have hv := hr p hpn col (by omega)
  have htm : Int.tmod (entry M p col) q = entry M p col := Int.tmod_eq_of_lt hv.1 hv.2
  rw [hsw, htm]
  have hq2 : 2 ≤ q := by
    by_contra hlt
    have : q = 1 := by omega
    subst this
    simp at hnz
  have hmul : entry (swapRows M n col p) col col * modinv (entry M p col) q ≡ 1 [ZMOD q] := by
    rw [hsw]
    rcases modinv_spec (entry M p col) q hq with ⟨_, h⟩ | ⟨_, _, _, h⟩
    · exact absurd h hinv
    · exact h
  have r1 := inRange_swapRows M n col p q hcol hpn hr
  have i1 := idCols_swapRows M n col p h1 hid hpn
  have r2 := inRange_normalizeRow _ q n col (modinv (entry M p col) q) hq hcol r1
  have i2 := idCols_normalizeRow _ q n col (modinv (entry M p col) q) hcol i1
  have p2 := pivot_normalizeRow _ q n col (modinv (entry M p col) q) hq2 hcol hmul
  refine ⟨hinv, inRange_eliminateRows _ q n col hq r2,
    idCols_eliminateRows _ q n col hq hcol r2 i2 p2, fun z => ?_⟩
  rw [sat_eliminateRows _ q n col z hq hcol i2,
    sat_normalizeRow _ q n col _ z hq hcol i1 hmul, sat_swapRows M n col p q z hcol hpn]

/-- The elimination loop either finishes with the identity in the left block,
or stops at the first column without an invertible entry on or below the
diagonal; in both cases the working matrix `M'` it has reached has the same
solutions as the matrix it started from. -/
theorem eliminate_spec (q : Int) (n : Nat) (hq : 0 < q) :
    ∀ (k col : Nat) (M : List (List Int)), col + k = n → InRange M n q → IdCols M n col →
      (∃ M', eliminate q n k col M = ElimOutcome.done M' ∧ InRange M' n q ∧ IdCols M' n n ∧
        ∀ z, Sat M' n q z ↔ Sat M n q z) ∨
      (∃ c M', eliminate q n k col M = ElimOutcome.noPivot c ∧ col ≤ c ∧ c < n ∧
        InRange M' n q ∧ IdCols M' n c ∧ (∀ z, Sat M' n q z ↔ Sat M n q z) ∧
        ∀ r, c ≤ r → r < n → pivotOk (entry M' r c) q = false) := by
  intro k
  induction k with
  | zero =>
    intro col M hk hr hid
    left
    have : col = n := by omega
    subst this
    exact ⟨M, rfl, hr, hid, fun z => Iff.rfl⟩
  | succ k ih =>
    intro col M hk hr hid
    have hcol : col < n := by omega
    unfold eliminate
    cases hp : findPivot M q n col with
    | none =>
      right
      refine ⟨col, M, rfl, le_rfl, hcol, hr, hid, fun z => Iff.rfl, ?_⟩
      intro r h1 h2
      exact findPivotFrom_none M q col (n - col) col hp r h1 (by omega)
    | some p =>
      obtain ⟨hinv, r3, i3, s3⟩ := column_step q n col p M hq hcol hr hid hp
      simp only
      rw [if_neg hinv]
      rcases ih (col + 1) _ (by omega) r3 i3 with ⟨M', h1, h2, h3, h4⟩ | ⟨c, M', h1, h2, h3, h4, h5, h6, h7⟩
      · left
        exact ⟨M', h1, h2, h3, fun z => (h4 z).trans (s3 z)⟩
      · right
        exact ⟨c, M', h1, by omega, h3, h4, h5, fun z => (h6 z).trans (s3 z), h7⟩

/-! ## The solver as a whole -/

theorem to_centered_mod_modEq (x q : Int) (hq : 0 < q) : to_centered_mod x q ≡ x [ZMOD q] := by
  unfold to_centered_mod
  simp only
  split_ifs
  · have h : normq x q - q ≡ normq x q [ZMOD q] := Int.modEq_iff_dvd.2 ⟨1, by ring⟩
    exact h.trans (normq_modEq x q hq)
  · exact normq_modEq x q hq

theorem to_centered_mod_congr (x y q : Int) (hq : 0 < q) (h : x ≡ y [ZMOD q]) :
    to_centered_mod x q = to_centered_mod y q := by
  unfold to_centered_mod
  have : normq x q = normq y q := by
    rw [normq_eq_emod x q hq, normq_eq_emod y q hq]; exact h
  rw [this]

theorem inRange_buildAug (A : List (List Int)) (b : List Int) (n : Nat) (q : Int) (hq : 0 < q) :
    InRange (buildAug A b n q) n q := by
  intro i hi j hj
  rw [entry_buildAug A b n q i j hi hj]
  split_ifs <;> exact normq_range _ q hq

theorem idCols_zero (M : List (List Int)) (n : Nat) : IdCols M n 0 := by
  intro c' hc'; omega

theorem rowDot_buildAug (A : List (List Int)) (b : List Int) (n : Nat) (q : Int) (hq : 0 < q)
    (z : Nat → Int) (i : Nat) (hi : i < n) :
    rowDot (buildAug A b n q) n i z ≡
      (∑ j in Finset.range n, entry A i j * z j) + rd b i * z n [ZMOD q] := by
  unfold rowDot
  rw [Finset.sum_range_succ]
  apply Int.ModEq.add
  · apply sum_modEq
    intro j hj
    have hj' := Finset.mem_range.1 hj
    rw [entry_buildAug A b n q i j hi (by omega), if_pos hj']
    exact Int.ModEq.mul_right _ (normq_modEq _ q hq)
  · rw [entry_buildAug A b n q i n hi le_rfl, if_neg (lt_irrefl n)]
    exact Int.ModEq.mul_right _ (normq_modEq _ q hq)

theorem rowDot_idCols (M : List (List Int)) (n : Nat) (z : Nat → Int) (hid : IdCols M n n)
    (i : Nat) (hi : i < n) : rowDot M n i z = z i + entry M i n * z n := by
  unfold rowDot
  rw [Finset.sum_range_succ]
  congr 1
  have : ∀ j ∈ Finset.range n, entry M i j * z j = if i = j then z j else 0 := by
    intro j hj
    rw [hid j (Finset.mem_range.1 hj) i hi]
    split_ifs <;> simp
  rw [Finset.sum_congr rfl this, Finset.sum_ite_eq, if_pos (Finset.mem_range.2 hi)]

/-- The two ways `gaussian_mod_q_solve` returns for a positive modulus, with
the final working matrix `M'`. -/
theorem gaussian_cases (A : List (List Int)) (b : List Int) (n : Nat) (q : Int) (hq : 0 < q) :
    (∃ M', gaussian_mod_q_solve A b n q =
        { x := some ((List.range n).map fun i => to_centered_mod (entry M' i n) q),
          n := n, status := SOLVE_OK, message := "ok" } ∧
      InRange M' n q ∧ IdCols M' n n ∧
      ∀ z, Sat M' n q z ↔ Sat (buildAug A b n q) n q z) ∨
    (∃ c M', gaussian_mod_q_solve A b n q =
        { x := none, n := n, status := SOLVE_NO_PIVOT, message := noPivotMessage c } ∧
      c < n ∧ InRange M' n q ∧ IdCols M' n c ∧
      (∀ z, Sat M' n q z ↔ Sat (buildAug A b n q) n q z) ∧
      ∀ r, c ≤ r → r < n → pivotOk (entry M' r c) q = false) := by
  rcases eliminate_spec q n hq n 0 (buildAug A b n q) (by omega) (inRange_buildAug A b n q hq)
    (idCols_zero _ n) with ⟨M', h1, h2, h3, h4⟩ | ⟨c, M', h1, _, h3, h4, h5, h6, h7⟩
  · left
    refine ⟨M', ?_, h2, h3, h4⟩
    unfold gaussian_mod_q_solve
    rw [h1]
  · right
    refine ⟨c, M', ?_, h3, h4, h5, h6, h7⟩
    unfold gaussian_mod_q_solve
    rw [h1]

theorem sat_buildAug_iff (A : List (List Int)) (b : List Int) (n : Nat) (q : Int) (hq : 0 < q)
    (y : Nat → Int) : Sat (buildAug A b n q) n q (extend n y) ↔ Solves A b n q y := by
  have key : ∀ i, i < n → rowDot (buildAug A b n q) n i (extend n y) ≡
      (∑ j in Finset.range n, entry A i j * y j) - rd b i [ZMOD q] := by
    intro i hi
    have h := rowDot_buildAug A b n q hq (extend n y) i hi
    have e1 : ∑ j in Finset.range n, entry A i j * extend n y j =
        ∑ j in Finset.range n, entry A i j * y j := by
      apply Finset.sum_congr rfl
      intro j hj
      unfold extend
      rw [if_pos (Finset.mem_range.1 hj)]
    have e2 : extend n y n = -1 := by unfold extend; rw [if_neg (lt_irrefl n)]
    rw [e1, e2] at h
    have e3 : (∑ j in Finset.range n, entry A i j * y j) + rd b i * -1 =
        (∑ j in Finset.range n, entry A i j * y j) - rd b i := by ring
    rwa [e3] at h
  constructor
  · intro h i hi
    have h1 := (key i hi).symm.trans (h i hi)
    have h2 := Int.ModEq.add_right (rd b i) h1
    simpa using h2
  · intro h i hi
    have h2 := Int.ModEq.sub_right (rd b i) (h i hi)
    rw [sub_self] at h2
    exact (key i hi).trans h2

theorem sat_final_iff (M : List (List Int)) (n : Nat) (q : Int) (hid : IdCols M n n)
    (y : Nat → Int) :
    Sat M n q (extend n y) ↔ ∀ i, i < n → y i ≡ entry M i n [ZMOD q] := by
  have key : ∀ i, i < n → rowDot M n i (extend n y) = y i - entry M i n := by
    intro i hi
    rw [rowDot_idCols M n _ hid i hi]
    unfold extend
    rw [if_pos hi, if_neg (lt_irrefl n)]
    ring
  constructor
  · intro h i hi
    have h1 := h i hi
    rw [key i hi] at h1
    have h2 := Int.ModEq.add_right (entry M i n) h1
    simpa using h2
  · intro h i hi
    rw [key i hi]
    have h2 := Int.ModEq.sub_right (entry M i n) (h i hi)
    rwa [sub_self] at h2

/-- Everything a successful call says about its solution: it is present with
`n` entries, it solves the system, and every solution of the system has the
same centered residues. -/
theorem gaussian_ok (A : List (List Int)) (b : List Int) (n : Nat) (q : Int) (hq : 0 < q)
    (hst : (gaussian_mod_q_solve A b n q).status = SOLVE_OK) :
    ∃ xs, (gaussian_mod_q_solve A b n q).x = some xs ∧ xs.length = n ∧
      Solves A b n q (rd xs) ∧
      ∀ y, Solves A b n q y → ∀ i, i < n → rd xs i = to_centered_mod (y i) q := by
  rcases gaussian_cases A b n q hq with ⟨M', h1, _, h3, h4⟩ | ⟨c, M', h1, _⟩
  · refine ⟨_, by rw [h1], by simp, ?_, ?_⟩
    · rw [← sat_buildAug_iff A b n q hq, ← h4, sat_final_iff M' n q h3]
      intro i hi
      rw [rd_tab _ n i hi]
      exact to_centered_mod_modEq _ q hq
    · intro y hy i hi
      rw [← sat_buildAug_iff A b n q hq, ← h4, sat_final_iff M' n q h3] at hy
      rw [rd_tab _ n i hi]
      exact (to_centered_mod_congr _ _ q hq (hy i hi)).symm
  · rw [h1] at hst
    exact solve_status_t.noConfusion hst

/-! ## Machine integers in range -/

theorem wrap32_eq (x : Int) (h0 : -2147483648 ≤ x) (h1 : x < 2147483648) : wrap32 x = x := by
  unfold wrap32
  rw [Int.emod_eq_of_lt (by omega) (by omega)]
  ring

theorem wrap64_eq (x : Int) (h : In64 x) : wrap64 x = x := by
  unfold In64 at h
  unfold wrap64
  rw [Int.emod_eq_of_lt (by omega) (by omega)]
  ring

/-! ## The system built by `solve_unknown_f` -/

/-- An accumulation that stays within 64 bits computes the sum of its terms. -/
theorem foldl_wrap64_eq_sum (φ : Nat → Int) (l : List Nat) (a : Int)
    (h : AccInRange φ a l) :
    l.foldl (fun total j => wrap64 (total + wrap64 (φ j))) a = a + (l.map φ).sum := by
  induction l generalizing a with
  | nil => simp
  | cons x xs ih =>
    unfold AccInRange at h
    simp only [List.foldl_cons, List.map_cons, List.sum_cons]
    rw [wrap64_eq _ h.1, wrap64_eq _ h.2.1, ih _ h.2.2]; ring

theorem totalOf_eq_sum (Hk f : List Int) (known : List Nat)
    (h : AccInRange (fun j => rd Hk j * rd f j) 0 known) :
    totalOf Hk f known = (known.map fun j => rd Hk j * rd f j).sum := by
  unfold totalOf
  rw [foldl_wrap64_eq_sum (fun j => rd Hk j * rd f j) known 0 h, zero_add]

theorem sum_filter_split (φ : Nat → Int) (p : Nat → Bool) (l : List Nat) :
    (l.map φ).sum = ((l.filter p).map φ).sum + ((l.filter fun i => !p i).map φ).sum := by
  induction l with
  | nil => simp
  | cons x xs ih =>
    by_cases hp : p x = true
    · simp [List.filter_cons, hp, ih]; ring
    · simp [List.filter_cons, hp, ih]; ring

theorem sum_range_eq (φ : Nat → Int) (n : Nat) :
    ((List.range n).map φ).sum = ∑ j in Finset.range n, φ j := by
  induction n with
  | zero => simp
  | succ k ih =>
    rw [List.range_succ, List.map_append, List.sum_append, ih, Finset.sum_range_succ]
    simp

theorem sum_index_eq (φ : Nat → Int) (l : List Nat) :
    ∑ idx in Finset.range l.length, φ (rdn l idx) = (l.map φ).sum := by
  induction l with
  | nil => simp
  | cons x xs ih =>
    rw [List.length_cons, Finset.sum_range_succ', List.map_cons, List.sum_cons, ← ih, add_comm]
    rfl

theorem list_sum_modEq (φ ψ : Nat → Int) (q : Int) (l : List Nat)
    (h : ∀ j ∈ l, φ j ≡ ψ j [ZMOD q]) : (l.map φ).sum ≡ (l.map ψ).sum [ZMOD q] := by
  induction l with
  | nil => simp [Int.ModEq]
  | cons x xs ih =>
    simp only [List.map_cons, List.sum_cons]
    exact Int.ModEq.add (h x (List.mem_cons_self x xs))
      (ih fun j hj => h j (List.mem_cons_of_mem x hj))

theorem list_sum_congr (φ ψ : Nat → Int) (l : List Nat)
    (h : ∀ j ∈ l, φ j = ψ j) : (l.map φ).sum = (l.map ψ).sum := by
  congr 1
  exact List.map_congr_left h

theorem num_known_g_eq (g_mask : List Bool) (n : Nat) :
    num_known_g g_mask n = (I_g g_mask n).length := by
  unfold num_known_g I_g
  rw [List.countP_eq_length_filter]

theorem num_unknown_f_eq (f_mask : List Bool) (n : Nat) :
    num_unknown_f f_mask n = (I_f_unk f_mask n).length := by
  unfold num_unknown_f I_f_unk
  rw [List.countP_eq_length_filter]

theorem rdn_mem (l : List Nat) (i : Nat) (hi : i < l.length) : rdn l i ∈ l := by
  unfold rdn
  rw [List.getD_eq_getElem l 0 hi]
  exact List.getElem_mem hi

theorem I_g_spec (g_mask : List Bool) (n i : Nat) (hi : i < num_known_g g_mask n) :
    rdn (I_g g_mask n) i < n ∧ rdb g_mask (rdn (I_g g_mask n) i) = true := by
  rw [num_known_g_eq] at hi
  have h := rdn_mem _ i hi
  unfold I_g at h
  rw [List.mem_filter, List.mem_range] at h
  exact h

theorem I_f_unk_spec (f_mask : List Bool) (n i : Nat) (hi : i < num_unknown_f f_mask n) :
    rdn (I_f_unk f_mask n) i < n ∧ rdb f_mask (rdn (I_f_unk f_mask n) i) = false := by
  rw [num_unknown_f_eq] at hi
  have h := rdn_mem _ i hi
  unfold I_f_unk at h
  rw [List.mem_filter, List.mem_range] at h
  exact ⟨h.1, by simpa using h.2⟩

theorem rd_circulantRow (h : List Int) (n k : Nat) (mod : Int) (j : Nat) (hj : j < n)
    (hneg : k < j → In32 (-(rd h (n + k - j)))) :
    rd (circulantRow h n k mod) j = normq (circCoeff h n k j) mod := by
  unfold circulantRow circCoeff
  rw [rd_tab _ n j hj]
  by_cases hjk : j ≤ k
  · rw [if_pos hjk, if_pos hjk]
  · have h32 := hneg (by omega)
    unfold In32 at h32
    rw [if_neg hjk, if_neg hjk, wrap32_eq _ h32.1 h32.2]

theorem negacyclic_eq (h : List Int) (F : Nat → Int) (n k : Nat) :
    negacyclic h F n k = ∑ j in Finset.range n, circCoeff h n k j * F j := by
  unfold negacyclic circCoeff
  apply Finset.sum_congr rfl
  intro j _
  split_ifs <;> ring

/-- The equation of the known-g index `k`, built without overflow and
evaluated at a polynomial `F` that agrees with `f` at the known positions, is
coefficient `k` of `h * F - g` modulo `mod`. -/
theorem equation_of_index (g f : List Int) (f_mask : List Bool) (h : List Int) (n k : Nat)
    (mod : Int) (hq : 0 < mod) (F : Nat → Int)
    (hF : ∀ j, j < n → rdb f_mask j = true → F j = rd f j)
    (hno : RowNoOverflow g f f_mask h n k mod) :
    (∑ idx in Finset.range (num_unknown_f f_mask n),
        rd (rowOfA f_mask h n k mod) idx * F (rdn (I_f_unk f_mask n) idx)) -
      rhsOf g f f_mask h n k mod ≡ negacyclic h F n k - rd g k [ZMOD mod] := by
  have hA : ∑ idx in Finset.range (num_unknown_f f_mask n),
      rd (rowOfA f_mask h n k mod) idx * F (rdn (I_f_unk f_mask n) idx) ≡
      ((I_f_unk f_mask n).map fun j => circCoeff h n k j * F j).sum [ZMOD mod] := by
    rw [← sum_index_eq (fun j => circCoeff h n k j * F j), ← num_unknown_f_eq]
    apply sum_modEq
    intro idx hidx
    have hidx' := Finset.mem_range.1 hidx
    have hu := (I_f_unk_spec f_mask n idx hidx').1
    unfold rowOfA
    simp only
    rw [rd_tab _ _ idx hidx', rd_circulantRow h n k mod _ hu (hno.1 _ hu)]
    exact Int.ModEq.mul_right _ ((normq_modEq _ mod hq).trans (normq_modEq _ mod hq))
  have hB : rhsOf g f f_mask h n k mod ≡
      rd g k - ((I_f_known f_mask n).map fun j => circCoeff h n k j * F j).sum [ZMOD mod] := by
    unfold rhsOf
    simp only
    rw [wrap64_eq _ hno.2.2, totalOf_eq_sum _ _ _ hno.2.1]
    refine (normq_modEq _ mod hq).trans (Int.ModEq.sub (Int.ModEq.refl _) ?_)
    apply list_sum_modEq
    intro j hj
    unfold I_f_known at hj
    rw [List.mem_filter, List.mem_range] at hj
    rw [rd_circulantRow h n k mod j hj.1 (hno.1 j hj.1), hF j hj.1 hj.2]
    exact Int.ModEq.mul_right _ (normq_modEq _ mod hq)
  have hsplit : negacyclic h F n k =
      ((I_f_known f_mask n).map fun j => circCoeff h n k j * F j).sum +
      ((I_f_unk f_mask n).map fun j => circCoeff h n k j * F j).sum := by
    rw [negacyclic_eq, ← sum_range_eq]
    exact sum_filter_split _ (fun i => rdb f_mask i) (List.range n)
  rw [hsplit]
  have := Int.ModEq.sub hA hB
  have e : ((I_f_unk f_mask n).map fun j => circCoeff h n k j * F j).sum -
      (rd g k - ((I_f_known f_mask n).map fun j => circCoeff h n k j * F j).sum) =
      ((I_f_known f_mask n).map fun j => circCoeff h n k j * F j).sum +
      ((I_f_unk f_mask n).map fun j => circCoeff h n k j * F j).sum - rd g k := by ring
  rwa [e] at this

theorem entry_systemA (g_mask f_mask : List Bool) (h : List Int) (n : Nat) (mod : Int)
    (i idx : Nat) (hi : i < num_known_g g_mask n) :
    entry (systemA g_mask f_mask h n mod) i idx =
      rd (rowOfA f_mask h n (rdn (I_g g_mask n) i) mod) idx := by
  unfold systemA
  rw [entry_tab _ _ i idx hi]

theorem rd_systemB (g : List Int) (g_mask : List Bool) (f : List Int) (f_mask : List Bool)
    (h : List Int) (n : Nat) (mod : Int) (i : Nat) (hi : i < num_known_g g_mask n) :
    rd (systemB g g_mask f f_mask h n mod) i =
      rhsOf g f f_mask h n (rdn (I_g g_mask n) i) mod := by
  unfold systemB
  rw [rd_tab _ _ i hi]

/-- The built system, row by row. -/
theorem system_encodes (g : List Int) (g_mask : List Bool) (f : List Int) (f_mask : List Bool)
    (h : List Int) (n : Nat) (mod : Int) (hq : 0 < mod) (F : Nat → Int)
    (hF : ∀ j, j < n → rdb f_mask j = true → F j = rd f j)
    (i : Nat) (hi : i < num_known_g g_mask n)
    (hno : RowNoOverflow g f f_mask h n (rdn (I_g g_mask n) i) mod) :
    (∑ idx in Finset.range (num_unknown_f f_mask n),
        entry (systemA g_mask f_mask h n mod) i idx * F (rdn (I_f_unk f_mask n) idx)) -
      rd (systemB g g_mask f f_mask h n mod) i ≡
      negacyclic h F n (rdn (I_g g_mask n) i) - rd g (rdn (I_g g_mask n) i) [ZMOD mod] := by
  rw [rd_systemB g g_mask f f_mask h n mod i hi]
  have e : ∑ idx in Finset.range (num_unknown_f f_mask n),
      entry (systemA g_mask f_mask h n mod) i idx * F (rdn (I_f_unk f_mask n) idx) =
      ∑ idx in Finset.range (num_unknown_f f_mask n),
        rd (rowOfA f_mask h n (rdn (I_g g_mask n) i) mod) idx *
          F (rdn (I_f_unk f_mask n) idx) := by
    apply Finset.sum_congr rfl
    intro idx _
    rw [entry_systemA g_mask f_mask h n mod i idx hi]
  rw [e]
  exact equation_of_index g f f_mask h n _ mod hq F hF hno

theorem system_range (g : List Int) (g_mask : List Bool) (f : List Int) (f_mask : List Bool)
    (h : List Int) (n : Nat) (mod : Int) (hq : 0 < mod)
    (i : Nat) (hi : i < num_known_g g_mask n) :
    (∀ idx, idx < num_unknown_f f_mask n →
      0 ≤ entry (systemA g_mask f_mask h n mod) i idx ∧
      entry (systemA g_mask f_mask h n mod) i idx < mod) ∧
    0 ≤ rd (systemB g g_mask f f_mask h n mod) i ∧
    rd (systemB g g_mask f f_mask h n mod) i < mod := by
  refine ⟨?_, ?_⟩
  · intro idx hidx
    rw [entry_systemA g_mask f_mask h n mod i idx hi]
    unfold rowOfA
    simp only
    rw [rd_tab _ _ idx hidx]
    exact normq_range _ mod hq
  · rw [rd_systemB g g_mask f f_mask h n mod i hi]
    unfold rhsOf
    exact normq_range _ mod hq

/-! ## Inputs for which the builder does not overflow -/

theorem accInRange_of_bound (φ : Nat → Int) (B : Int) (hB : 0 ≤ B) (l : List Nat) :
    ∀ (acc : Int) (c : Nat), (∀ j ∈ l, -B ≤ φ j ∧ φ j ≤ B) →
      -(c * B) ≤ acc → acc ≤ c * B →
      ((c : Int) + l.length) * B < 9223372036854775808 → AccInRange φ acc l := by
  induction l with
  | nil => intro acc c _ _ _ _; unfold AccInRange; trivial
  | cons x xs ih =>
    intro acc c hφ h0 h1 hlen
    have hx := hφ x (List.mem_cons_self x xs)
    have hlen2 : ((c : Int) + (xs.length + 1)) * B < 9223372036854775808 := by
      simpa using hlen
    have hc : (0 : Int) ≤ c := Int.ofNat_nonneg c
    have hl : (0 : Int) ≤ xs.length := Int.ofNat_nonneg _
    have e1 : (c : Int) * B + B ≤ ((c : Int) + (xs.length + 1)) * B := by nlinarith
    have e2 : B ≤ (c : Int) * B + B := by nlinarith
    unfold AccInRange
    refine ⟨⟨by omega, by omega⟩, ⟨by omega, by omega⟩, ?_⟩
    refine ih (acc + φ x) (c + 1) (fun j hj => hφ j (List.mem_cons_of_mem x hj)) ?_ ?_ ?_
    · push_cast; linarith
    · push_cast; linarith
    · push_cast; linarith

theorem list_sum_bound (φ : Nat → Int) (B : Int) (l : List Nat)
    (hφ : ∀ j ∈ l, -B ≤ φ j ∧ φ j ≤ B) :
    -(l.length * B) ≤ (l.map φ).sum ∧ (l.map φ).sum ≤ l.length * B := by
  induction l with
  | nil => simp
  | cons x xs ih =>
    have hx := hφ x (List.mem_cons_self x xs)
    have := ih (fun j hj => hφ j (List.mem_cons_of_mem x hj))
    simp only [List.map_cons, List.sum_cons, List.length_cons]
    push_cast
    constructor <;> linarith

theorem rd_circulantRow_range (h : List Int) (n k : Nat) (mod : Int) (hq : 0 < mod) (j : Nat)
    (hj : j < n) :
    0 ≤ rd (circulantRow h n k mod) j ∧ rd (circulantRow h n k mod) j < mod := by
  unfold circulantRow
  rw [rd_tab _ n j hj]
  exact normq_range _ mod hq

/-- For 32-bit array elements, no `h[j]` equal to `-2^31` and `n * mod < 2^32`,
no equation overflows while it is built. -/
theorem rowNoOverflow_of_ranges (g f : List Int) (f_mask : List Bool) (h : List Int)
    (n k : Nat) (mod : Int) (hq : 0 < mod) (hk : k < n) (hg : In32 (rd g k))
    (hf : ∀ j, j < n → In32 (rd f j))
    (hh : ∀ j, j < n → -2147483648 < rd h j ∧ rd h j < 2147483648)
    (hsize : (n : Int) * mod < 4294967296) :
    RowNoOverflow g f f_mask h n k mod := by
  have hn : (1 : Int) ≤ n := by exact_mod_cast (by omega : 1 ≤ n)
  have hlen : ((I_f_known f_mask n).length : Int) ≤ n := by
    have := List.length_filter_le (fun i => rdb f_mask i) (List.range n)
    rw [List.length_range] at this
    unfold I_f_known
    exact_mod_cast this
  have hl0 : (0 : Int) ≤ (I_f_known f_mask n).length := Int.ofNat_nonneg _
  have hB : (0 : Int) ≤ (mod - 1) * 2147483648 := by nlinarith
  have hterm : ∀ j ∈ I_f_known f_mask n,
      -((mod - 1) * 2147483648) ≤ rd (circulantRow h n k mod) j * rd f j ∧
      rd (circulantRow h n k mod) j * rd f j ≤ (mod - 1) * 2147483648 := by
    intro j hj
    unfold I_f_known at hj
    rw [List.mem_filter, List.mem_range] at hj
    have h1 := rd_circulantRow_range h n k mod hq j hj.1
    have h2 := hf j hj.1
    unfold In32 at h2
    constructor <;> nlinarith
  have htot : ((I_f_known f_mask n).length : Int) * ((mod - 1) * 2147483648) ≤
      4294967294 * 2147483648 := by
    have e1 : ((I_f_known f_mask n).length : Int) * ((mod - 1) * 2147483648) ≤
        (n : Int) * ((mod - 1) * 2147483648) := by nlinarith
    have e2 : (n : Int) * ((mod - 1) * 2147483648) = ((n : Int) * mod - n) * 2147483648 := by
      ring
    omega
  have hacc : AccInRange (fun j => rd (circulantRow h n k mod) j * rd f j) 0
      (I_f_known f_mask n) := by
    refine accInRange_of_bound _ ((mod - 1) * 2147483648) hB _ 0 0 hterm (by simp) (by simp) ?_
    push_cast
    rw [zero_add]
    omega
  refine ⟨?_, hacc, ?_⟩
  · intro j hj hkj
    have := hh (n + k - j) (by omega)
    unfold In32
    omega
  · rw [totalOf_eq_sum _ _ _ hacc]
    have hs := list_sum_bound (fun j => rd (circulantRow h n k mod) j * rd f j)
      ((mod - 1) * 2147483648) (I_f_known f_mask n) hterm
    unfold In32 at hg
    unfold In64
    omega

theorem noOverflow_of_ranges (g : List Int) (g_mask : List Bool) (f : List Int)
    (f_mask : List Bool) (h : List Int) (n : Nat) (mod : Int) (hq : 0 < mod)
    (hg : ∀ j, j < n → In32 (rd g j)) (hf : ∀ j, j < n → In32 (rd f j))
    (hh : ∀ j, j < n → -2147483648 < rd h j ∧ rd h j < 2147483648)
    (hsize : (n : Int) * mod < 4294967296) :
    NoOverflow g g_mask f f_mask h n mod := by
  intro i hi
  have hk := (I_g_spec g_mask n i hi).1
  exact rowNoOverflow_of_ranges g f f_mask h n _ mod hq hk (hg _ hk) hf hh hsize

/-! ## Singular systems -/

theorem pivotOk_false_prime (v : Int) (p : Nat) (hp : p.Prime) (h0 : 0 ≤ v) (h1 : v < p)
    (h : pivotOk v p = false) : v = 0 := by
  by_contra hv
  have hq : (0 : Int) < p := by exact_mod_cast hp.pos
  have htm : Int.tmod v p = v := Int.tmod_eq_of_lt h0 h1
  have hem : v % p = v := Int.emod_eq_of_lt h0 h1
  have hinv : modinv v p = -1 := by
    unfold pivotOk at h
    rw [htm] at h
    simpa [hv] using h
  rcases modinv_spec v p hq with ⟨hc, _⟩ | ⟨_, h2, _, _⟩
  · rcases hc with hc | hc
    · rw [hem] at hc; exact hv hc
    · apply hc
      have hnd : ¬ p ∣ v.natAbs := by
        intro hd
        have hpos : 0 < v.natAbs := Int.natAbs_pos.2 hv
        have := Nat.le_of_dvd hpos hd
        omega
      have hcop : Nat.Coprime p v.natAbs := (Nat.Prime.coprime_iff_not_dvd hp).2 hnd
      have : Int.gcd v p = Nat.gcd v.natAbs p := by simp [Int.gcd]
      rw [this, Nat.gcd_comm]
      exact hcop
  · rw [hinv] at h2; omega

theorem rowDot_kernelVec (M : List (List Int)) (n c : Nat) (hc : c < n) (hid : IdCols M n c)
    (i : Nat) (hi : i < n) :
    rowDot M n i (kernelVec M c) = (if i < c then -(entry M i c) else 0) + entry M i c := by
  unfold rowDot
  have e : ∀ j ∈ Finset.range (n + 1), entry M i j * kernelVec M c j =
      (if i = j then (if j < c then -(entry M j c) else 0) else 0) +
      (if c = j then entry M i c else 0) := by
    intro j _
    unfold kernelVec
    by_cases hjc : j < c
    · rw [if_pos hjc, hid j hjc i hi, if_pos hjc, if_neg (by omega : ¬ c = j)]
      split_ifs <;> simp
    · rw [if_neg hjc, if_neg hjc]
      by_cases hjc2 : j = c
      · subst hjc2; simp
      · rw [if_neg hjc2, if_neg (fun h : c = j => hjc2 h.symm)]; simp
  rw [Finset.sum_congr rfl e, Finset.sum_add_distrib, Finset.sum_ite_eq, Finset.sum_ite_eq,
    if_pos (Finset.mem_range.2 (by omega)), if_pos (Finset.mem_range.2 (by omega))]

/-- When the solver stops with `SOLVE_NO_PIVOT` for a prime modulus, some
vector with an entry `1` is annihilated by `A` modulo `p`. -/
theorem no_pivot_kernel (A : List (List Int)) (b : List Int) (n : Nat) (p : Nat)
    (hp : p.Prime) (hst : (gaussian_mod_q_solve A b n p).status = SOLVE_NO_PIVOT) :
    ∃ c, c < n ∧ ∃ z : Nat → Int, z c = 1 ∧
      ∀ i, i < n → (∑ j in Finset.range n, entry A i j * z j) ≡ 0 [ZMOD (p : Int)] := by
  have hq : (0 : Int) < p := by exact_mod_cast hp.pos
  rcases gaussian_cases A b n p hq with ⟨M', h1, _⟩ | ⟨c, M', _, hc, hr, hid, hsat, hnp⟩
  · rw [h1] at hst
    exact solve_status_t.noConfusion hst
  · refine ⟨c, hc, kernelVec M' c, by simp [kernelVec], ?_⟩
    have hS : Sat M' n p (kernelVec M' c) := by
      intro i hi
      rw [rowDot_kernelVec M' n c hc hid i hi]
      by_cases hic : i < c
      · rw [if_pos hic]; simp
      · rw [if_neg hic, zero_add]
        have hb := hr i hi c (by omega)
        rw [pivotOk_false_prime _ p hp hb.1 hb.2 (hnp i (by omega) hi)]
    have hS0 := (hsat _).1 hS
    intro i hi
    have h := (rowDot_buildAug A b n p hq (kernelVec M' c) i hi).symm.trans (hS0 i hi)
    have hz : kernelVec M' c n = 0 := by
      unfold kernelVec
      rw [if_neg (by omega), if_neg (by omega)]
    rwa [hz, mul_zero, add_zero] at h

theorem det_dvd_of_kernel (A : List (List Int)) (n : Nat) (q : Int) (c : Nat) (hc : c < n)
    (z : Nat → Int) (hz : z c = 1)
    (h : ∀ i, i < n → (∑ j in Finset.range n, entry A i j * z j) ≡ 0 [ZMOD q]) :
    q ∣ detOf A n := by
  have hmv : ∀ i : Fin n, q ∣ (matOf A n).mulVec (fun j : Fin n => z j.val) i := by
    intro i
    have := Int.modEq_zero_iff_dvd.1 (h i.val i.isLt)
    rw [Finset.sum_range] at this
    exact this
  have h1 : ((matOf A n).adjugate * matOf A n).mulVec (fun j : Fin n => z j.val) =
      (matOf A n).det • (fun j : Fin n => z j.val) := by
    rw [Matrix.adjugate_mul, Matrix.smul_mulVec_assoc, Matrix.one_mulVec]
  rw [← Matrix.mulVec_mulVec] at h1
  have h2 := congrFun h1 ⟨c, hc⟩
  simp only [Pi.smul_apply, smul_eq_mul, hz, mul_one] at h2
  unfold detOf
  rw [← h2]
  unfold Matrix.mulVec Matrix.dotProduct
  exact Finset.dvd_sum fun i _ => Dvd.dvd.mul_left (hmv i) _

theorem not_invertibleMod_of_dvd (d : Int) (p : Nat) (hp : p.Prime) (h : (p : Int) ∣ d) :
    ¬ InvertibleMod d p := by
  rintro ⟨u, hu⟩
  have h0 : d * u ≡ 0 [ZMOD (p : Int)] := Int.modEq_zero_iff_dvd.2 (Dvd.dvd.mul_right h u)
  have h1 : (p : Int) ∣ 1 := by
    have := Int.modEq_iff_dvd.1 (h0.symm.trans hu)
    simpa using this
  have h2 : p ∣ 1 := by exact_mod_cast h1
  exact hp.one_lt.ne' (Nat.dvd_one.1 h2)

/-! ## Dependence on the residues only -/

theorem normq_congr (x y q : Int) (hq : 0 < q) (h : x ≡ y [ZMOD q]) : normq x q = normq y q := by
  rw [normq_eq_emod x q hq, normq_eq_emod y q hq]; exact h

theorem buildAug_congr (A A' : List (List Int)) (b b' : List Int) (n : Nat) (q : Int)
    (hq : 0 < q)
    (hA : ∀ i, i < n → ∀ j, j < n → entry A i j ≡ entry A' i j [ZMOD q])
    (hb : ∀ i, i < n → rd b i ≡ rd b' i [ZMOD q]) :
    buildAug A b n q = buildAug A' b' n q := by
  unfold buildAug
  apply List.map_congr_left
  intro i hi
  have hi' := List.mem_range.1 hi
  congr 1
  · apply List.map_congr_left
    intro j hj
    exact normq_congr _ _ q hq (hA i hi' j (List.mem_range.1 hj))
  · rw [normq_congr _ _ q hq (hb i hi')]

/-! ## Shape of the result -/

theorem gaussian_x_none (A : List (List Int)) (b : List Int) (n : Nat) (q : Int)
    (h : (gaussian_mod_q_solve A b n q).status ≠ SOLVE_OK) :
    (gaussian_mod_q_solve A b n q).x = none := by
  unfold gaussian_mod_q_solve at h ⊢
  cases he : eliminate q n n 0 (buildAug A b n q) with
  | done M => rw [he] at h; exact absurd rfl h
  | noPivot c => rfl
  | noInverse v => rfl

theorem gaussian_ok_shape (A : List (List Int)) (b : List Int) (n : Nat) (q : Int) (hq : 0 < q)
    (h : (gaussian_mod_q_solve A b n q).status = SOLVE_OK) :
    ∃ M xs, eliminate q n n 0 (buildAug A b n q) = ElimOutcome.done M ∧
      (gaussian_mod_q_solve A b n q).x = some xs ∧ xs.length = n ∧
      (gaussian_mod_q_solve A b n q).n = n ∧
      (gaussian_mod_q_solve A b n q).message = "ok" ∧
      ∀ i, i < n → rd xs i = to_centered_mod (entry M i n) q ∧
        -q < 2 * rd xs i ∧ 2 * rd xs i ≤ q := by
  unfold gaussian_mod_q_solve at h ⊢
  cases he : eliminate q n n 0 (buildAug A b n q) with
  | noPivot c => rw [he] at h; exact solve_status_t.noConfusion h
  | noInverse v => rw [he] at h; exact solve_status_t.noConfusion h
  | done M =>
    refine ⟨M, _, rfl, rfl, by simp, rfl, rfl, ?_⟩
    intro i hi
    rw [rd_tab _ n i hi]
    have hd : Int.tdiv q 2 = q / 2 := Int.tdiv_eq_ediv hq.le (by norm_num)
    have hr := normq_range (entry M i n) q hq
    refine ⟨rfl, ?_⟩
    unfold to_centered_mod
    simp only
    rw [hd]
    split_ifs <;> constructor <;> omega

/-! ## Reads of the built matrix -/

theorem mem_readsOfA (n i j : Nat) : (i, j) ∈ readsOfA n ↔ i < n ∧ j < n := by
  unfold readsOfA
  simp [List.mem_flatMap]

/-- The copy of `A` into the augmented matrix depends on `A` only through
the cells listed in `readsOfA`. -/
theorem buildAug_reads (A A' : List (List Int)) (b : List Int) (n : Nat) (q : Int)
    (h : ∀ p ∈ readsOfA n, entry A p.1 p.2 = entry A' p.1 p.2) :
    buildAug A b n q = buildAug A' b n q := by
  unfold buildAug
  apply List.map_congr_left
  intro i hi
  congr 1
  apply List.map_congr_left
  intro j hj
  rw [h (i, j) ((mem_readsOfA n i j).2 ⟨List.mem_range.1 hi, List.mem_range.1 hj⟩)]

theorem length_systemA (g_mask f_mask : List Bool) (h : List Int) (n : Nat) (mod : Int) :
    (systemA g_mask f_mask h n mod).length = num_known_g g_mask n := by
  simp [systemA]

theorem rowWidth_systemA (g_mask f_mask : List Bool) (h : List Int) (n : Nat) (mod : Int)
    (i : Nat) (hi : i < num_known_g g_mask n) :
    rowWidth (systemA g_mask f_mask h n mod) i = num_unknown_f f_mask n := by
  unfold rowWidth systemA
  rw [rowOf_tab _ _ i hi]
  simp [rowOfA]

theorem reads_beyond_width (g_mask f_mask : List Bool) (h : List Int) (n : Nat) (mod : Int) :
    ∀ i j, i < num_known_g g_mask n → num_unknown_f f_mask n ≤ j →
      j < num_known_g g_mask n →
      (i, j) ∈ readsOfA (num_known_g g_mask n) ∧
      rowWidth (systemA g_mask f_mask h n mod) i = num_unknown_f f_mask n ∧
      inBounds (systemA g_mask f_mask h n mod) (i, j) = false := by
  intro i j hi hj1 hj2
  refine ⟨(mem_readsOfA _ i j).2 ⟨hi, hj2⟩, rowWidth_systemA g_mask f_mask h n mod i hi, ?_⟩
  unfold inBounds
  simp only [rowWidth_systemA g_mask f_mask h n mod i hi]
  simp [Nat.not_lt.2 hj1]

/-- With at most as many equations as unknowns, every read of the built matrix
is in bounds. -/
theorem reads_in_bounds (g_mask f_mask : List Bool) (h : List Int) (n : Nat) (mod : Int)
    (hle : num_known_g g_mask n ≤ num_unknown_f f_mask n) :
    ∀ p ∈ readsOfA (num_known_g g_mask n),
      inBounds (systemA g_mask f_mask h n mod) p = true := by
  intro p hp
  obtain ⟨i, j⟩ := p
  rw [mem_readsOfA] at hp
  unfold inBounds
  simp only [rowWidth_systemA g_mask f_mask h n mod i hp.1, length_systemA]
  simp [hp.1, lt_of_lt_of_le hp.2 hle]

/-! ## Independence of the pivoting from the right-hand side -/

theorem findPivotFrom_congr (M N : List (List Int)) (q : Int) (col : Nat) :
    ∀ (k row : Nat), (∀ r, row ≤ r → r < row + k → entry M r col = entry N r col) →
      findPivotFrom M q col k row = findPivotFrom N q col k row := by
  intro k
  induction k with
  | zero => intro row _; rfl
  | succ k ih =>
    intro row h
    unfold findPivotFrom
    rw [h row le_rfl (by omega), ih (row + 1) (fun r h1 h2 => h r (by omega) (by omega))]

theorem findPivot_leftEq (M N : List (List Int)) (q : Int) (n col : Nat) (hcol : col < n)
    (h : LeftEq M N n) : findPivot M q n col = findPivot N q n col := by
  unfold findPivot
  exact findPivotFrom_congr M N q col (n - col) col (fun r _ h2 => h r (by omega) col hcol)

theorem leftEq_swapRows (M N : List (List Int)) (n c p : Nat) (hc : c < n) (hp : p < n)
    (h : LeftEq M N n) : LeftEq (swapRows M n c p) (swapRows N n c p) n := by
  intro i hi j hj
  rw [entry_swapRows M n c p i j hi, entry_swapRows N n c p i j hi]
  exact h _ (swapIdx_lt n c p i hc hp hi) j hj

theorem leftEq_normalizeRow (M N : List (List Int)) (q : Int) (n c : Nat) (inv : Int)
    (hc : c < n) (h : LeftEq M N n) :
    LeftEq (normalizeRow M q n c inv) (normalizeRow N q n c inv) n := by
  intro i hi j hj
  rw [entry_normalizeRow M q n c inv i j hi (by omega),
    entry_normalizeRow N q n c inv i j hi (by omega), h c hc j hj, h i hi j hj]

theorem leftEq_eliminateRows (M N : List (List Int)) (q : Int) (n c : Nat)
    (hc : c < n) (h : LeftEq M N n) :
    LeftEq (eliminateRows M q n c) (eliminateRows N q n c) n := by
  intro i hi j hj
  rw [entry_eliminateRows M q n c i j hi (by omega),
    entry_eliminateRows N q n c i j hi (by omega), h c hc j hj, h i hi j hj, h i hi c hc]

/-- Two runs of the elimination on working matrices with the same left block
end the same way. -/
theorem eliminate_leftEq (q : Int) (n : Nat) :
    ∀ (k col : Nat) (M N : List (List Int)), col + k = n → LeftEq M N n →
      (∃ M' N', eliminate q n k col M = ElimOutcome.done M' ∧
        eliminate q n k col N = ElimOutcome.done N' ∧ LeftEq M' N' n) ∨
      (∃ c, eliminate q n k col M = ElimOutcome.noPivot c ∧
        eliminate q n k col N = ElimOutcome.noPivot c) ∨
      (∃ v, eliminate q n k col M = ElimOutcome.noInverse v ∧
        eliminate q n k col N = ElimOutcome.noInverse v) := by
  intro k
  induction k with
  | zero =>
    intro col M N _ h
    exact Or.inl ⟨M, N, rfl, rfl, h⟩
  | succ k ih =>
    intro col M N hk h
    have hcol : col < n := by omega
    unfold eliminate
    rw [← findPivot_leftEq M N q n col hcol h]
    cases hp : findPivot M q n col with
    | none => exact Or.inr (Or.inl ⟨col, rfl, rfl⟩)
    | some p =>
      obtain ⟨_, h2, _, _⟩ := findPivotFrom_some M q col (n - col) col p hp
      have hpn : p < n := by omega
      have hs := leftEq_swapRows M N n col p hcol hpn h
      simp only
      rw [← hs col hcol col hcol]
      by_cases hinv : modinv (Int.tmod (entry (swapRows M n col p) col col) q) q = -1
      · rw [if_pos hinv, if_pos hinv]
        exact Or.inr (Or.inr ⟨_, rfl, rfl⟩)
      · rw [if_neg hinv, if_neg hinv]
        exact ih (col + 1) _ _ (by omega)
          (leftEq_eliminateRows _ _ q n col hcol (leftEq_normalizeRow _ _ q n col _ hcol hs))

theorem leftEq_buildAug (A : List (List Int)) (b b' : List Int) (n : Nat) (q : Int) :
    LeftEq (buildAug A b n q) (buildAug A b' n q) n := by
  intro i hi j hj
  rw [entry_buildAug A b n q i j hi (by omega), entry_buildAug A b' n q i j hi (by omega),
    if_pos hj, if_pos hj]

/-- The status of the solver does not depend on the right-hand side. -/
theorem gaussian_status_indep (A : List (List Int)) (b b' : List Int) (n : Nat) (q : Int) :
    (gaussian_mod_q_solve A b n q).status = (gaussian_mod_q_solve A b' n q).status := by
  unfold gaussian_mod_q_solve
  rcases eliminate_leftEq q n n 0 _ _ (by omega) (leftEq_buildAug A b b' n q) with
    ⟨M', N', h1, h2, _⟩ | ⟨c, h1, h2⟩ | ⟨v, h1, h2⟩ <;> rw [h1, h2]

/-- A successful solve of at least one unknown needs a modulus `q ≥ 2`. -/
theorem two_le_of_ok (A : List (List Int)) (b : List Int) (n : Nat) (q : Int) (hq : 0 < q)
    (hn : 0 < n) (hst : (gaussian_mod_q_solve A b n q).status = SOLVE_OK) : 2 ≤ q := by
  rcases gaussian_cases A b n q hq with ⟨M', _, h2, h3, _⟩ | ⟨c, M', h1, _⟩
  · have e := h3 0 hn 0 hn
    rw [if_pos rfl] at e
    have := (h2 0 hn 0 (by omega)).2
    omega
  · rw [h1] at hst
    exact solve_status_t.noConfusion hst

/-- A matrix with two equal rows is never solved. -/
theorem not_ok_of_equal_rows (A : List (List Int)) (b : List Int) (n : Nat) (q : Int)
    (hq : 0 < q) (i1 i2 : Nat) (h1 : i1 < n) (h2 : i2 < n) (hne : i1 ≠ i2)
    (hrow : ∀ j, j < n → entry A i1 j = entry A i2 j) :
    (gaussian_mod_q_solve A b n q).status ≠ SOLVE_OK := by
  intro hst
  have hq2 := two_le_of_ok A b n q hq (by omega) hst
  rw [gaussian_status_indep A b ((List.range n).map fun i => if i = i1 then 1 else 0) n q]
    at hst
  obtain ⟨xs, _, _, hs, _⟩ := gaussian_ok A _ n q hq hst
  have e1 := hs i1 h1
  have e2 := hs i2 h2
  rw [rd_tab _ n i1 h1, if_pos rfl] at e1
  rw [rd_tab _ n i2 h2, if_neg (fun h => hne h.symm)] at e2
  have e3 : ∑ j in Finset.range n, entry A i1 j * rd xs j =
      ∑ j in Finset.range n, entry A i2 j * rd xs j :=
    Finset.sum_congr rfl fun j hj => by rw [hrow j (Finset.mem_range.1 hj)]
  rw [e3] at e1
  have e4 : (1 : Int) ≡ 0 [ZMOD q] := e1.symm.trans e2
  have e5 : q ∣ 0 - 1 := Int.modEq_iff_dvd.1 e4
  have e6 : q ∣ 1 := by
    have := (Int.dvd_neg).2 e5
    simpa using this
  have := Int.le_of_dvd (by norm_num) e6
  omega

/-! ## One column at a time -/

theorem eliminate_one (q : Int) (n col : Nat) (M : List (List Int)) :
    eliminate q n 1 col M =
      match findPivot M q n col with
      | none => ElimOutcome.noPivot col
      | some p =>
        if modinv (Int.tmod (entry (swapRows M n col p) col col) q) q = -1 then
          ElimOutcome.noInverse (Int.tmod (entry (swapRows M n col p) col col) q)
        else
          ElimOutcome.done (eliminateRows (normalizeRow (swapRows M n col p) q n col
            (modinv (Int.tmod (entry (swapRows M n col p) col col) q) q)) q n col) := by
  unfold eliminate
  cases findPivot M q n col with
  | none => rfl
  | some p =>
    simp only
    split_ifs
    · rfl
    · unfold eliminate; rfl

theorem eliminate_succ (q : Int) (n k col : Nat) (M : List (List Int)) :
    eliminate q n (k + 1) col M =
      match eliminate q n 1 col M with
      | ElimOutcome.done M' => eliminate q n k (col + 1) M'
      | ElimOutcome.noPivot c => ElimOutcome.noPivot c
      | ElimOutcome.noInverse v => ElimOutcome.noInverse v := by
  rw [eliminate_one]
  conv_lhs => unfold eliminate
  cases findPivot M q n col with
  | none => rfl
  | some p =>
    simp only
    split_ifs <;> rfl

theorem eliminate_split (q : Int) (n : Nat) :
    ∀ (j k col : Nat) (M : List (List Int)),
      eliminate q n (j + k) col M =
        match eliminate q n j col M with
        | ElimOutcome.done M' => eliminate q n k (col + j) M'
        | ElimOutcome.noPivot c => ElimOutcome.noPivot c
        | ElimOutcome.noInverse v => ElimOutcome.noInverse v := by
  intro j
  induction j with
  | zero => intro k col M; simp [eliminate]
  | succ j ih =>
    intro k col M
    have e : j + 1 + k = (j + k) + 1 := by omega
    rw [e, eliminate_succ q n (j + k), eliminate_succ q n j]
    cases eliminate q n 1 col M with
    | done M' =>
      simp only
      rw [ih k (col + 1) M']
      have e2 : col + 1 + j = col + (j + 1) := by omega
      rw [e2]
    | noPivot c => rfl
    | noInverse v => rfl

theorem stateAt_iff (q : Int) (n : Nat) (M0 : List (List Int)) :
    ∀ (c : Nat) (M : List (List Int)),
      stateAt q n M0 c = some M ↔ eliminate q n c 0 M0 = ElimOutcome.done M := by
  intro c
  induction c with
  | zero =>
    intro M
    simp [stateAt, eliminate]
  | succ c ih =>
    intro M
    unfold stateAt
    rw [eliminate_split q n c 1 0 M0]
    cases hs : stateAt q n M0 c with
    | none =>
      cases he : eliminate q n c 0 M0 with
      | done M' => exact absurd ((ih M').2 he) (by rw [hs]; simp)
      | noPivot c' => simp
      | noInverse v => simp
    | some M1 =>
      rw [(ih M1).1 hs]
      simp only [Nat.zero_add]
      cases eliminate q n 1 c M1 <;> simp

theorem stateAt_succ (q : Int) (n : Nat) (M0 : List (List Int)) (c : Nat)
    (M' : List (List Int)) (h : stateAt q n M0 (c + 1) = some M') :
    ∃ M p, stateAt q n M0 c = some M ∧ findPivot M q n c = some p ∧
      modinv (Int.tmod (entry (swapRows M n c p) c c) q) q ≠ -1 ∧
      M' = eliminateRows (normalizeRow (swapRows M n c p) q n c
        (modinv (Int.tmod (entry (swapRows M n c p) c c) q) q)) q n c := by
  unfold stateAt at h
  cases hs : stateAt q n M0 c with
  | none => rw [hs] at h; simp at h
  | some M =>
    rw [hs] at h
    simp only at h
    rw [eliminate_one] at h
    cases hp : findPivot M q n c with
    | none => rw [hp] at h; simp at h
    | some p =>
      rw [hp] at h
      simp only at h
      by_cases hinv : modinv (Int.tmod (entry (swapRows M n c p) c c) q) q = -1
      · rw [if_pos hinv] at h; simp at h
      · rw [if_neg hinv] at h
        refine ⟨M, p, rfl, hp, hinv, ?_⟩
        simpa using h.symm

/-- The invariants hold at the top of every iteration that is reached. -/
theorem stateAt_inv (q : Int) (n : Nat) (M0 : List (List Int)) (hq : 0 < q)
    (h0 : InRange M0 n q) :
    ∀ (c : Nat) (M : List (List Int)), c ≤ n → stateAt q n M0 c = some M →
      InRange M n q ∧ IdCols M n c ∧ ∀ z, Sat M n q z ↔ Sat M0 n q z := by
  intro c
  induction c with
  | zero =>
    intro M _ h
    have : M0 = M := by simpa [stateAt] using h
    subst this
    exact ⟨h0, idCols_zero _ n, fun z => Iff.rfl⟩
  | succ c ih =>
    intro M' hc h
    obtain ⟨M, p, hs, hp, _, rfl⟩ := stateAt_succ q n M0 c M' h
    obtain ⟨r1, i1, s1⟩ := ih M (by omega) hs
    obtain ⟨_, r3, i3, s3⟩ := column_step q n c p M hq (by omega) r1 i1 hp
    exact ⟨r3, i3, fun z => (s3 z).trans (s1 z)⟩

/-- A reached column with a pivot is followed by the next column, on the
matrix obtained with that pivot row. -/
theorem stateAt_step (q : Int) (n : Nat) (M0 : List (List Int)) (hq : 0 < q)
    (h0 : InRange M0 n q) (c : Nat) (hc : c < n) (M : List (List Int)) (p : Nat)
    (hs : stateAt q n M0 c = some M) (hp : findPivot M q n c = some p) :
    stateAt q n M0 (c + 1) = some (eliminateRows (normalizeRow (swapRows M n c p) q n c
      (modinv (Int.tmod (entry (swapRows M n c p) c c) q) q)) q n c) := by
  obtain ⟨r1, i1, _⟩ := stateAt_inv q n M0 hq h0 c M (by omega) hs
  obtain ⟨hinv, _⟩ := column_step q n c p M hq hc r1 i1 hp
  unfold stateAt
  rw [hs]
  simp only
  rw [eliminate_one, hp]
  simp only
  rw [if_neg hinv]

/-- A reached column without a pivot ends the call with `SOLVE_NO_PIVOT` and
the message naming that column. -/
theorem gaussian_no_pivot_at (A : List (List Int)) (b : List Int) (n : Nat) (q : Int)
    (c : Nat) (hc : c < n) (M : List (List Int))
    (hs : stateAt q n (buildAug A b n q) c = some M) (hp : findPivot M q n c = none) :
    gaussian_mod_q_solve A b n q =
      { x := none, n := n, status := SOLVE_NO_PIVOT, message := noPivotMessage c } := by
  have h1 := (stateAt_iff q n _ c M).1 hs
  have e : n = c + ((n - c - 1) + 1) := by omega
  have h3 : ∀ m, m = c + ((n - c - 1) + 1) →
      eliminate q n m 0 (buildAug A b n q) = ElimOutcome.noPivot c := by
    intro m hm
    subst hm
    rw [eliminate_split q n c ((n - c - 1) + 1) 0, h1]
    simp only [Nat.zero_add]
    unfold eliminate
    rw [hp]
  have h2 := h3 n e
  unfold gaussian_mod_q_solve
  rw [h2]

theorem pivotOk_iff (v q : Int) (hq : 0 < q) : pivotOk v q = true ↔ InvertibleEntry v q := by
  have hdvd : Int.tmod v q ≠ 0 ↔ v % q ≠ 0 := by
    rw [Ne, Ne, ← Int.dvd_iff_tmod_eq_zero, ← Int.dvd_iff_emod_eq_zero]
  unfold pivotOk InvertibleEntry
  rcases modinv_spec v q hq with ⟨hc, h⟩ | ⟨⟨h1, h2⟩, h0, _, _⟩
  · constructor
    · intro hp
      simp [h] at hp
    · rintro ⟨h1, h2⟩
      rcases hc with hc | hc
      · exact absurd hc h1
      · exact absurd h2 hc
  · constructor
    · intro _; exact ⟨h1, h2⟩
    · intro _
      have hne : modinv v q ≠ -1 := by omega
      simp [hdvd.2 h1, hne]

theorem findPivot_some_iff (M : List (List Int)) (q : Int) (n col p : Nat) (hq : 0 < q) :
    findPivot M q n col = some p ↔
      (col ≤ p ∧ p < n ∧ InvertibleEntry (entry M p col) q ∧
        ∀ r, col ≤ r → r < p → ¬ InvertibleEntry (entry M r col) q) := by
  constructor
  · intro h
    obtain ⟨h1, h2, h3, h4⟩ := findPivotFrom_some M q col (n - col) col p h
    refine ⟨h1, by omega, (pivotOk_iff _ q hq).1 h3, fun r hr1 hr2 hinv => ?_⟩
    have := h4 r hr1 hr2
    rw [(pivotOk_iff _ q hq).2 hinv] at this
    exact Bool.noConfusion this
  · rintro ⟨h1, h2, h3, h4⟩
    cases hf : findPivot M q n col with
    | none =>
      have := findPivotFrom_none M q col (n - col) col hf p h1 (by omega)
      rw [(pivotOk_iff _ q hq).2 h3] at this
      exact Bool.noConfusion this
    | some p' =>
      obtain ⟨g1, g2, g3, g4⟩ := findPivotFrom_some M q col (n - col) col p' hf
      rcases Nat.lt_trichotomy p p' with hlt | heq | hgt
      · have := g4 p h1 hlt
        rw [(pivotOk_iff _ q hq).2 h3] at this
        exact Bool.noConfusion this
      · rw [heq]
      · exact absurd ((pivotOk_iff _ q hq).1 g3) (h4 p' g1 hgt)

theorem findPivot_none_of (M : List (List Int)) (q : Int) (n col : Nat) (hq : 0 < q)
    (h : ∀ r, col ≤ r → r < n → ¬ InvertibleEntry (entry M r col) q) :
    findPivot M q n col = none := by
  cases hf : findPivot M q n col with
  | none => rfl
  | some p =>
    obtain ⟨h1, h2, h3, _⟩ := (findPivot_some_iff M q n col p hq).1 hf
    exact absurd h3 (h p h1 h2)

/-! ## The statuses that can be returned -/

theorem tmod_neg_left (x q : Int) : Int.tmod (-x) q = -Int.tmod x q := by
  rw [Int.tmod_def, Int.tmod_def, Int.neg_tdiv]
  ring

theorem tmod_tmod (v q : Int) : Int.tmod (Int.tmod v q) q = Int.tmod v q := by
  have pos : ∀ (v q : Int), 0 < q → Int.tmod (Int.tmod v q) q = Int.tmod v q := by
    intro v q hq
    have hb := tmod_bounds v q hq
    rcases le_or_lt 0 (Int.tmod v q) with h | h
    · exact Int.tmod_eq_of_lt h hb.2
    · have h1 : Int.tmod (-Int.tmod v q) q = -Int.tmod v q :=
        Int.tmod_eq_of_lt (by omega) (by omega)
      have h2 := tmod_neg_left (-Int.tmod v q) q
      rw [neg_neg, h1, neg_neg] at h2
      exact h2
  rcases lt_trichotomy q 0 with hq | hq | hq
  · have h := pos v (-q) (by omega)
    rwa [Int.tmod_neg, Int.tmod_neg] at h
  · subst hq; simp
  · exact pos v q hq

theorem modinv_tmod (v q : Int) : modinv (Int.tmod v q) q = modinv v q := by
  unfold modinv normq
  rw [tmod_tmod]

/-- The branch of line 124 is never taken: the inverse of the pivot was
already found by the scan of lines 95-103. -/
theorem eliminate_ne_noInverse (q : Int) (n : Nat) :
    ∀ (k col : Nat) (M : List (List Int)) (v : Int), col + k ≤ n →
      eliminate q n k col M ≠ ElimOutcome.noInverse v := by
  intro k
  induction k with
  | zero =>
    intro col M v _ h
    simp [eliminate] at h
  | succ k ih =>
    intro col M v hk h
    have hcol : col < n := by omega
    unfold eliminate at h
    cases hp : findPivot M q n col with
    | none => rw [hp] at h; simp at h
    | some p =>
      rw [hp] at h
      simp only at h
      obtain ⟨_, _, h3, _⟩ := findPivotFrom_some M q col (n - col) col p hp
      have hsw : entry (swapRows M n col p) col col = entry M p col := by
        rw [entry_swapRows M n col p col col hcol]
        simp [swapIdx]
      have hinv : modinv (Int.tmod (entry (swapRows M n col p) col col) q) q ≠ -1 := by
        rw [modinv_tmod, hsw]
        exact (pivotOk_true _ _ h3).2
      rw [if_neg hinv] at h
      exact ih (col + 1) _ v (by omega) h

theorem gaussian_status_cases (A : List (List Int)) (b : List Int) (n : Nat) (q : Int) :
    (gaussian_mod_q_solve A b n q).status = SOLVE_OK ∨
    (gaussian_mod_q_solve A b n q).status = SOLVE_NO_PIVOT := by
  unfold gaussian_mod_q_solve
  cases he : eliminate q n n 0 (buildAug A b n q) with
  | done M => left; rfl
  | noPivot c => right; rfl
  | noInverse v => exact absurd he (eliminate_ne_noInverse q n n 0 _ v (by omega))

/-! ## Invertibility of a solved matrix -/

theorem det_modEq (n : Nat) (M N : Matrix (Fin n) (Fin n) Int) (q : Nat)
    (h : ∀ i j, M i j ≡ N i j [ZMOD (q : Int)]) : M.det ≡ N.det [ZMOD (q : Int)] := by
  rw [← ZMod.intCast_eq_intCast_iff]
  have e : (Int.castRingHom (ZMod q)).mapMatrix M = (Int.castRingHom (ZMod q)).mapMatrix N := by
    ext i j
    simp only [RingHom.mapMatrix_apply, Matrix.map_apply, Int.coe_castRingHom]
    exact (ZMod.intCast_eq_intCast_iff _ _ _).2 (h i j)
  have h1 := RingHom.map_det (Int.castRingHom (ZMod q)) M
  have h2 := RingHom.map_det (Int.castRingHom (ZMod q)) N
  rw [e] at h1
  simpa using h1.trans h2.symm

/-- A matrix that the solver solves is invertible modulo `q`: the solutions
for the unit right-hand sides form an inverse. -/
theorem invertibleMod_of_ok (A : List (List Int)) (b : List Int) (n : Nat) (q : Int)
    (hq : 0 < q) (hst : (gaussian_mod_q_solve A b n q).status = SOLVE_OK) :
    InvertibleMod (detOf A n) q := by
  have hqn : ((q.toNat : Nat) : Int) = q := Int.toNat_of_nonneg hq.le
  have key : ∀ i k : Fin n, (matOf A n * inverseOf A n q) i k ≡
      (1 : Matrix (Fin n) (Fin n) Int) i k [ZMOD ((q.toNat : Nat) : Int)] := by
    intro i k
    rw [hqn]
    have hk : (gaussian_mod_q_solve A (unitVec n k.val) n q).status = SOLVE_OK := by
      rw [← gaussian_status_indep A b (unitVec n k.val) n q]; exact hst
    obtain ⟨xs, h1, _, h3, _⟩ := gaussian_ok A (unitVec n k.val) n q hq hk
    have h4 := h3 i.val i.isLt
    rw [Finset.sum_range] at h4
    have e1 : (matOf A n * inverseOf A n q) i k =
        ∑ j : Fin n, entry A i.val j.val * rd xs j.val := by
      rw [Matrix.mul_apply]
      apply Finset.sum_congr rfl
      intro j _
      unfold matOf inverseOf
      rw [h1]
      rfl
    have e2 : rd (unitVec n k.val) i.val = (1 : Matrix (Fin n) (Fin n) Int) i k := by
      unfold unitVec
      rw [rd_tab _ n i.val i.isLt, Matrix.one_apply]
      by_cases hik : i = k
      · rw [if_pos hik, if_pos (congrArg Fin.val hik)]
      · rw [if_neg hik, if_neg (fun h => hik (Fin.ext h))]
    rw [e1, ← e2]
    exact h4
  have hdet := det_modEq n _ _ q.toNat key
  rw [hqn, Matrix.det_mul, Matrix.det_one] at hdet
  exact ⟨(inverseOf A n q).det, hdet⟩

/-! ## Truncation of a wide system -/

theorem entry_squareBlock (A : List (List Int)) (m i j : Nat) (hi : i < m) (hj : j < m) :
    entry (squareBlock A m) i j = entry A i j := by
  unfold squareBlock
  rw [entry_tab _ m i j hi, rd_tab _ m j hj]

theorem isMatrix_squareBlock (A : List (List Int)) (m : Nat) : IsMatrix (squareBlock A m) m m := by
  unfold IsMatrix squareBlock
  refine ⟨by simp, ?_⟩
  intro row hrow
  rw [List.mem_map] at hrow
  obtain ⟨i, _, rfl⟩ := hrow
  simp

theorem gaussian_of_block (A A' : List (List Int)) (b : List Int) (m : Nat) (q : Int)
    (h : ∀ i, i < m → ∀ j, j < m → entry A' i j = entry A i j) :
    gaussian_mod_q_solve A' b m q = gaussian_mod_q_solve A b m q := by
  unfold gaussian_mod_q_solve
  rw [buildAug_reads A' A b m q (fun p hp => by
    obtain ⟨i, j⟩ := p
    rw [mem_readsOfA] at hp
    exact h i hp.1 j hp.2)]

theorem gaussian_n (A : List (List Int)) (b : List Int) (n : Nat) (q : Int) :
    (gaussian_mod_q_solve A b n q).n = n := by
  unfold gaussian_mod_q_solve
  cases eliminate q n n 0 (buildAug A b n q) <;> rfl

/-! ## No overflow in `modinv` -/

theorem loopInv_bounds (a q t newt r newr : Int) (h : LoopInv a q t newt r newr) :
    -q ≤ t ∧ t ≤ q ∧ -q ≤ newt ∧ newt ≤ q ∧ 0 < r ∧ r ≤ q ∧ 0 ≤ newr ∧ newr < r := by
  obtain ⟨h0, hlt, _, _, _, s, hs, hsn, hst, hdet, hstrict⟩ := h
  have hr : 1 ≤ r := by omega
  have e : r * (s * newt) + newr * (-(s * t)) = q := by linear_combination hdet
  have hN : 0 ≤ newr * (-(s * t)) := mul_nonneg h0 (by omega)
  have hP1 : s * newt ≤ r * (s * newt) := by
    have := mul_le_mul_of_nonneg_right hr hsn.le
    simpa using this
  have hP : s * newt ≤ q := by omega
  have hr2 : r ≤ r * (s * newt) := by
    have := mul_le_mul_of_nonneg_left (show 1 ≤ s * newt by omega) (show 0 ≤ r by omega)
    simpa using this
  have hrP : 0 ≤ r * (s * newt) := mul_nonneg (by omega) hsn.le
  have hNq : -(s * t) ≤ q := by
    rcases hstrict with h | h
    · omega
    · have : -(s * t) ≤ newr * (-(s * t)) := by
        have := mul_le_mul_of_nonneg_right (show 1 ≤ newr by omega) (show 0 ≤ -(s * t) by omega)
        simpa using this
      omega
  have hq0 : 0 < q := by omega
  rcases hs with rfl | rfl
  · simp only [one_mul] at *
    refine ⟨by omega, by omega, by omega, by omega, by omega, by omega, h0, hlt⟩
  · simp only [neg_mul, one_mul, neg_neg] at *
    refine ⟨by omega, by omega, by omega, by omega, by omega, by omega, h0, hlt⟩

/-- Bounds of the values computed in one iteration of the loop. -/
theorem loopInv_step_bounds (a q t newt r newr : Int) (h : LoopInv a q t newt r newr)
    (hne : newr ≠ 0) :
    1 ≤ Int.tdiv r newr ∧ Int.tdiv r newr ≤ q ∧
    -q ≤ Int.tdiv r newr * newt ∧ Int.tdiv r newr * newt ≤ q ∧
    0 ≤ Int.tdiv r newr * newr ∧ Int.tdiv r newr * newr ≤ q := by
  have hb := loopInv_bounds a q t newt r newr h
  have hs := (loopInv_step a q t newt r newr h hne).1
  have hb2 := loopInv_bounds a q _ _ _ _ hs
  obtain ⟨h0, hlt, _, _, _, s, hs1, hsn, hst, _, _⟩ := h
  have hpos : 0 < newr := lt_of_le_of_ne h0 (Ne.symm hne)
  have hq : Int.tdiv r newr = r / newr := Int.tdiv_eq_ediv (by omega) h0
  have hquot : 1 ≤ r / newr := Int.le_ediv_of_mul_le hpos (by omega)
  have hmod : r / newr * newr = r - r % newr := by
    have := Int.emod_add_ediv r newr
    linarith [mul_comm (r / newr) newr]
  have hm0 : 0 ≤ r % newr := Int.emod_nonneg r hne
  have hm1 : r % newr < newr := Int.emod_lt_of_pos r hpos
  have hqr : r / newr ≤ r / newr * newr := by
    have := mul_le_mul_of_nonneg_left (show 1 ≤ newr by omega) (show 0 ≤ r / newr by omega)
    simpa using this
  rw [hq] at hb2 ⊢
  have hprod : 0 ≤ r / newr * (s * newt) := mul_nonneg (by omega) hsn.le
  rcases hs1 with rfl | rfl
  · simp only [one_mul] at *
    refine ⟨hquot, by omega, by omega, by omega, by omega, by omega⟩
  · simp only [neg_mul, one_mul, mul_neg] at *
    refine ⟨hquot, by omega, by omega, by omega, by omega, by omega⟩

theorem modinvTrace_bounds (a q : Int) :
    ∀ (fuel : Nat) (t newt r newr : Int), LoopInv a q t newt r newr →
      ∀ v ∈ modinvTrace fuel t newt r newr, -q ≤ v ∧ v ≤ q := by
  intro fuel
  induction fuel with
  | zero =>
    intro t newt r newr h v hv
    have hb := loopInv_bounds a q t newt r newr h
    simp only [modinvTrace, List.mem_cons, List.mem_singleton, List.not_mem_nil, or_false] at hv
    rcases hv with rfl | rfl | rfl | rfl <;> constructor <;> omega
  | succ k ih =>
    intro t newt r newr h v hv
    have hb := loopInv_bounds a q t newt r newr h
    unfold modinvTrace at hv
    by_cases h0 : newr = 0
    · rw [if_pos h0] at hv
      simp only [List.mem_cons, List.mem_singleton, List.not_mem_nil, or_false] at hv
      rcases hv with rfl | rfl | rfl | rfl <;> constructor <;> omega
    · rw [if_neg h0] at hv
      have hsb := loopInv_step_bounds a q t newt r newr h h0
      simp only [List.cons_append, List.nil_append, List.mem_cons] at hv
      rcases hv with rfl | rfl | rfl | rfl | rfl | rfl | rfl | hv
      · constructor <;> omega
      · constructor <;> omega
      · constructor <;> omega
      · constructor <;> omega
      · constructor <;> omega
      · constructor <;> omega
      · constructor <;> omega
      · exact ih _ _ _ _ (loopInv_step a q t newt r newr h h0).1 v hv

theorem modinvLoop32_eq (a q : Int) (hq32 : q ≤ 2147483647) :
    ∀ (fuel : Nat) (t newt r newr : Int), LoopInv a q t newt r newr →
      modinvLoop32 fuel t newt r newr = modinvLoop fuel t newt r newr := by
  intro fuel
  induction fuel with
  | zero => intro t newt r newr _; rfl
  | succ k ih =>
    intro t newt r newr h
    unfold modinvLoop32 modinvLoop
    by_cases h0 : newr = 0
    · rw [if_pos h0, if_pos h0]
    · rw [if_neg h0, if_neg h0]
      have hsb := loopInv_step_bounds a q t newt r newr h h0
      have hs := (loopInv_step a q t newt r newr h h0).1
      have hb2 := loopInv_bounds a q _ _ _ _ hs
      simp only
      rw [wrap32_eq (Int.tdiv r newr) (by omega) (by omega),
        wrap32_eq (Int.tdiv r newr * newt) (by omega) (by omega),
        wrap32_eq (Int.tdiv r newr * newr) (by omega) (by omega),
        wrap32_eq (t - Int.tdiv r newr * newt) (by omega) (by omega),
        wrap32_eq (r - Int.tdiv r newr * newr) (by omega) (by omega)]
      exact ih _ _ _ _ hs

/-! ## Index safety -/

theorem access_ok_iff (a : Access) : a.ok = true ↔ 0 ≤ a.index ∧ a.index < (a.size : Int) := by
  unfold Access.ok
  simp

theorem countP_range_lt (p : Nat → Bool) (n i : Nat) (hi : i < n) (hp : p i = true) :
    (List.range i).countP p < (List.range n).countP p := by
  have h1 : (List.range (i + 1)).countP p = (List.range i).countP p + 1 := by
    rw [List.range_succ, List.countP_append]
    simp [hp]
  have h3 : (List.range (i + 1)).Sublist (List.range n) :=
    List.range_sublist.2 (show i + 1 ≤ n by omega)
  have h2 : (List.range (i + 1)).countP p ≤ (List.range n).countP p := h3.countP_le p
  omega

theorem countP_range_le (p : Nat → Bool) (i : Nat) : (List.range i).countP p ≤ i := by
  have := List.countP_le_length p (l := List.range i)
  simpa using this

theorem circIndex_bounds (n k j : Nat) (hk : k < n) (hj : j < n) :
    0 ≤ circIndex n k j ∧ circIndex n k j < (n : Int) := by
  unfold circIndex
  split_ifs with h
  · constructor <;> omega
  · constructor <;> omega

theorem I_f_known_lt (f_mask : List Bool) (n idx : Nat) (hidx : idx < (I_f_known f_mask n).length) :
    rdn (I_f_known f_mask n) idx < n := by
  have h := rdn_mem _ idx hidx
  unfold I_f_known at h
  rw [List.mem_filter, List.mem_range] at h
  exact h.1

theorem length_I_f_known_le (f_mask : List Bool) (n : Nat) : (I_f_known f_mask n).length ≤ n := by
  unfold I_f_known
  have := List.length_filter_le (fun i => rdb f_mask i) (List.range n)
  simpa using this

theorem countAccesses_ok (g_mask f_mask : List Bool) (n : Nat)
    (hg : g_mask.length = n) (hf : f_mask.length = n) :
    ∀ a ∈ countAccesses g_mask f_mask n, a.ok = true := by
  intro a ha
  unfold countAccesses at ha
  simp only [List.mem_flatMap, List.mem_range, List.mem_cons, List.mem_singleton,
    List.not_mem_nil, or_false] at ha
  obtain ⟨i, hi, rfl | rfl⟩ := ha <;> rw [access_ok_iff] <;> simp only <;> omega

theorem indexAccesses_ok (g_mask f_mask : List Bool) (n : Nat)
    (hg : g_mask.length = n) (hf : f_mask.length = n) :
    ∀ a ∈ indexAccesses g_mask f_mask n, a.ok = true := by
  intro a ha
  unfold indexAccesses at ha
  simp only [List.mem_flatMap, List.mem_range, List.mem_append, List.mem_cons,
    List.mem_singleton, List.not_mem_nil, or_false] at ha
  obtain ⟨i, hi, ha⟩ := ha
  rcases ha with (((rfl | rfl) | ha) | ha)
  · rw [access_ok_iff]; simp only; omega
  · rw [access_ok_iff]; simp only; omega
  · by_cases hgi : rdb g_mask i = true
    · rw [if_pos hgi] at ha
      simp only [List.mem_singleton] at ha
      subst ha
      rw [access_ok_iff]
      simp only
      have := countP_range_lt (fun t => rdb g_mask t) n i hi hgi
      unfold num_known_g
      omega
    · rw [if_neg hgi] at ha
      simp at ha
  · by_cases hfi : rdb f_mask i = true
    · rw [if_pos hfi] at ha
      simp only [List.mem_singleton] at ha
      subst ha
      rw [access_ok_iff]
      simp only
      have := countP_range_le (fun t => rdb f_mask t) i
      omega
    · rw [if_neg hfi] at ha
      simp only [List.mem_singleton] at ha
      subst ha
      rw [access_ok_iff]
      simp only
      have := countP_range_lt (fun t => !rdb f_mask t) n i hi (by simpa using hfi)
      unfold num_unknown_f
      omega

theorem rowAccesses_ok (g : List Int) (g_mask : List Bool) (f : List Int) (f_mask : List Bool)
    (h : List Int) (n i : Nat) (hlg : g.length = n) (hlf : f.length = n) (hlh : h.length = n)
    (hi : i < num_known_g g_mask n) :
    ∀ a ∈ rowAccesses g g_mask f f_mask h n i, a.ok = true := by
  intro a ha
  have hk := (I_g_spec g_mask n i hi).1
  have hlen := length_I_f_known_le f_mask n
  unfold rowAccesses at ha
  simp only [List.mem_flatMap, List.mem_range, List.mem_append, List.mem_cons,
    List.mem_singleton, List.not_mem_nil, or_false] at ha
  rcases ha with ((((rfl | rfl) | ⟨j, hj, rfl | rfl⟩) | ⟨idx, hidx, rfl | rfl | rfl⟩) |
    (rfl | rfl)) | ⟨idx, hidx, rfl | rfl | rfl⟩
  all_goals rw [access_ok_iff]; simp only
  · omega
  · omega
  · rw [hlh]; exact circIndex_bounds n _ j hk hj
  · omega
  · omega
  · have := I_f_known_lt f_mask n idx hidx; omega
  · have := I_f_known_lt f_mask n idx hidx; omega
  · omega
  · omega
  · omega
  · have := (I_f_unk_spec f_mask n idx hidx).1; omega
  · omega

theorem builderAccesses_ok (g : List Int) (g_mask : List Bool) (f : List Int)
    (f_mask : List Bool) (h : List Int) (n : Nat)
    (hlen : g.length = n ∧ g_mask.length = n ∧ f.length = n ∧ f_mask.length = n ∧
      h.length = n) :
    ∀ a ∈ builderAccesses g g_mask f f_mask h n, a.ok = true := by
  obtain ⟨h1, h2, h3, h4, h5⟩ := hlen
  intro a ha
  unfold builderAccesses at ha
  simp only [List.mem_append, List.mem_flatMap, List.mem_map, List.mem_range,
    List.mem_singleton] at ha
  rcases ha with (((rfl | ha) | ha) | ⟨i, hi, ha⟩) | ⟨i, hi, rfl⟩
  · decide
  · exact countAccesses_ok g_mask f_mask n h2 h4 a ha
  · exact indexAccesses_ok g_mask f_mask n h2 h4 a ha
  · exact rowAccesses_ok g g_mask f f_mask h n i h1 h3 h5 hi a ha
  · rw [access_ok_iff]; simp only; omega

theorem copyAccesses_ok (A : List (List Int)) (b : List Int) (n : Nat)
    (hA : A.length = n) (hw : ∀ i, i < n → n ≤ rowWidth A i) (hb : b.length = n) :
    ∀ a ∈ copyAccesses A b n, a.ok = true := by
  intro a ha
  unfold copyAccesses at ha
  simp only [List.mem_append, List.mem_flatMap, List.mem_range, List.mem_cons,
    List.mem_singleton, List.not_mem_nil, or_false] at ha
  rcases ha with rfl | ⟨i, hi, (rfl | ⟨j, hj, rfl | rfl | rfl⟩) | rfl | rfl⟩
  · decide
  all_goals rw [access_ok_iff]; simp only
  · omega
  · omega
  · have := hw i hi; omega
  · constructor <;> omega
  · omega
  · constructor <;> omega

theorem elimAccesses_ok (n : Nat) : ∀ a ∈ elimAccesses n, a.ok = true := by
  intro a ha
  unfold elimAccesses at ha
  simp only [List.mem_append, List.mem_flatMap, List.mem_map, List.mem_range,
    List.mem_range', List.mem_cons, List.mem_singleton, List.not_mem_nil, or_false] at ha
  obtain ⟨col, hcol, ha⟩ := ha
  rcases ha with (((((⟨row, ⟨i, hi, rfl⟩, rfl | rfl⟩ | ⟨i, hi, rfl⟩) |
    ⟨p, ⟨i, hi, rfl⟩, rfl | rfl⟩) | (rfl | rfl)) | ⟨j, ⟨i, hi, rfl⟩, rfl⟩) |
    ⟨row, hrow, (rfl | rfl | rfl) | ⟨j, ⟨i, hi, rfl⟩, rfl⟩⟩)
  all_goals rw [access_ok_iff]; simp only
  all_goals constructor <;> omega

theorem extractAccesses_ok (n : Nat) : ∀ a ∈ extractAccesses n, a.ok = true := by
  intro a ha
  unfold extractAccesses at ha
  simp only [List.mem_flatMap, List.mem_range, List.mem_cons, List.mem_singleton,
    List.not_mem_nil, or_false] at ha
  obtain ⟨i, hi, rfl | rfl | rfl | rfl⟩ := ha
  all_goals rw [access_ok_iff]; simp only
  all_goals constructor <;> omega

theorem length_systemB (g : List Int) (g_mask : List Bool) (f : List Int) (f_mask : List Bool)
    (h : List Int) (n : Nat) (mod : Int) :
    (systemB g g_mask f f_mask h n mod).length = num_known_g g_mask n := by
  simp [systemB]

/-! ## Claims C1 to C10 -/

/-- C1: soundness of `gaussian_mod_q_solve`.  For every dimension `n`, modulus
`q ≥ 2`, `n × n` matrix `A` and vector `b` of length `n`, if the call returns
`SOLVE_OK` with the solution `x`, then in every row `i` the sum of
`A[i][j] * x[j]` over `j` is congruent to `b[i]` modulo `q`. -/
theorem gaussian_mod_q_solve_sound (A : List (List Int)) (b : List Int) (n : Nat) (q : Int)
    (x : List Int) (hq : 2 ≤ q) (_hA : IsMatrix A n n) (_hb : b.length = n)
    (hst : (gaussian_mod_q_solve A b n q).status = SOLVE_OK)
    (hx : (gaussian_mod_q_solve A b n q).x = some x) :
    ∀ i, i < n → (∑ j in Finset.range n, entry A i j * rd x j) ≡ rd b i [ZMOD q] := by
  obtain ⟨xs, h1, _, h3, _⟩ := gaussian_ok A b n q (by omega) hst
  rw [h1] at hx
  have : xs = x := by simpa using hx
  subst this
  exact h3

/-- Instance of C1: the 3 × 3 system modulo 17 of the test program. -/
theorem gaussian_mod_q_solve_sound_witness :
    (gaussian_mod_q_solve [[2, 3, 1], [1, 4, 2], [3, 1, 5]] [10, 8, 15] 3 17).x =
      some [-5, 5, 5] ∧
    ((∑ j in Finset.range 3,
      entry [[2, 3, 1], [1, 4, 2], [3, 1, 5]] 0 j * rd [-5, 5, 5] j) ≡
        rd [10, 8, 15] 0 [ZMOD 17]) ∧
    ((∑ j in Finset.range 3,
      entry [[2, 3, 1], [1, 4, 2], [3, 1, 5]] 1 j * rd [-5, 5, 5] j) ≡
        rd [10, 8, 15] 1 [ZMOD 17]) ∧
    ((∑ j in Finset.range 3,
      entry [[2, 3, 1], [1, 4, 2], [3, 1, 5]] 2 j * rd [-5, 5, 5] j) ≡
        rd [10, 8, 15] 2 [ZMOD 17]) :=
  ⟨by decide,
    gaussian_mod_q_solve_sound [[2, 3, 1], [1, 4, 2], [3, 1, 5]] [10, 8, 15] 3 17 [-5, 5, 5]
      (by decide) (by decide) (by decide) (by decide) (by decide) 0 (by decide),
    gaussian_mod_q_solve_sound [[2, 3, 1], [1, 4, 2], [3, 1, 5]] [10, 8, 15] 3 17 [-5, 5, 5]
      (by decide) (by decide) (by decide) (by decide) (by decide) 1 (by decide),
    gaussian_mod_q_solve_sound [[2, 3, 1], [1, 4, 2], [3, 1, 5]] [10, 8, 15] 3 17 [-5, 5, 5]
      (by decide) (by decide) (by decide) (by decide) (by decide) 2 (by decide)⟩

/-- C2 as stated fails where the builder overflows.  First input: `n = 2`,
modulus 17, `h = [0, -2^31]`, `g[0] = 1` known, `f[0] = 0` known, and
`F = [0, 2]`, which agrees with `f` and satisfies `g[0] ≡ (h * F)[0]`; the
32-bit negation of `h[1]` yields `-2^31` again, the call returns `SOLVE_OK` with
`x = [-2]`, and `to_centered_mod(F[1], 17)` is `2`.  Second input: `n = 4`,
modulus `2^31 - 1`, `h = [1, 2^31 - 2, 2^31 - 2, 2^31 - 2]`, `g[3] = 8` known,
`f[0] = f[1] = f[2] = -2^31` known, and `F = [-2^31, -2^31, -2^31, 5]`; no
negation overflows, the 64-bit accumulator `total` wraps at its third term, the
call returns `SOLVE_OK` with `x = [1]`, and `to_centered_mod(F[3], 2^31 - 1)`
is `5`.  Every array element is a 32-bit value. -/
theorem solve_unknown_f_recovers_counterexample :
    ((num_known_g [true, false] 2 = num_unknown_f [true, false] 2 ∧
      (∀ j, j < 2 → rdb [true, false] j = true → rd [0, 2] j = rd [0, 0] j) ∧
      (∀ k, k < 2 → rdb [true, false] k = true →
        rd [1, 0] k ≡ negacyclic [0, -2147483648] (rd [0, 2]) 2 k [ZMOD 17]) ∧
      (∀ j, j < 2 → In32 (rd [1, 0] j) ∧ In32 (rd [0, 0] j) ∧ In32 (rd [0, -2147483648] j))) ∧
     (solve_unknown_f [1, 0] [true, false] [0, 0] [true, false]
        [0, -2147483648] 2 17).status = SOLVE_OK ∧
     (solve_unknown_f [1, 0] [true, false] [0, 0] [true, false]
        [0, -2147483648] 2 17).x = some [-2] ∧
     to_centered_mod (rd [0, 2] (rdn (I_f_unk [true, false] 2) 0)) 17 = 2) ∧
    ((num_known_g [false, false, false, true] 4 = num_unknown_f [true, true, true, false] 4 ∧
      (∀ j, j < 4 → rdb [true, true, true, false] j = true →
        rd [-2147483648, -2147483648, -2147483648, 5] j =
          rd [-2147483648, -2147483648, -2147483648, 0] j) ∧
      (∀ k, k < 4 → rdb [false, false, false, true] k = true →
        rd [0, 0, 0, 8] k ≡
          negacyclic [1, 2147483646, 2147483646, 2147483646]
            (rd [-2147483648, -2147483648, -2147483648, 5]) 4 k [ZMOD 2147483647]) ∧
      (∀ j, j < 4 → In32 (rd [0, 0, 0, 8] j) ∧
        In32 (rd [-2147483648, -2147483648, -2147483648, 0] j) ∧
        In32 (rd [1, 2147483646, 2147483646, 2147483646] j))) ∧
     (solve_unknown_f [0, 0, 0, 8] [false, false, false, true]
        [-2147483648, -2147483648, -2147483648, 0] [true, true, true, false]
        [1, 2147483646, 2147483646, 2147483646] 4 2147483647).status = SOLVE_OK ∧
     (solve_unknown_f [0, 0, 0, 8] [false, false, false, true]
        [-2147483648, -2147483648, -2147483648, 0] [true, true, true, false]
        [1, 2147483646, 2147483646, 2147483646] 4 2147483647).x = some [1] ∧
     to_centered_mod (rd [-2147483648, -2147483648, -2147483648, 5]
        (rdn (I_f_unk [true, true, true, false] 4) 0)) 2147483647 = 5) := by
  decide

/-- C2, amended: recovery by `solve_unknown_f` when building the system does
not overflow.  For `n ≥ 1`, `mod ≥ 2`, arrays of length `n` with as many known
`g` positions as unknown `f` positions, for which no equation overflows while it
is built (`NoOverflow`), and every integer polynomial `F` that agrees with `f`
where `f_mask` is true and satisfies `g[k] ≡ (h * F)[k] (mod mod)` where
`g_mask` is true: if the call returns `SOLVE_OK` with `x`, then `x[idx]` is
`to_centered_mod(F[u_idx], mod)` for the `idx`-th unknown position `u_idx` in
ascending order. -/
theorem solve_unknown_f_recovers (g : List Int) (g_mask : List Bool) (f : List Int)
    (f_mask : List Bool) (h : List Int) (n : Nat) (mod : Int) (x : List Int) (F : Nat → Int)
    (_hn : 1 ≤ n) (hq : 2 ≤ mod)
    (_hlen : g.length = n ∧ g_mask.length = n ∧ f.length = n ∧ f_mask.length = n ∧ h.length = n)
    (hsq : num_known_g g_mask n = num_unknown_f f_mask n)
    (hno : NoOverflow g g_mask f f_mask h n mod)
    (hF : ∀ j, j < n → rdb f_mask j = true → F j = rd f j)
    (hG : ∀ k, k < n → rdb g_mask k = true → rd g k ≡ negacyclic h F n k [ZMOD mod])
    (hst : (solve_unknown_f g g_mask f f_mask h n mod).status = SOLVE_OK)
    (hx : (solve_unknown_f g g_mask f f_mask h n mod).x = some x) :
    ∀ idx, idx < num_unknown_f f_mask n →
      rd x idx = to_centered_mod (F (rdn (I_f_unk f_mask n) idx)) mod := by
  have hq0 : 0 < mod := by omega
  unfold solve_unknown_f at hst hx
  by_cases hm : num_known_g g_mask n = 0
  · rw [if_pos hm] at hst
    exact solve_status_t.noConfusion hst
  · rw [if_neg hm] at hst hx
    obtain ⟨xs, h1, _, _, h4⟩ := gaussian_ok _ _ _ mod hq0 hst
    rw [h1] at hx
    have : xs = x := by simpa using hx
    subst this
    intro idx hidx
    refine h4 (fun idx => F (rdn (I_f_unk f_mask n) idx)) ?_ idx (by omega)
    intro i hi
    have hs := system_encodes g g_mask f f_mask h n mod hq0 F hF i hi (hno i hi)
    have hk := I_g_spec g_mask n i hi
    have hz : negacyclic h F n (rdn (I_g g_mask n) i) - rd g (rdn (I_g g_mask n) i) ≡
        0 [ZMOD mod] := by
      have := Int.ModEq.sub_right (rd g (rdn (I_g g_mask n) i)) (hG _ hk.1 hk.2)
      rw [sub_self] at this
      exact this.symm
    have h5 := Int.ModEq.add_right (rd (systemB g g_mask f f_mask h n mod) i) (hs.trans hz)
    rw [hsq]
    simpa using h5

/-- Instance of the amended C2: `n = 4`, modulus 17, two known `g` and two
unknown `f`. -/
theorem solve_unknown_f_recovers_witness :
    NoOverflow [1, 2, 0, 0] [true, true, false, false] [3, 0, 0, 1]
      [true, false, false, true] [5, 7, 2, 1] 4 17 ∧
    (solve_unknown_f [1, 2, 0, 0] [true, true, false, false] [3, 0, 0, 1]
      [true, false, false, true] [5, 7, 2, 1] 4 17).x = some [-4, -3] ∧
    rd [-4, -3] 0 =
      to_centered_mod (rd [3, -4, -3, 1] (rdn (I_f_unk [true, false, false, true] 4) 0)) 17 ∧
    rd [-4, -3] 1 =
      to_centered_mod (rd [3, -4, -3, 1] (rdn (I_f_unk [true, false, false, true] 4) 1)) 17 :=
  ⟨by decide, by decide,
    solve_unknown_f_recovers [1, 2, 0, 0] [true, true, false, false] [3, 0, 0, 1]
      [true, false, false, true] [5, 7, 2, 1] 4 17 [-4, -3] (rd [3, -4, -3, 1])
      (by decide) (by decide) (by decide) (by decide) (by decide) (by decide) (by decide)
      (by decide)
      (by decide) 0 (by decide),
    solve_unknown_f_recovers [1, 2, 0, 0] [true, true, false, false] [3, 0, 0, 1]
      [true, false, false, true] [5, 7, 2, 1] 4 17 [-4, -3] (rd [3, -4, -3, 1])
      (by decide) (by decide) (by decide) (by decide) (by decide) (by decide) (by decide)
      (by decide)
      (by decide) 1 (by decide)⟩

/-- C3: `modinv` returns the inverse in range.  For every modulus `q > 0` and
every integer `a` of any sign with `a` not congruent to `0` modulo `q` and
`gcd(a, q) = 1`, `modinv(a, q)` is the unique `r` with `0 ≤ r < q` and
`a * r ≡ 1 (mod q)`. -/
theorem modinv_inverse_in_range (a q : Int) (hq : 0 < q) (ha : ¬ a ≡ 0 [ZMOD q])
    (hg : Int.gcd a q = 1) :
    0 ≤ modinv a q ∧ modinv a q < q ∧ a * modinv a q ≡ 1 [ZMOD q] ∧
    ∀ r, 0 ≤ r → r < q → a * r ≡ 1 [ZMOD q] → r = modinv a q := by
  rcases modinv_spec a q hq with ⟨hc, _⟩ | ⟨_, h0, h1, h2⟩
  · rcases hc with hc | hc
    · exact absurd (show a ≡ 0 [ZMOD q] by simpa [Int.ModEq] using hc) ha
    · exact absurd hg hc
  · refine ⟨h0, h1, h2, ?_⟩
    intro r hr0 hr1 hr
    have e1 : r * (a * modinv a q) ≡ r * 1 [ZMOD q] := Int.ModEq.mul_left r h2
    have e2 : a * r * modinv a q ≡ 1 * modinv a q [ZMOD q] := Int.ModEq.mul_right _ hr
    have e3 : r * (a * modinv a q) = a * r * modinv a q := by ring
    rw [e3, mul_one] at e1
    rw [one_mul] at e2
    have e4 : r % q = modinv a q % q := e1.symm.trans e2
    rwa [Int.emod_eq_of_lt hr0 hr1, Int.emod_eq_of_lt h0 h1] at e4

/-- Instance of C3 at the negative argument `a = -3`, `q = 11`. -/
theorem modinv_inverse_in_range_witness :
    0 ≤ modinv (-3) 11 ∧ modinv (-3) 11 < 11 ∧ -3 * modinv (-3) 11 ≡ 1 [ZMOD 11] ∧
    ∀ r, 0 ≤ r → r < 11 → -3 * r ≡ 1 [ZMOD 11] → r = modinv (-3) 11 :=
  modinv_inverse_in_range (-3) 11 (by decide) (by decide) (by decide)

/-- C4: the sentinel of `modinv`.  For every modulus `q > 0` and every integer
`a`, `modinv(a, q)` is `-1` if and only if `a ≡ 0 (mod q)` or
`gcd(a, q) ≠ 1`. -/
theorem modinv_sentinel_iff (a q : Int) (hq : 0 < q) :
    modinv a q = -1 ↔ (a ≡ 0 [ZMOD q] ∨ Int.gcd a q ≠ 1) := by
  rcases modinv_spec a q hq with ⟨hc, h⟩ | ⟨⟨h1, h2⟩, h0, _, _⟩
  · refine ⟨fun _ => ?_, fun _ => h⟩
    rcases hc with hc | hc
    · left; simpa [Int.ModEq] using hc
    · right; exact hc
  · constructor
    · intro h; rw [h] at h0; omega
    · rintro (h | h)
      · exact absurd (show a % q = 0 by simpa [Int.ModEq] using h) h1
      · exact absurd h2 h

/-- Instance of C4 at `a = 4`, `q = 6`. -/
theorem modinv_sentinel_iff_witness :
    modinv 4 6 = -1 ↔ (4 ≡ 0 [ZMOD 6] ∨ Int.gcd 4 6 ≠ 1) :=
  modinv_sentinel_iff 4 6 (by decide)

/-- C5 as stated fails where the builder overflows.  First input: `n = 2`,
modulus 17, `h = [0, -2^31]`, `g[0] = 1` known, `f[0] = 0` known, and
`F = [0, 1]`: the 32-bit negation of `h[1]` yields `-2^31` again, so that
`A[0][0]` is `8` where `-h[1] mod 17` is `9`, and the built equation gives
`8 * 1 - 1`, which is not congruent to `(h * F)[0] - g[0] = 2^31 - 1` modulo 17.
Second input: `n = 4`, modulus `2^31 - 1`,
`h = [1, 2^31 - 2, 2^31 - 2, 2^31 - 2]`, `g[3] = 8` known,
`f[0] = f[1] = f[2] = -2^31` known, and `F = [-2^31, -2^31, -2^31, 5]`: no
negation overflows, the 64-bit accumulator `total` wraps at its third term, so
that `b[0]` is `1`, and the built equation gives `1 * 5 - 1`, which is not
congruent to `(h * F)[3] - g[3]` modulo `2^31 - 1`.  Every array element is a
32-bit value. -/
theorem solve_unknown_f_system_encodes_counterexample :
    ((0 < num_known_g [true, false] 2 ∧
      (∀ j, j < 2 → rdb [true, false] j = true → rd [0, 1] j = rd [0, 0] j) ∧
      (∀ j, j < 2 → In32 (rd [1, 0] j) ∧ In32 (rd [0, 0] j) ∧ In32 (rd [0, -2147483648] j))) ∧
     entry (systemA [true, false] [true, false] [0, -2147483648] 2 17) 0 0 = 8 ∧
     rd (systemB [1, 0] [true, false] [0, 0] [true, false] [0, -2147483648] 2 17) 0 = 1 ∧
     ¬ ((∑ idx in Finset.range (num_unknown_f [true, false] 2),
          entry (systemA [true, false] [true, false] [0, -2147483648] 2 17) 0 idx *
            rd [0, 1] (rdn (I_f_unk [true, false] 2) idx)) -
        rd (systemB [1, 0] [true, false] [0, 0] [true, false] [0, -2147483648] 2 17) 0 ≡
        negacyclic [0, -2147483648] (rd [0, 1]) 2 (rdn (I_g [true, false] 2) 0) -
          rd [1, 0] (rdn (I_g [true, false] 2) 0) [ZMOD 17])) ∧
    ((0 < num_known_g [false, false, false, true] 4 ∧
      (∀ j, j < 4 → rdb [true, true, true, false] j = true →
        rd [-2147483648, -2147483648, -2147483648, 5] j =
          rd [-2147483648, -2147483648, -2147483648, 0] j) ∧
      (∀ j, j < 4 → In32 (rd [0, 0, 0, 8] j) ∧
        In32 (rd [-2147483648, -2147483648, -2147483648, 0] j) ∧
        In32 (rd [1, 2147483646, 2147483646, 2147483646] j))) ∧
     entry (systemA [false, false, false, true] [true, true, true, false]
        [1, 2147483646, 2147483646, 2147483646] 4 2147483647) 0 0 = 1 ∧
     rd (systemB [0, 0, 0, 8] [false, false, false, true]
        [-2147483648, -2147483648, -2147483648, 0] [true, true, true, false]
        [1, 2147483646, 2147483646, 2147483646] 4 2147483647) 0 = 1 ∧
     ¬ ((∑ idx in Finset.range (num_unknown_f [true, true, true, false] 4),
          entry (systemA [false, false, false, true] [true, true, true, false]
            [1, 2147483646, 2147483646, 2147483646] 4 2147483647) 0 idx *
            rd [-2147483648, -2147483648, -2147483648, 5]
              (rdn (I_f_unk [true, true, true, false] 4) idx)) -
        rd (systemB [0, 0, 0, 8] [false, false, false, true]
          [-2147483648, -2147483648, -2147483648, 0] [true, true, true, false]
          [1, 2147483646, 2147483646, 2147483646] 4 2147483647) 0 ≡
        negacyclic [1, 2147483646, 2147483646, 2147483646]
            (rd [-2147483648, -2147483648, -2147483648, 5]) 4
            (rdn (I_g [false, false, false, true] 4) 0) -
          rd [0, 0, 0, 8] (rdn (I_g [false, false, false, true] 4) 0) [ZMOD 2147483647])) := by
  decide

/-- C5, amended: the system built by `solve_unknown_f` encodes the negacyclic
relation in every equation that is built without overflow.  For `n ≥ 1`,
`mod ≥ 1`, inputs of length `n` with at least one known `g`, and every integer
polynomial `F` that agrees with `f` where `f_mask` is true, the call solves the
system `(systemA, systemB)`; its `i`-th equation satisfies
`(Σ_idx A[i][idx] * F[u_idx]) - b[i] ≡ (h * F)[k_i] - g[k_i] (mod mod)`, with
`k_i` the `i`-th known-g position and `u_idx` the `idx`-th unknown-f position,
provided that building this equation does not overflow (`RowNoOverflow`); and
every `A[i][idx]` and `b[i]` lies in `[0, mod)`, overflow or not. -/
theorem solve_unknown_f_system_encodes (g : List Int) (g_mask : List Bool) (f : List Int)
    (f_mask : List Bool) (h : List Int) (n : Nat) (mod : Int) (F : Nat → Int)
    (_hn : 1 ≤ n) (hq : 1 ≤ mod)
    (_hlen : g.length = n ∧ g_mask.length = n ∧ f.length = n ∧ f_mask.length = n ∧
      h.length = n)
    (hm : 0 < num_known_g g_mask n)
    (hF : ∀ j, j < n → rdb f_mask j = true → F j = rd f j) :
    solve_unknown_f g g_mask f f_mask h n mod =
      gaussian_mod_q_solve (systemA g_mask f_mask h n mod)
        (systemB g g_mask f f_mask h n mod) (num_known_g g_mask n) mod ∧
    ∀ i, i < num_known_g g_mask n →
      (RowNoOverflow g f f_mask h n (rdn (I_g g_mask n) i) mod →
        (∑ idx in Finset.range (num_unknown_f f_mask n),
          entry (systemA g_mask f_mask h n mod) i idx * F (rdn (I_f_unk f_mask n) idx)) -
        rd (systemB g g_mask f f_mask h n mod) i ≡
        negacyclic h F n (rdn (I_g g_mask n) i) - rd g (rdn (I_g g_mask n) i) [ZMOD mod]) ∧
      (∀ idx, idx < num_unknown_f f_mask n →
        0 ≤ entry (systemA g_mask f_mask h n mod) i idx ∧
        entry (systemA g_mask f_mask h n mod) i idx < mod) ∧
      0 ≤ rd (systemB g g_mask f f_mask h n mod) i ∧
      rd (systemB g g_mask f f_mask h n mod) i < mod := by
  have hq0 : 0 < mod := by omega
  refine ⟨?_, fun i hi => ⟨system_encodes g g_mask f f_mask h n mod hq0 F hF i hi,
    system_range g g_mask f f_mask h n mod hq0 i hi⟩⟩
  unfold solve_unknown_f
  rw [if_neg (by omega)]

/-- Instance of the amended C5: `n = 4`, modulus 17, with `F = [3, 9, 9, 1]`;
neither of the two equations overflows. -/
theorem solve_unknown_f_system_encodes_witness :
    NoOverflow [1, 2, 0, 0] [true, true, false, false] [3, 0, 0, 1]
      [true, false, false, true] [5, 7, 2, 1] 4 17 ∧
    solve_unknown_f [1, 2, 0, 0] [true, true, false, false] [3, 0, 0, 1]
        [true, false, false, true] [5, 7, 2, 1] 4 17 =
      gaussian_mod_q_solve (systemA [true, true, false, false] [true, false, false, true]
          [5, 7, 2, 1] 4 17)
        (systemB [1, 2, 0, 0] [true, true, false, false] [3, 0, 0, 1]
          [true, false, false, true] [5, 7, 2, 1] 4 17)
        (num_known_g [true, true, false, false] 4) 17 ∧
    ∀ i, i < num_known_g [true, true, false, false] 4 →
      (RowNoOverflow [1, 2, 0, 0] [3, 0, 0, 1] [true, false, false, true] [5, 7, 2, 1] 4
          (rdn (I_g [true, true, false, false] 4) i) 17 →
        (∑ idx in Finset.range (num_unknown_f [true, false, false, true] 4),
          entry (systemA [true, true, false, false] [true, false, false, true]
            [5, 7, 2, 1] 4 17) i idx *
            rd [3, 9, 9, 1] (rdn (I_f_unk [true, false, false, true] 4) idx)) -
        rd (systemB [1, 2, 0, 0] [true, true, false, false] [3, 0, 0, 1]
          [true, false, false, true] [5, 7, 2, 1] 4 17) i ≡
        negacyclic [5, 7, 2, 1] (rd [3, 9, 9, 1]) 4
            (rdn (I_g [true, true, false, false] 4) i) -
          rd [1, 2, 0, 0] (rdn (I_g [true, true, false, false] 4) i) [ZMOD 17]) ∧
      (∀ idx, idx < num_unknown_f [true, false, false, true] 4 →
        0 ≤ entry (systemA [true, true, false, false] [true, false, false, true]
          [5, 7, 2, 1] 4 17) i idx ∧
        entry (systemA [true, true, false, false] [true, false, false, true]
          [5, 7, 2, 1] 4 17) i idx < 17) ∧
      0 ≤ rd (systemB [1, 2, 0, 0] [true, true, false, false] [3, 0, 0, 1]
        [true, false, false, true] [5, 7, 2, 1] 4 17) i ∧
      rd (systemB [1, 2, 0, 0] [true, true, false, false] [3, 0, 0, 1]
        [true, false, false, true] [5, 7, 2, 1] 4 17) i < 17 :=
  ⟨by decide,
    solve_unknown_f_system_encodes [1, 2, 0, 0] [true, true, false, false] [3, 0, 0, 1]
      [true, false, false, true] [5, 7, 2, 1] 4 17 (rd [3, 9, 9, 1])
      (by decide) (by decide) (by decide) (by decide) (by decide)⟩

/-- C6: `to_centered_mod` preserves the residue class.  For every integer `x`
and every modulus `q > 0`, `to_centered_mod(x, q) mod q` equals `x mod q`
(non-negative remainders). -/
theorem to_centered_mod_residue (x q : Int) (hq : 0 < q) :
    to_centered_mod x q % q = x % q :=
  to_centered_mod_modEq x q hq

/-- Instance of C6 at `x = -20`, `q = 17`. -/
theorem to_centered_mod_residue_witness : to_centered_mod (-20) 17 % 17 = -20 % 17 :=
  to_centered_mod_residue (-20) 17 (by decide)

/-- C7: `to_centered_mod` maps into the centered interval.  For every integer
`x` and every modulus `q > 0` the result `r` satisfies `-q < 2*r ≤ q`, and
therefore `-(q div 2) ≤ r ≤ q div 2`, the interval of the header. -/
theorem to_centered_mod_interval (x q : Int) (hq : 0 < q) :
    -q < 2 * to_centered_mod x q ∧ 2 * to_centered_mod x q ≤ q ∧
    -(Int.tdiv q 2) ≤ to_centered_mod x q ∧ to_centered_mod x q ≤ Int.tdiv q 2 := by
  have hd : Int.tdiv q 2 = q / 2 := Int.tdiv_eq_ediv hq.le (by norm_num)
  have hr := normq_range x q hq
  unfold to_centered_mod
  simp only
  rw [hd]
  split_ifs with h <;> omega

/-- Instance of C7 at `x = 9`, `q = 17`. -/
theorem to_centered_mod_interval_witness :
    -17 < 2 * to_centered_mod 9 17 ∧ 2 * to_centered_mod 9 17 ≤ 17 ∧
    -(Int.tdiv 17 2) ≤ to_centered_mod 9 17 ∧ to_centered_mod 9 17 ≤ Int.tdiv 17 2 :=
  to_centered_mod_interval 9 17 (by decide)

/-- C8, as stated, fails: with `q = 2`, `A = [[0]]` and `b = [0]` the entries
lie in `[0, q)` and `y = 0` solves `A·y ≡ b (mod q)`, but the solver returns
`SOLVE_NO_PIVOT` and no solution. -/
theorem gaussian_round_trip_counterexample :
    (0 : Int) < 2 ∧ IsMatrix [[0]] 1 1 ∧ entry [[0]] 0 0 = 0 ∧ rd [0] 0 = 0 ∧
    Solves [[0]] [0] 1 2 (fun _ => 0) ∧
    (gaussian_mod_q_solve [[0]] [0] 1 2).status = SOLVE_NO_PIVOT ∧
    (gaussian_mod_q_solve [[0]] [0] 1 2).x = none := by
  refine ⟨by decide, by decide, by decide, by decide, ?_, by decide, by decide⟩
  intro i hi
  have : i = 0 := by omega
  subst this
  decide

/-- C8, amended: round trip for every uniquely solvable system over a prime
modulus.  For every prime `p`, every `n × n` matrix `A` and vector `b` with
entries in `[0, p)` such that `det(A)` is not divisible by `p`,
`gaussian_mod_q_solve(A, b, p)` returns `SOLVE_OK` with a vector `x` of length
`n` such that `(A·x) mod p` equals `b` entrywise. -/
theorem gaussian_round_trip_prime (A : List (List Int)) (b : List Int) (n p : Nat)
    (hp : p.Prime) (_hA : IsMatrix A n n) (_hb : b.length = n)
    (_hAr : ∀ i, i < n → ∀ j, j < n → 0 ≤ entry A i j ∧ entry A i j < p)
    (hbr : ∀ i, i < n → 0 ≤ rd b i ∧ rd b i < p)
    (hdet : ¬ (p : Int) ∣ detOf A n) :
    (gaussian_mod_q_solve A b n p).status = SOLVE_OK ∧
    ∃ x, (gaussian_mod_q_solve A b n p).x = some x ∧ x.length = n ∧
      ∀ i, i < n → (∑ j in Finset.range n, entry A i j * rd x j) % p = rd b i := by
  have hq : (0 : Int) < p := by exact_mod_cast hp.pos
  have hst : (gaussian_mod_q_solve A b n p).status = SOLVE_OK := by
    rcases gaussian_cases A b n p hq with ⟨M', h1, _⟩ | ⟨c, M', h1, _⟩
    · rw [h1]
    · exfalso
      apply hdet
      obtain ⟨c, hc, z, hz, hk⟩ := no_pivot_kernel A b n p hp (by rw [h1])
      exact det_dvd_of_kernel A n p c hc z hz hk
  obtain ⟨xs, h1, h2, h3, _⟩ := gaussian_ok A b n p hq hst
  refine ⟨hst, xs, h1, h2, ?_⟩
  intro i hi
  have h4 : (∑ j in Finset.range n, entry A i j * rd xs j) % p = rd b i % p := h3 i hi
  rw [h4]
  exact Int.emod_eq_of_lt (hbr i hi).1 (hbr i hi).2

/-- Instance of the amended C8: a 2 × 2 system modulo 5 with determinant 1. -/
theorem gaussian_round_trip_prime_witness :
    (gaussian_mod_q_solve [[2, 1], [1, 1]] [3, 2] 2 (5 : Nat)).status = SOLVE_OK ∧
    ∃ x, (gaussian_mod_q_solve [[2, 1], [1, 1]] [3, 2] 2 (5 : Nat)).x = some x ∧
      x.length = 2 ∧
      ∀ i, i < 2 → (∑ j in Finset.range 2, entry [[2, 1], [1, 1]] i j * rd x j) % (5 : Nat) =
        rd [3, 2] i :=
  gaussian_round_trip_prime [[2, 1], [1, 1]] [3, 2] 2 5 (by norm_num) (by decide) (by decide)
    (by decide) (by decide)
    (by simp [detOf, Matrix.det_fin_two, matOf, entry, rowOf, rd]; decide)

/-- C9, as stated, fails for a composite modulus: with `q = 6`,
`A = [[2,1],[3,2]]` and `b = [0,0]` the solver returns `SOLVE_NO_PIVOT` (no
entry of column 0 is invertible modulo 6), although `det(A) = 1` is invertible
modulo 6. -/
theorem gaussian_no_pivot_counterexample :
    (0 : Int) < 6 ∧ IsMatrix [[2, 1], [3, 2]] 2 2 ∧
    (gaussian_mod_q_solve [[2, 1], [3, 2]] [0, 0] 2 6).status = SOLVE_NO_PIVOT ∧
    detOf [[2, 1], [3, 2]] 2 = 1 ∧ InvertibleMod (detOf [[2, 1], [3, 2]] 2) 6 := by
  have hd : detOf [[2, 1], [3, 2]] 2 = 1 := by
    simp [detOf, Matrix.det_fin_two, matOf, entry, rowOf, rd]
  refine ⟨by decide, by decide, by decide, hd, 1, ?_⟩
  rw [hd]
  decide

/-- C9, amended: `SOLVE_NO_PIVOT` means singular over a prime modulus.  For
every prime `p`, every `n × n` matrix `A` and vector `b`, whenever
`gaussian_mod_q_solve` returns `SOLVE_NO_PIVOT`, `det(A) ≡ 0 (mod p)`, so
`det(A)` is not invertible modulo `p`. -/
theorem gaussian_no_pivot_singular_prime (A : List (List Int)) (b : List Int) (n p : Nat)
    (hp : p.Prime) (_hA : IsMatrix A n n) (_hb : b.length = n)
    (hst : (gaussian_mod_q_solve A b n p).status = SOLVE_NO_PIVOT) :
    (p : Int) ∣ detOf A n ∧ ¬ InvertibleMod (detOf A n) p := by
  obtain ⟨c, hc, z, hz, hk⟩ := no_pivot_kernel A b n p hp hst
  have hd := det_dvd_of_kernel A n p c hc z hz hk
  exact ⟨hd, not_invertibleMod_of_dvd _ p hp hd⟩

/-- Instance of the amended C9: a duplicated row modulo 5. -/
theorem gaussian_no_pivot_singular_prime_witness :
    ((5 : Nat) : Int) ∣ detOf [[1, 2], [1, 2]] 2 ∧
    ¬ InvertibleMod (detOf [[1, 2], [1, 2]] 2) (5 : Nat) :=
  gaussian_no_pivot_singular_prime [[1, 2], [1, 2]] [3, 4] 2 5 (by norm_num) (by decide)
    (by decide) (by decide)

/-- C10: degenerate builder input.  For every `n ≥ 0`, every modulus and all
inputs whose `g_mask` has no true entry, `solve_unknown_f` returns status
`SOLVE_NO_KNOWN_G`, no solution vector, result size `0` and the message
`"no known g"`; no system is built or solved, the result not depending on `g`,
`f`, `f_mask`, `h` or the modulus. -/
theorem solve_unknown_f_no_known_g (g : List Int) (g_mask : List Bool) (f : List Int)
    (f_mask : List Bool) (h : List Int) (n : Nat) (mod : Int)
    (hmask : ∀ i, i < n → rdb g_mask i = false) :
    solve_unknown_f g g_mask f f_mask h n mod =
      { x := none, n := 0, status := SOLVE_NO_KNOWN_G, message := "no known g" } := by
  have h0 : num_known_g g_mask n = 0 := by
    unfold num_known_g
    rw [List.countP_eq_zero]
    intro i hi
    rw [hmask i (List.mem_range.1 hi)]
    simp
  unfold solve_unknown_f
  rw [if_pos h0]

/-- Instance of C10: `n = 3` with no known `g`. -/
theorem solve_unknown_f_no_known_g_witness :
    solve_unknown_f [1, 2, 3] [false, false, false] [4, 5, 6] [true, false, false]
        [7, 8, 9] 3 17 =
      { x := none, n := 0, status := SOLVE_NO_KNOWN_G, message := "no known g" } :=
  solve_unknown_f_no_known_g [1, 2, 3] [false, false, false] [4, 5, 6] [true, false, false]
    [7, 8, 9] 3 17 (by decide)

/-! ## Claims C11 to C20 -/

/-- C11: a duplicated row is reported as singular.  For every `n ≥ 2`, every
modulus `q > 0`, every vector `b` and every `n × n` matrix `A` with two
distinct rows equal entry by entry, `gaussian_mod_q_solve` returns status
`SOLVE_NO_PIVOT`, no solution vector and the message
`"no pivot in column c, singular matrix"` for some column `c < n`. -/
theorem gaussian_duplicated_row (A : List (List Int)) (b : List Int) (n : Nat) (q : Int)
    (_hn : 2 ≤ n) (hq : 0 < q) (_hA : IsMatrix A n n) (_hb : b.length = n)
    (i1 i2 : Nat) (h1 : i1 < n) (h2 : i2 < n) (hne : i1 ≠ i2)
    (hrow : ∀ j, j < n → entry A i1 j = entry A i2 j) :
    ∃ c, c < n ∧ gaussian_mod_q_solve A b n q =
      { x := none, n := n, status := SOLVE_NO_PIVOT,
        message := "no pivot in column " ++ toString c ++ ", singular matrix" } := by
  rcases gaussian_cases A b n q hq with ⟨M', h, _⟩ | ⟨c, M', h, hc, _⟩
  · exact absurd (by rw [h]) (not_ok_of_equal_rows A b n q hq i1 i2 h1 h2 hne hrow)
  · exact ⟨c, hc, h⟩

/-- Instance of C11: the rows `[1, 2]` and `[1, 2]` modulo 5. -/
theorem gaussian_duplicated_row_witness :
    ∃ c, c < 2 ∧ gaussian_mod_q_solve [[1, 2], [1, 2]] [3, 4] 2 5 =
      { x := none, n := 2, status := SOLVE_NO_PIVOT,
        message := "no pivot in column " ++ toString c ++ ", singular matrix" } :=
  gaussian_duplicated_row [[1, 2], [1, 2]] [3, 4] 2 5 (by decide) (by decide) (by decide)
    (by decide) 0 1 (by decide) (by decide) (by decide) (by decide)

/-- C12, at a failing input: with `n = 2`, modulus 17, `g = [5, 0]` known at
position 0 only, no known `f` and `h = [1, 0]`, the call returns `SOLVE_OK`
with the single entry `[5]` and result size `1`, although two coefficients of
`f` are unknown. -/
theorem solve_unknown_f_length_mismatch :
    solve_unknown_f [5, 0] [true, false] [0, 0] [false, false] [1, 0] 2 17 =
      { x := some [5], n := 1, status := SOLVE_OK, message := "ok" } ∧
    num_known_g [true, false] 2 = 1 ∧ num_unknown_f [false, false] 2 = 2 := by
  decide

/-- C13, as stated, fails when there are fewer equations than unknowns: with
`n = 2`, `g` known at position 0 only and no known `f` (`m = 1`, `k = 2`),
the dimensions differ but every cell of the built matrix read by the solver
lies inside the two columns allocated for its row. -/
theorem reads_in_bounds_counterexample :
    0 < num_known_g [true, false] 2 ∧
    num_known_g [true, false] 2 ≠ num_unknown_f [false, false] 2 ∧
    ∀ p ∈ readsOfA (num_known_g [true, false] 2),
      inBounds (systemA [true, false] [false, false] [1, 0] 2 17) p = true := by
  decide

/-- C13, amended: for every input of `solve_unknown_f` with more known `g`
positions than unknown `f` positions (`m > k`, so at least one known `g`), the
solver, which is handed the dimension `m`, reads a cell `A[i][j]` outside the
`k` columns allocated for row `i`: in every row `i < m`, each cell with
`k ≤ j < m`. -/
theorem reads_out_of_bounds (g_mask f_mask : List Bool) (h : List Int) (n : Nat) (mod : Int)
    (hlt : num_unknown_f f_mask n < num_known_g g_mask n) :
    (∃ p ∈ readsOfA (num_known_g g_mask n),
      inBounds (systemA g_mask f_mask h n mod) p = false) ∧
    ∀ i j, i < num_known_g g_mask n → num_unknown_f f_mask n ≤ j →
      j < num_known_g g_mask n →
      (i, j) ∈ readsOfA (num_known_g g_mask n) ∧
      rowWidth (systemA g_mask f_mask h n mod) i = num_unknown_f f_mask n ∧
      inBounds (systemA g_mask f_mask h n mod) (i, j) = false := by
  have key := reads_beyond_width g_mask f_mask h n mod
  exact ⟨⟨(0, num_unknown_f f_mask n), (key 0 _ (by omega) le_rfl hlt).1,
    (key 0 _ (by omega) le_rfl hlt).2.2⟩, key⟩

/-- Instance of the amended C13: `n = 2`, both `g` known and one `f` unknown
(`m = 2`, `k = 1`). -/
theorem reads_out_of_bounds_witness :
    (∃ p ∈ readsOfA (num_known_g [true, true] 2),
      inBounds (systemA [true, true] [true, false] [1, 0] 2 17) p = false) ∧
    ∀ i j, i < num_known_g [true, true] 2 → num_unknown_f [true, false] 2 ≤ j →
      j < num_known_g [true, true] 2 →
      (i, j) ∈ readsOfA (num_known_g [true, true] 2) ∧
      rowWidth (systemA [true, true] [true, false] [1, 0] 2 17) i =
        num_unknown_f [true, false] 2 ∧
      inBounds (systemA [true, true] [true, false] [1, 0] 2 17) (i, j) = false :=
  reads_out_of_bounds [true, true] [true, false] [1, 0] 2 17 (by decide)

/-- C14, as stated, fails at the modulus `q = 1`: `gcd(1, 1) = 1`, but
`modinv(1, 1)` is the sentinel `-1` and `(1 * -1) mod 1` is `0`, not `1` (no
remainder modulo 1 is `1`). -/
theorem modinv_product_counterexample :
    (0 : Int) < 1 ∧ Int.gcd 1 1 = 1 ∧ modinv 1 1 = -1 ∧ (1 * modinv 1 1) % 1 = 0 ∧
    ¬ (1 * modinv 1 1) % 1 = 1 := by
  decide

/-- C14, amended: for every integer `a` and every modulus `q > 1` with
`gcd(a, q) = 1`, `(a * modinv(a, q)) mod q` equals `1`. -/
theorem modinv_product (a q : Int) (hq : 1 < q) (hg : Int.gcd a q = 1) :
    (a * modinv a q) % q = 1 := by
  rcases modinv_spec a q (by omega) with ⟨hc, _⟩ | ⟨_, _, _, h⟩
  · rcases hc with hc | hc
    · exfalso
      have hd : q ∣ a := Int.dvd_of_emod_eq_zero hc
      have h1 : q ∣ (Int.gcd a q : Int) := Int.dvd_gcd hd (dvd_refl q)
      rw [hg] at h1
      have := Int.le_of_dvd (by norm_num) h1
      omega
    · exact absurd hg hc
  · have h1 : (a * modinv a q) % q = 1 % q := h
    rw [h1]
    exact Int.emod_eq_of_lt (by omega) hq

/-- Instance of the amended C14 at the negative argument `a = -3`, `q = 11`. -/
theorem modinv_product_witness : (-3 * modinv (-3) 11) % 11 = 1 :=
  modinv_product (-3) 11 (by decide) (by decide)

/-- C15, as stated, fails for an odd modulus: with `q = 17` and `x = 9` the
result is `-8 = -floor(17/2)`, which is not strictly above `-floor(q/2)`. -/
theorem to_centered_mod_open_counterexample :
    (0 : Int) < 17 ∧ to_centered_mod 9 17 = -8 ∧ ¬ (-((17 : Int) / 2) < to_centered_mod 9 17) := by
  decide

/-- C15, amended: for every integer `x` and every modulus `q > 0` the result
`r` of `to_centered_mod(x, q)` lies in the closed interval
`[-floor(q/2), floor(q/2)]`, and the lower bound is strict when `q` is even. -/
theorem to_centered_mod_closed (x q : Int) (hq : 0 < q) :
    -(q / 2) ≤ to_centered_mod x q ∧ to_centered_mod x q ≤ q / 2 ∧
    (q % 2 = 0 → -(q / 2) < to_centered_mod x q) := by
  have hd : Int.tdiv q 2 = q / 2 := Int.tdiv_eq_ediv hq.le (by norm_num)
  have hr := normq_range x q hq
  unfold to_centered_mod
  simp only
  rw [hd]
  split_ifs with h
  · refine ⟨by omega, by omega, fun he => by omega⟩
  · refine ⟨by omega, by omega, fun he => by omega⟩

/-- Instance of the amended C15 at `x = 7`, `q = 12`. -/
theorem to_centered_mod_closed_witness :
    -((12 : Int) / 2) ≤ to_centered_mod 7 12 ∧ to_centered_mod 7 12 ≤ 12 / 2 ∧
    ((12 : Int) % 2 = 0 → -((12 : Int) / 2) < to_centered_mod 7 12) :=
  to_centered_mod_closed 7 12 (by decide)

/-- C16: the end-to-end scenario of the test program.  With `q = 17`,
`A = [[2,3,1],[1,4,2],[3,1,5]]` and `b = [10,8,15]`, `gaussian_mod_q_solve`
returns status `SOLVE_OK`, message `"ok"` and the solution `x = [-5, 5, 5]`,
and `(A·x) mod 17` is `[10, 8, 15]`. -/
theorem gaussian_test_scenario :
    gaussian_mod_q_solve [[2, 3, 1], [1, 4, 2], [3, 1, 5]] [10, 8, 15] 3 17 =
      { x := some [-5, 5, 5], n := 3, status := SOLVE_OK, message := "ok" } ∧
    (List.range 3).map (fun i => (∑ j in Finset.range 3,
        entry [[2, 3, 1], [1, 4, 2], [3, 1, 5]] i j * rd [-5, 5, 5] j) % 17) =
      [10, 8, 15] := by
  decide

/-- C17: the modular inverses of the test program.  `modinv(3, 11) = 4`,
`modinv(7, 17) = 5` and `modinv(5, 12289) = 2458`, and in each case
`(a * modinv(a, q)) mod q = 1`. -/
theorem modinv_test_values :
    modinv 3 11 = 4 ∧ modinv 7 17 = 5 ∧ modinv 5 12289 = 2458 ∧
    (3 * modinv 3 11) % 11 = 1 ∧ (7 * modinv 7 17) % 17 = 1 ∧
    (5 * modinv 5 12289) % 12289 = 1 := by
  decide

/-- C18: the centered representatives of the test program.  For `q = 17` the
inputs `0, 1, ..., 19` map to `0,1,...,8,-8,-7,...,-1,0,1,2`; for `q = 12289`
the inputs `0, 1, 6144, 6145, 12288, 12289, 12290` map to
`0, 1, 6144, -6144, -1, 0, 1`. -/
theorem to_centered_mod_test_values :
    (List.range 20).map (fun x => to_centered_mod (x : Int) 17) =
      [0, 1, 2, 3, 4, 5, 6, 7, 8, -8, -7, -6, -5, -4, -3, -2, -1, 0, 1, 2] ∧
    [0, 1, 6144, 6145, 12288, 12289, 12290].map (fun x => to_centered_mod x 12289) =
      [0, 1, 6144, -6144, -1, 0, 1] := by
  decide

/-- C19: the result of the solver depends only on the residues of its input.
For every modulus `q > 0` and two systems `(A, b)`, `(A', b')` of the same
dimension with `A[i][j] ≡ A'[i][j]` and `b[i] ≡ b'[i]` modulo `q` for all
`i, j`, `gaussian_mod_q_solve` returns the same record: the same status, the
same message and the same solution vector. -/
theorem gaussian_depends_on_residues (A A' : List (List Int)) (b b' : List Int) (n : Nat)
    (q : Int) (hq : 0 < q)
    (_hshape : IsMatrix A n n ∧ IsMatrix A' n n ∧ b.length = n ∧ b'.length = n)
    (hA : ∀ i, i < n → ∀ j, j < n → entry A i j ≡ entry A' i j [ZMOD q])
    (hb : ∀ i, i < n → rd b i ≡ rd b' i [ZMOD q]) :
    gaussian_mod_q_solve A b n q = gaussian_mod_q_solve A' b' n q ∧
    (gaussian_mod_q_solve A b n q).status = (gaussian_mod_q_solve A' b' n q).status ∧
    (gaussian_mod_q_solve A b n q).message = (gaussian_mod_q_solve A' b' n q).message ∧
    (gaussian_mod_q_solve A b n q).x = (gaussian_mod_q_solve A' b' n q).x := by
  have e : gaussian_mod_q_solve A b n q = gaussian_mod_q_solve A' b' n q := by
    unfold gaussian_mod_q_solve
    rw [buildAug_congr A A' b b' n q hq hA hb]
  exact ⟨e, by rw [e], by rw [e], by rw [e]⟩

/-- Instance of C19: the system of the test program and a second
representative of it, which has negative and large entries. -/
theorem gaussian_depends_on_residues_witness :
    gaussian_mod_q_solve [[2, 3, 1], [1, 4, 2], [3, 1, 5]] [10, 8, 15] 3 17 =
      gaussian_mod_q_solve [[19, -14, 18], [1, 4, -15], [3, 1, 39]] [27, -9, 15] 3 17 ∧
    (gaussian_mod_q_solve [[2, 3, 1], [1, 4, 2], [3, 1, 5]] [10, 8, 15] 3 17).status =
      (gaussian_mod_q_solve [[19, -14, 18], [1, 4, -15], [3, 1, 39]] [27, -9, 15] 3 17).status ∧
    (gaussian_mod_q_solve [[2, 3, 1], [1, 4, 2], [3, 1, 5]] [10, 8, 15] 3 17).message =
      (gaussian_mod_q_solve [[19, -14, 18], [1, 4, -15], [3, 1, 39]] [27, -9, 15] 3 17).message ∧
    (gaussian_mod_q_solve [[2, 3, 1], [1, 4, 2], [3, 1, 5]] [10, 8, 15] 3 17).x =
      (gaussian_mod_q_solve [[19, -14, 18], [1, 4, -15], [3, 1, 39]] [27, -9, 15] 3 17).x :=
  gaussian_depends_on_residues [[2, 3, 1], [1, 4, 2], [3, 1, 5]]
    [[19, -14, 18], [1, 4, -15], [3, 1, 39]] [10, 8, 15] [27, -9, 15] 3 17
    (by decide) (by decide) (by decide) (by decide)

/-- C20: shape of a successful result.  Whenever `gaussian_mod_q_solve`
returns `SOLVE_OK` for the dimension `n` and a modulus `q > 0`, the elimination
has finished with a working matrix `M`, the solution is present with exactly
`n` entries, the message is `"ok"`, and every `x[i]` is
`to_centered_mod(M[i][n], q)`, so that `-q < 2*x[i] ≤ q`; whenever the status
is not `SOLVE_OK` the solution is absent.  The same holds for
`solve_unknown_f`, which relays the result of the solver for the dimension
`num_known_g`. -/
theorem result_shape (A : List (List Int)) (b : List Int) (n : Nat) (q : Int)
    (g : List Int) (g_mask : List Bool) (f : List Int) (f_mask : List Bool) (h : List Int)
    (N : Nat) (mod : Int) (hq : 0 < q) (hmod : 0 < mod) :
    ((gaussian_mod_q_solve A b n q).status = SOLVE_OK →
      ∃ M, eliminate q n n 0 (buildAug A b n q) = ElimOutcome.done M ∧
        OkShape (gaussian_mod_q_solve A b n q) M n q) ∧
    ((gaussian_mod_q_solve A b n q).status ≠ SOLVE_OK →
      (gaussian_mod_q_solve A b n q).x = none) ∧
    ((solve_unknown_f g g_mask f f_mask h N mod).status = SOLVE_OK →
      ∃ M, eliminate mod (num_known_g g_mask N) (num_known_g g_mask N) 0
          (buildAug (systemA g_mask f_mask h N mod) (systemB g g_mask f f_mask h N mod)
            (num_known_g g_mask N) mod) = ElimOutcome.done M ∧
        OkShape (solve_unknown_f g g_mask f f_mask h N mod) M (num_known_g g_mask N) mod) ∧
    ((solve_unknown_f g g_mask f f_mask h N mod).status ≠ SOLVE_OK →
      (solve_unknown_f g g_mask f f_mask h N mod).x = none) := by
  have gs : ∀ (A : List (List Int)) (b : List Int) (n : Nat) (q : Int), 0 < q →
      (gaussian_mod_q_solve A b n q).status = SOLVE_OK →
      ∃ M, eliminate q n n 0 (buildAug A b n q) = ElimOutcome.done M ∧
        OkShape (gaussian_mod_q_solve A b n q) M n q := by
    intro A b n q hq hst
    obtain ⟨M, xs, h1, h2, h3, _, h5, h6⟩ := gaussian_ok_shape A b n q hq hst
    exact ⟨M, h1, xs, h2, h3, h5, h6⟩
  refine ⟨gs A b n q hq, gaussian_x_none A b n q, ?_, ?_⟩
  · intro hst
    unfold solve_unknown_f at hst ⊢
    by_cases hm : num_known_g g_mask N = 0
    · rw [if_pos hm] at hst
      exact solve_status_t.noConfusion hst
    · rw [if_neg hm] at hst ⊢
      exact gs _ _ _ mod hmod hst
  · intro hst
    unfold solve_unknown_f at hst ⊢
    by_cases hm : num_known_g g_mask N = 0
    · rw [if_pos hm]
    · rw [if_neg hm] at hst ⊢
      exact gaussian_x_none _ _ _ mod hst

/-- Instance of C20: the 3 × 3 system of the test program and a builder call
with `n = 4`, both modulo 17. -/
theorem result_shape_witness :
    ((gaussian_mod_q_solve [[2, 3, 1], [1, 4, 2], [3, 1, 5]] [10, 8, 15] 3 17).status =
        SOLVE_OK →
      ∃ M, eliminate 17 3 3 0 (buildAug [[2, 3, 1], [1, 4, 2], [3, 1, 5]] [10, 8, 15] 3 17) =
          ElimOutcome.done M ∧
        OkShape (gaussian_mod_q_solve [[2, 3, 1], [1, 4, 2], [3, 1, 5]] [10, 8, 15] 3 17)
          M 3 17) ∧
    ((gaussian_mod_q_solve [[2, 3, 1], [1, 4, 2], [3, 1, 5]] [10, 8, 15] 3 17).status ≠
        SOLVE_OK →
      (gaussian_mod_q_solve [[2, 3, 1], [1, 4, 2], [3, 1, 5]] [10, 8, 15] 3 17).x = none) ∧
    ((solve_unknown_f [1, 2, 0, 0] [true, true, false, false] [3, 0, 0, 1]
        [true, false, false, true] [5, 7, 2, 1] 4 17).status = SOLVE_OK →
      ∃ M, eliminate 17 (num_known_g [true, true, false, false] 4)
          (num_known_g [true, true, false, false] 4) 0
          (buildAug (systemA [true, true, false, false] [true, false, false, true]
              [5, 7, 2, 1] 4 17)
            (systemB [1, 2, 0, 0] [true, true, false, false] [3, 0, 0, 1]
              [true, false, false, true] [5, 7, 2, 1] 4 17)
            (num_known_g [true, true, false, false] 4) 17) = ElimOutcome.done M ∧
        OkShape (solve_unknown_f [1, 2, 0, 0] [true, true, false, false] [3, 0, 0, 1]
          [true, false, false, true] [5, 7, 2, 1] 4 17) M
          (num_known_g [true, true, false, false] 4) 17) ∧
    ((solve_unknown_f [1, 2, 0, 0] [true, true, false, false] [3, 0, 0, 1]
        [true, false, false, true] [5, 7, 2, 1] 4 17).status ≠ SOLVE_OK →
      (solve_unknown_f [1, 2, 0, 0] [true, true, false, false] [3, 0, 0, 1]
        [true, false, false, true] [5, 7, 2, 1] 4 17).x = none) :=
  result_shape [[2, 3, 1], [1, 4, 2], [3, 1, 5]] [10, 8, 15] 3 17
    [1, 2, 0, 0] [true, true, false, false] [3, 0, 0, 1] [true, false, false, true]
    [5, 7, 2, 1] 4 17 (by decide) (by decide)

/-! ## Claims C21 to C30 -/

/-- C21: pivot selection in `gaussian_mod_q_solve`.  At every column `c` that
the loop reaches, with the working matrix `M` it has then, the pivot row is the
smallest row `p` with `c ≤ p < n` whose entry `M[p][c]` is invertible modulo
`q` (non-zero modulo `q` and coprime to `q`), and the loop goes on with that
row swapped into position `c`; if no such row exists the call returns
`SOLVE_NO_PIVOT` with the message `"no pivot in column c, singular matrix"` for
that column, the first at which the scan fails. -/
theorem pivot_selection (A : List (List Int)) (b : List Int) (n : Nat) (q : Int) (hq : 0 < q)
    (c : Nat) (hc : c < n) (M : List (List Int))
    (hM : stateAt q n (buildAug A b n q) c = some M) :
    (∀ p, findPivot M q n c = some p ↔
      (c ≤ p ∧ p < n ∧ InvertibleEntry (entry M p c) q ∧
        ∀ r, c ≤ r → r < p → ¬ InvertibleEntry (entry M r c) q)) ∧
    (∀ p, findPivot M q n c = some p →
      stateAt q n (buildAug A b n q) (c + 1) =
        some (eliminateRows (normalizeRow (swapRows M n c p) q n c
          (modinv (Int.tmod (entry (swapRows M n c p) c c) q) q)) q n c)) ∧
    ((∀ r, c ≤ r → r < n → ¬ InvertibleEntry (entry M r c) q) →
      gaussian_mod_q_solve A b n q =
        { x := none, n := n, status := SOLVE_NO_PIVOT,
          message := "no pivot in column " ++ toString c ++ ", singular matrix" }) := by
  refine ⟨fun p => findPivot_some_iff M q n c p hq, fun p hp => ?_, fun h => ?_⟩
  · exact stateAt_step q n _ hq (inRange_buildAug A b n q hq) c hc M p hM hp
  · exact gaussian_no_pivot_at A b n q c hc M hM (findPivot_none_of M q n c hq h)

/-- Instance of C21: column 0 of `[[2,1],[5,2]]` modulo 6, where row 0 has the
non-invertible entry 2 and row 1 is selected. -/
theorem pivot_selection_witness :
    (∀ p, findPivot [[2, 1, 0], [5, 2, 0]] 6 2 0 = some p ↔
      (0 ≤ p ∧ p < 2 ∧ InvertibleEntry (entry [[2, 1, 0], [5, 2, 0]] p 0) 6 ∧
        ∀ r, 0 ≤ r → r < p → ¬ InvertibleEntry (entry [[2, 1, 0], [5, 2, 0]] r 0) 6)) ∧
    (∀ p, findPivot [[2, 1, 0], [5, 2, 0]] 6 2 0 = some p →
      stateAt 6 2 (buildAug [[2, 1], [5, 2]] [0, 0] 2 6) (0 + 1) =
        some (eliminateRows (normalizeRow (swapRows [[2, 1, 0], [5, 2, 0]] 2 0 p) 6 2 0
          (modinv (Int.tmod (entry (swapRows [[2, 1, 0], [5, 2, 0]] 2 0 p) 0 0) 6) 6)) 6 2 0)) ∧
    ((∀ r, 0 ≤ r → r < 2 → ¬ InvertibleEntry (entry [[2, 1, 0], [5, 2, 0]] r 0) 6) →
      gaussian_mod_q_solve [[2, 1], [5, 2]] [0, 0] 2 6 =
        { x := none, n := 2, status := SOLVE_NO_PIVOT,
          message := "no pivot in column " ++ toString 0 ++ ", singular matrix" }) :=
  pivot_selection [[2, 1], [5, 2]] [0, 0] 2 6 (by decide) 0 (by decide)
    [[2, 1, 0], [5, 2, 0]] (by decide)

/-- C22: the `SOLVE_NO_INVERSE` branch is unreachable.  For every dimension
`n`, modulus `q > 0` and input `(A, b)`, `gaussian_mod_q_solve` never returns
`SOLVE_NO_INVERSE`: at every column that is reached, the entry moved to
`M[c][c]` by the pivot scan has a modular inverse. -/
theorem no_inverse_unreachable (A : List (List Int)) (b : List Int) (n : Nat) (q : Int)
    (hq : 0 < q) :
    (gaussian_mod_q_solve A b n q).status ≠ SOLVE_NO_INVERSE ∧
    ∀ c M p, c < n → stateAt q n (buildAug A b n q) c = some M →
      findPivot M q n c = some p →
      modinv (Int.tmod (entry (swapRows M n c p) c c) q) q ≠ -1 := by
  refine ⟨?_, ?_⟩
  · rcases gaussian_status_cases A b n q with h | h <;> rw [h] <;> decide
  · intro c M p hc hM hp
    obtain ⟨r1, i1, _⟩ := stateAt_inv q n _ hq (inRange_buildAug A b n q hq) c M (by omega) hM
    exact (column_step q n c p M hq hc r1 i1 hp).1

/-- Instance of C22 for the composite modulus 6. -/
theorem no_inverse_unreachable_witness :
    findPivot (buildAug [[2, 1], [5, 2]] [0, 0] 2 6) 6 2 0 = some 1 ∧
    (gaussian_mod_q_solve [[2, 1], [5, 2]] [0, 0] 2 6).status ≠ SOLVE_NO_INVERSE ∧
    ∀ c M p, c < 2 → stateAt 6 2 (buildAug [[2, 1], [5, 2]] [0, 0] 2 6) c = some M →
      findPivot M 6 2 c = some p →
      modinv (Int.tmod (entry (swapRows M 2 c p) c c) 6) 6 ≠ -1 :=
  ⟨by decide, no_inverse_unreachable [[2, 1], [5, 2]] [0, 0] 2 6 (by decide)⟩

/-- C23: `SOLVE_SINGULAR_MATRIX` is never produced.  For every input the status
returned by `gaussian_mod_q_solve` is `SOLVE_OK` or `SOLVE_NO_PIVOT`, and the
status returned by `solve_unknown_f` is `SOLVE_OK`, `SOLVE_NO_PIVOT` or
`SOLVE_NO_KNOWN_G`; neither is `SOLVE_SINGULAR_MATRIX`. -/
theorem status_values (A : List (List Int)) (b : List Int) (n : Nat) (q : Int)
    (g : List Int) (g_mask : List Bool) (f : List Int) (f_mask : List Bool) (h : List Int)
    (N : Nat) (mod : Int) :
    ((gaussian_mod_q_solve A b n q).status = SOLVE_OK ∨
      (gaussian_mod_q_solve A b n q).status = SOLVE_NO_PIVOT) ∧
    ((solve_unknown_f g g_mask f f_mask h N mod).status = SOLVE_OK ∨
      (solve_unknown_f g g_mask f f_mask h N mod).status = SOLVE_NO_PIVOT ∨
      (solve_unknown_f g g_mask f f_mask h N mod).status = SOLVE_NO_KNOWN_G) ∧
    (gaussian_mod_q_solve A b n q).status ≠ SOLVE_SINGULAR_MATRIX ∧
    (solve_unknown_f g g_mask f f_mask h N mod).status ≠ SOLVE_SINGULAR_MATRIX := by
  have h1 := gaussian_status_cases A b n q
  have h2 : (solve_unknown_f g g_mask f f_mask h N mod).status = SOLVE_OK ∨
      (solve_unknown_f g g_mask f f_mask h N mod).status = SOLVE_NO_PIVOT ∨
      (solve_unknown_f g g_mask f f_mask h N mod).status = SOLVE_NO_KNOWN_G := by
    unfold solve_unknown_f
    by_cases hm : num_known_g g_mask N = 0
    · rw [if_pos hm]; right; right; rfl
    · rw [if_neg hm]
      rcases gaussian_status_cases (systemA g_mask f_mask h N mod)
        (systemB g g_mask f f_mask h N mod) (num_known_g g_mask N) mod with h | h
      · left; exact h
      · right; left; exact h
  refine ⟨h1, h2, ?_, ?_⟩
  · rcases h1 with h | h <;> rw [h] <;> decide
  · rcases h2 with h | h | h <;> rw [h] <;> decide

/-- C24: residue invariant of the working matrix.  For every modulus `q > 0`
and arbitrary integer inputs `A` and `b`, every entry of the augmented matrix
lies in `[0, q)` after its construction, and at every column that is reached
and has a pivot, again after the normalisation of the pivot row and after the
elimination of the other rows. -/
theorem residue_invariant (A : List (List Int)) (b : List Int) (n : Nat) (q : Int)
    (hq : 0 < q) :
    InRange (buildAug A b n q) n q ∧
    ∀ c M p, c < n → stateAt q n (buildAug A b n q) c = some M →
      findPivot M q n c = some p →
      InRange M n q ∧
      InRange (normalizeRow (swapRows M n c p) q n c
        (modinv (Int.tmod (entry (swapRows M n c p) c c) q) q)) n q ∧
      InRange (eliminateRows (normalizeRow (swapRows M n c p) q n c
        (modinv (Int.tmod (entry (swapRows M n c p) c c) q) q)) q n c) n q := by
  refine ⟨inRange_buildAug A b n q hq, ?_⟩
  intro c M p hc hM hp
  obtain ⟨r1, _, _⟩ := stateAt_inv q n _ hq (inRange_buildAug A b n q hq) c M (by omega) hM
  obtain ⟨_, h2, _, _⟩ := findPivotFrom_some M q c (n - c) c p hp
  have r2 := inRange_normalizeRow _ q n c
    (modinv (Int.tmod (entry (swapRows M n c p) c c) q) q) hq hc
    (inRange_swapRows M n c p q hc (by omega) r1)
  exact ⟨r1, r2, inRange_eliminateRows _ q n c hq r2⟩

/-- Instance of C24 with negative entries, modulo 17. -/
theorem residue_invariant_witness :
    buildAug [[-2, 3], [1, -4]] [-10, 8] 2 17 = [[15, 3, 7], [1, 13, 8]] ∧
    InRange (buildAug [[-2, 3], [1, -4]] [-10, 8] 2 17) 2 17 ∧
    ∀ c M p, c < 2 → stateAt 17 2 (buildAug [[-2, 3], [1, -4]] [-10, 8] 2 17) c = some M →
      findPivot M 17 2 c = some p →
      InRange M 2 17 ∧
      InRange (normalizeRow (swapRows M 2 c p) 17 2 c
        (modinv (Int.tmod (entry (swapRows M 2 c p) c c) 17) 17)) 2 17 ∧
      InRange (eliminateRows (normalizeRow (swapRows M 2 c p) 17 2 c
        (modinv (Int.tmod (entry (swapRows M 2 c p) c c) 17) 17)) 17 2 c) 2 17 :=
  ⟨by decide, residue_invariant [[-2, 3], [1, -4]] [-10, 8] 2 17 (by decide)⟩

/-- C25: identity-column invariant of the elimination.  For every modulus
`q ≥ 2`, after column `c` has been processed without failing, every column
`c' ≤ c` of the working matrix has `M[r][c'] = 1` for `r = c'` and `0` for the
other rows; the elimination of column `c` leaves the columns before `c` of the
swapped matrix as they are; hence when the loop has finished the left
`n × n` block is the identity matrix. -/
theorem identity_columns (A : List (List Int)) (b : List Int) (n : Nat) (q : Int)
    (hq : 2 ≤ q) :
    (∀ c M, c < n → stateAt q n (buildAug A b n q) (c + 1) = some M →
      ∀ c', c' ≤ c → ∀ r, r < n → entry M r c' = if r = c' then 1 else 0) ∧
    (∀ c M p, c < n → stateAt q n (buildAug A b n q) c = some M →
      findPivot M q n c = some p →
      ∀ r j, r < n → j < c →
        entry (eliminateRows (normalizeRow (swapRows M n c p) q n c
          (modinv (Int.tmod (entry (swapRows M n c p) c c) q) q)) q n c) r j =
        entry (swapRows M n c p) r j) ∧
    (∀ M, eliminate q n n 0 (buildAug A b n q) = ElimOutcome.done M →
      ∀ r c', r < n → c' < n → entry M r c' = if r = c' then 1 else 0) := by
  have hq0 : 0 < q := by omega
  refine ⟨?_, ?_, ?_⟩
  · intro c M hc hM c' hc' r hr
    obtain ⟨_, i1, _⟩ := stateAt_inv q n _ hq0 (inRange_buildAug A b n q hq0) (c + 1) M
      (by omega) hM
    exact i1 c' (by omega) r hr
  · intro c M p hc _ _ r j hr hj
    rw [entry_eliminateRows _ q n c r j hr (by omega)]
    have e : entry (normalizeRow (swapRows M n c p) q n c
        (modinv (Int.tmod (entry (swapRows M n c p) c c) q) q)) r j =
        entry (swapRows M n c p) r j := by
      rw [entry_normalizeRow _ q n c _ r j hr (by omega)]
      by_cases hrc : r = c
      · subst hrc; rw [if_pos rfl, if_neg (by omega)]
      · rw [if_neg hrc]
    by_cases hrc : r = c
    · rw [if_pos hrc, e]
    · rw [if_neg hrc, if_neg (by omega), e]
  · intro M hM r c' hr hc'
    obtain ⟨_, i1, _⟩ := stateAt_inv q n _ hq0 (inRange_buildAug A b n q hq0) n M le_rfl
      ((stateAt_iff q n _ n M).2 hM)
    exact i1 c' hc' r hr

/-- Instance of C25: the 3 × 3 system of the test program modulo 17. -/
theorem identity_columns_witness :
    eliminate 17 3 3 0 (buildAug [[2, 3, 1], [1, 4, 2], [3, 1, 5]] [10, 8, 15] 3 17) =
      ElimOutcome.done [[1, 0, 0, 12], [0, 1, 0, 5], [0, 0, 1, 5]] ∧
    (∀ c M, c < 3 →
      stateAt 17 3 (buildAug [[2, 3, 1], [1, 4, 2], [3, 1, 5]] [10, 8, 15] 3 17) (c + 1) =
        some M →
      ∀ c', c' ≤ c → ∀ r, r < 3 → entry M r c' = if r = c' then 1 else 0) ∧
    (∀ c M p, c < 3 →
      stateAt 17 3 (buildAug [[2, 3, 1], [1, 4, 2], [3, 1, 5]] [10, 8, 15] 3 17) c = some M →
      findPivot M 17 3 c = some p →
      ∀ r j, r < 3 → j < c →
        entry (eliminateRows (normalizeRow (swapRows M 3 c p) 17 3 c
          (modinv (Int.tmod (entry (swapRows M 3 c p) c c) 17) 17)) 17 3 c) r j =
        entry (swapRows M 3 c p) r j) ∧
    (∀ M, eliminate 17 3 3 0 (buildAug [[2, 3, 1], [1, 4, 2], [3, 1, 5]] [10, 8, 15] 3 17) =
        ElimOutcome.done M →
      ∀ r c', r < 3 → c' < 3 → entry M r c' = if r = c' then 1 else 0) :=
  ⟨by decide, identity_columns [[2, 3, 1], [1, 4, 2], [3, 1, 5]] [10, 8, 15] 3 17 (by decide)⟩

/-- C26: completeness over a prime modulus.  For every prime `p`, every
`n × n` integer matrix `A` and vector `b`, `gaussian_mod_q_solve` returns
`SOLVE_OK` if and only if `det(A)` is not congruent to `0` modulo `p`, and
returns `SOLVE_NO_PIVOT` otherwise. -/
theorem prime_completeness (A : List (List Int)) (b : List Int) (n p : Nat) (hp : p.Prime)
    (_hA : IsMatrix A n n) (_hb : b.length = n) :
    ((gaussian_mod_q_solve A b n p).status = SOLVE_OK ↔ ¬ detOf A n ≡ 0 [ZMOD (p : Int)]) ∧
    (detOf A n ≡ 0 [ZMOD (p : Int)] →
      (gaussian_mod_q_solve A b n p).status = SOLVE_NO_PIVOT) := by
  have hq : (0 : Int) < p := by exact_mod_cast hp.pos
  have hnp : (gaussian_mod_q_solve A b n p).status = SOLVE_NO_PIVOT →
      detOf A n ≡ 0 [ZMOD (p : Int)] := by
    intro hst
    obtain ⟨c, hc, z, hz, hk⟩ := no_pivot_kernel A b n p hp hst
    exact Int.modEq_zero_iff_dvd.2 (det_dvd_of_kernel A n p c hc z hz hk)
  have hok : (gaussian_mod_q_solve A b n p).status = SOLVE_OK →
      ¬ detOf A n ≡ 0 [ZMOD (p : Int)] := by
    intro hst hd
    exact not_invertibleMod_of_dvd _ p hp (Int.modEq_zero_iff_dvd.1 hd)
      (invertibleMod_of_ok A b n p hq hst)
  refine ⟨⟨hok, fun hd => ?_⟩, fun hd => ?_⟩
  · rcases gaussian_status_cases A b n p with h | h
    · exact h
    · exact absurd (hnp h) hd
  · rcases gaussian_status_cases A b n p with h | h
    · exact absurd hd (hok h)
    · exact h

/-- Instance of C26: a 2 × 2 matrix of determinant 1 modulo 5. -/
theorem prime_completeness_witness :
    ((gaussian_mod_q_solve [[2, 1], [1, 1]] [3, 2] 2 (5 : Nat)).status = SOLVE_OK ↔
      ¬ detOf [[2, 1], [1, 1]] 2 ≡ 0 [ZMOD ((5 : Nat) : Int)]) ∧
    (detOf [[2, 1], [1, 1]] 2 ≡ 0 [ZMOD ((5 : Nat) : Int)] →
      (gaussian_mod_q_solve [[2, 1], [1, 1]] [3, 2] 2 (5 : Nat)).status = SOLVE_NO_PIVOT) :=
  prime_completeness [[2, 1], [1, 1]] [3, 2] 2 5 (by norm_num) (by decide) (by decide)

/-- C27: uniqueness of the returned solution.  For every modulus `q ≥ 2`, if
`gaussian_mod_q_solve` returns `SOLVE_OK` with `x` for the system `(A, b)`,
then `x` solves the system and every integer vector `y` with
`A·y ≡ b (mod q)` has `y[i] ≡ x[i] (mod q)` for all `i`: the system has exactly
one solution modulo `q`. -/
theorem solution_unique (A : List (List Int)) (b : List Int) (n : Nat) (q : Int)
    (x : List Int) (hq : 2 ≤ q)
    (hst : (gaussian_mod_q_solve A b n q).status = SOLVE_OK)
    (hx : (gaussian_mod_q_solve A b n q).x = some x) :
    Solves A b n q (rd x) ∧
    ∀ y : Nat → Int, Solves A b n q y → ∀ i, i < n → y i ≡ rd x i [ZMOD q] := by
  have hq0 : 0 < q := by omega
  obtain ⟨xs, h1, _, h3, h4⟩ := gaussian_ok A b n q hq0 hst
  rw [h1] at hx
  have : xs = x := by simpa using hx
  subst this
  refine ⟨h3, fun y hy i hi => ?_⟩
  rw [h4 y hy i hi]
  exact (to_centered_mod_modEq (y i) q hq0).symm

/-- Instance of C27: the 3 × 3 system of the test program modulo 17. -/
theorem solution_unique_witness :
    Solves [[2, 3, 1], [1, 4, 2], [3, 1, 5]] [10, 8, 15] 3 17 (rd [-5, 5, 5]) ∧
    ∀ y : Nat → Int, Solves [[2, 3, 1], [1, 4, 2], [3, 1, 5]] [10, 8, 15] 3 17 y →
      ∀ i, i < 3 → y i ≡ rd [-5, 5, 5] i [ZMOD 17] :=
  solution_unique [[2, 3, 1], [1, 4, 2], [3, 1, 5]] [10, 8, 15] 3 17 [-5, 5, 5]
    (by decide) (by decide) (by decide)

/-- C28: index safety of the well-formed case.  For every `n ≥ 1`, every
modulus `mod > 0` and arrays `h`, `g`, `g_mask`, `f`, `f_mask` of length
exactly `n` with as many known-g positions as unknown-f positions, every array
access of `solve_unknown_f` and of the `gaussian_mod_q_solve` call it makes is
in bounds; in particular, for every known-g index `k` and every `j < n`, the
circulant index `k - j` (for `j ≤ k`) and `n + k - j` (for `j > k`) lies in
`[0, n)`. -/
theorem index_safety (g : List Int) (g_mask : List Bool) (f : List Int) (f_mask : List Bool)
    (h : List Int) (n : Nat) (mod : Int) (_hn : 1 ≤ n) (_hq : 0 < mod)
    (hlen : g.length = n ∧ g_mask.length = n ∧ f.length = n ∧ f_mask.length = n ∧
      h.length = n)
    (hsq : num_known_g g_mask n = num_unknown_f f_mask n) :
    (∀ a ∈ builderAccesses g g_mask f f_mask h n, a.ok = true) ∧
    (∀ a ∈ gaussianAccesses (systemA g_mask f_mask h n mod)
        (systemB g g_mask f f_mask h n mod) (num_known_g g_mask n), a.ok = true) ∧
    ∀ i j, i < num_known_g g_mask n → j < n →
      (j ≤ rdn (I_g g_mask n) i →
        0 ≤ (rdn (I_g g_mask n) i : Int) - (j : Int) ∧
        (rdn (I_g g_mask n) i : Int) - (j : Int) < (n : Int)) ∧
      (rdn (I_g g_mask n) i < j →
        0 ≤ (n : Int) + (rdn (I_g g_mask n) i : Int) - (j : Int) ∧
        (n : Int) + (rdn (I_g g_mask n) i : Int) - (j : Int) < (n : Int)) := by
  refine ⟨builderAccesses_ok g g_mask f f_mask h n hlen, ?_, ?_⟩
  · intro a ha
    unfold gaussianAccesses at ha
    rw [List.mem_append, List.mem_append] at ha
    rcases ha with (ha | ha) | ha
    · refine copyAccesses_ok _ _ _ (length_systemA g_mask f_mask h n mod) ?_
        (length_systemB g g_mask f f_mask h n mod) a ha
      intro i hi
      rw [rowWidth_systemA g_mask f_mask h n mod i hi, hsq]
    · exact elimAccesses_ok _ a ha
    · exact extractAccesses_ok _ a ha
  · intro i j hi hj
    have hk := (I_g_spec g_mask n i hi).1
    constructor
    · intro hle; constructor <;> omega
    · intro hlt; constructor <;> omega

/-- Instance of C28: `n = 4`, modulus 17, two known `g` and two unknown `f`. -/
theorem index_safety_witness :
    (∀ a ∈ builderAccesses [1, 2, 0, 0] [true, true, false, false] [3, 0, 0, 1]
        [true, false, false, true] [5, 7, 2, 1] 4, a.ok = true) ∧
    (∀ a ∈ gaussianAccesses
        (systemA [true, true, false, false] [true, false, false, true] [5, 7, 2, 1] 4 17)
        (systemB [1, 2, 0, 0] [true, true, false, false] [3, 0, 0, 1]
          [true, false, false, true] [5, 7, 2, 1] 4 17)
        (num_known_g [true, true, false, false] 4), a.ok = true) ∧
    ∀ i j, i < num_known_g [true, true, false, false] 4 → j < 4 →
      (j ≤ rdn (I_g [true, true, false, false] 4) i →
        0 ≤ (rdn (I_g [true, true, false, false] 4) i : Int) - (j : Int) ∧
        (rdn (I_g [true, true, false, false] 4) i : Int) - (j : Int) < ((4 : Nat) : Int)) ∧
      (rdn (I_g [true, true, false, false] 4) i < j →
        0 ≤ ((4 : Nat) : Int) + (rdn (I_g [true, true, false, false] 4) i : Int) - (j : Int) ∧
        ((4 : Nat) : Int) + (rdn (I_g [true, true, false, false] 4) i : Int) - (j : Int) <
          ((4 : Nat) : Int)) :=
  index_safety [1, 2, 0, 0] [true, true, false, false] [3, 0, 0, 1]
    [true, false, false, true] [5, 7, 2, 1] 4 17 (by decide) (by decide) (by decide)
    (by decide)

/-- C29: silent truncation when there are more unknowns than equations.  For
every input of `solve_unknown_f` with `1 ≤ m < k` (`m` known-g positions, `k`
unknown-f positions) no dimension mismatch is reported: the result is exactly
that of `gaussian_mod_q_solve` on the `m × m` block formed by the columns of
the first `m` unknown-f positions together with `b`, its status is `SOLVE_OK`
or `SOLVE_NO_PIVOT`, its size is `m`, and the coefficients of the remaining
`k - m` unknowns are ignored (any matrix with the same first `m` columns gives
the same result). -/
theorem silent_truncation (g : List Int) (g_mask : List Bool) (f : List Int)
    (f_mask : List Bool) (h : List Int) (n : Nat) (mod : Int)
    (hm : 1 ≤ num_known_g g_mask n) (_hlt : num_known_g g_mask n < num_unknown_f f_mask n) :
    solve_unknown_f g g_mask f f_mask h n mod =
      gaussian_mod_q_solve (squareBlock (systemA g_mask f_mask h n mod) (num_known_g g_mask n))
        (systemB g g_mask f f_mask h n mod) (num_known_g g_mask n) mod ∧
    IsMatrix (squareBlock (systemA g_mask f_mask h n mod) (num_known_g g_mask n))
      (num_known_g g_mask n) (num_known_g g_mask n) ∧
    (∀ i idx, i < num_known_g g_mask n → idx < num_known_g g_mask n →
      entry (squareBlock (systemA g_mask f_mask h n mod) (num_known_g g_mask n)) i idx =
        normq (rd (circulantRow h n (rdn (I_g g_mask n) i) mod)
          (rdn (I_f_unk f_mask n) idx)) mod) ∧
    (solve_unknown_f g g_mask f f_mask h n mod).n = num_known_g g_mask n ∧
    ((solve_unknown_f g g_mask f f_mask h n mod).status = SOLVE_OK ∨
      (solve_unknown_f g g_mask f f_mask h n mod).status = SOLVE_NO_PIVOT) ∧
    ∀ A', (∀ i, i < num_known_g g_mask n → ∀ j, j < num_known_g g_mask n →
        entry A' i j = entry (systemA g_mask f_mask h n mod) i j) →
      gaussian_mod_q_solve A' (systemB g g_mask f f_mask h n mod) (num_known_g g_mask n) mod =
        solve_unknown_f g g_mask f f_mask h n mod := by
  have e : solve_unknown_f g g_mask f f_mask h n mod =
      gaussian_mod_q_solve (systemA g_mask f_mask h n mod)
        (systemB g g_mask f f_mask h n mod) (num_known_g g_mask n) mod := by
    unfold solve_unknown_f
    rw [if_neg (by omega)]
  refine ⟨?_, isMatrix_squareBlock _ _, ?_, ?_, ?_, ?_⟩
  · rw [e]
    exact (gaussian_of_block _ _ _ _ mod
      (fun i hi j hj => entry_squareBlock _ _ i j hi hj)).symm
  · intro i idx hi hidx
    rw [entry_squareBlock _ _ i idx hi hidx, entry_systemA g_mask f_mask h n mod i idx hi]
    unfold rowOfA
    simp only
    rw [rd_tab _ _ idx (by omega)]
  · rw [e]; exact gaussian_n _ _ _ _
  · rw [e]; exact gaussian_status_cases _ _ _ _
  · intro A' hA'
    rw [e]
    exact gaussian_of_block _ _ _ _ mod hA'

/-- Instance of C29: the input of the test program, `n = 8`, modulus 17, two
known `g` and seven unknown `f`; the call returns `SOLVE_NO_PIVOT` with the
message `"no pivot in column 1, singular matrix"`. -/
theorem silent_truncation_witness :
    solve_unknown_f [1, 2, 0, 0, 0, 0, 0, 0]
        [true, true, false, false, false, false, false, false] [3, 0, 0, 0, 0, 0, 0, 0]
        [true, false, false, false, false, false, false, false] [5, 7, 2, 1, 0, 0, 0, 0] 8 17 =
      { x := none, n := 2, status := SOLVE_NO_PIVOT,
        message := "no pivot in column 1, singular matrix" } ∧
    squareBlock (systemA [true, true, false, false, false, false, false, false]
        [true, false, false, false, false, false, false, false] [5, 7, 2, 1, 0, 0, 0, 0] 8 17)
      2 = [[0, 0], [5, 0]] ∧
    solve_unknown_f [1, 2, 0, 0, 0, 0, 0, 0]
        [true, true, false, false, false, false, false, false] [3, 0, 0, 0, 0, 0, 0, 0]
        [true, false, false, false, false, false, false, false] [5, 7, 2, 1, 0, 0, 0, 0] 8 17 =
      gaussian_mod_q_solve
        (squareBlock (systemA [true, true, false, false, false, false, false, false]
          [true, false, false, false, false, false, false, false]
          [5, 7, 2, 1, 0, 0, 0, 0] 8 17)
          (num_known_g [true, true, false, false, false, false, false, false] 8))
        (systemB [1, 2, 0, 0, 0, 0, 0, 0]
          [true, true, false, false, false, false, false, false] [3, 0, 0, 0, 0, 0, 0, 0]
          [true, false, false, false, false, false, false, false]
          [5, 7, 2, 1, 0, 0, 0, 0] 8 17)
        (num_known_g [true, true, false, false, false, false, false, false] 8) 17 :=
  ⟨by decide, by decide,
    (silent_truncation [1, 2, 0, 0, 0, 0, 0, 0]
      [true, true, false, false, false, false, false, false] [3, 0, 0, 0, 0, 0, 0, 0]
      [true, false, false, false, false, false, false, false] [5, 7, 2, 1, 0, 0, 0, 0] 8 17
      (by decide) (by decide)).1⟩

/-- C30: `modinv` does not overflow 32-bit arithmetic.  For every modulus `q`
with `0 < q ≤ 2^31 - 1` and every 32-bit integer `a`, every intermediate value
of `modinv` (`r`, `newr`, `t`, `newt`, `quotient`, `quotient * newt`,
`quotient * newr`, also the reduced argument and the result) has absolute value
at most `q`, and the computation with every result wrapped to 32 bits returns
the same value as the computation over the integers. -/
theorem modinv_no_overflow (a q : Int) (hq : 0 < q) (hq32 : q ≤ 2147483647)
    (_ha : -2147483648 ≤ a ∧ a ≤ 2147483647) :
    (∀ v ∈ modinvIntermediates a q, |v| ≤ q) ∧ modinv32 a q = modinv a q := by
  have htb := tmod_bounds a q hq
  have hnr := normq_range a q hq
  refine ⟨?_, ?_⟩
  · intro v hv
    rw [abs_le]
    unfold modinvIntermediates at hv
    simp only at hv
    by_cases h0 : normq a q = 0
    · rw [if_pos h0] at hv
      simp only [List.mem_cons, List.mem_singleton, List.not_mem_nil, or_false] at hv
      rcases hv with rfl | rfl <;> constructor <;> omega
    · rw [if_neg h0] at hv
      simp only [List.cons_append, List.nil_append, List.mem_cons, List.mem_append,
        List.mem_singleton, List.not_mem_nil, or_false] at hv
      rcases hv with rfl | rfl | hv | rfl
      · constructor <;> omega
      · constructor <;> omega
      · exact modinvTrace_bounds (normq a q) q _ 0 1 q (normq a q)
          (loopInv_init _ _ (by omega) hnr.2) v hv
      · rcases modinv_spec a q hq with ⟨_, h⟩ | ⟨_, h1, h2, _⟩
        · rw [h]; constructor <;> omega
        · constructor <;> omega
  · unfold modinv32 modinv
    simp only
    rw [wrap32_eq (Int.tmod a q) (by omega) (by omega)]
    have e : (if Int.tmod a q < 0 then wrap32 (Int.tmod a q + q) else Int.tmod a q) =
        normq a q := by
      unfold normq
      simp only
      split_ifs
      · exact wrap32_eq _ (by omega) (by omega)
      · rfl
    rw [e]
    by_cases h0 : normq a q = 0
    · rw [if_pos h0, if_pos h0]
    · rw [if_neg h0, if_neg h0]
      have hinit := loopInv_init (normq a q) q (by omega) hnr.2
      rw [modinvLoop32_eq (normq a q) q hq32 _ 0 1 q (normq a q) hinit]
      obtain ⟨_, _, hl, hu⟩ := modinvLoop_spec (normq a q) q hq (normq a q).toNat 0 1 q
        (normq a q) hinit le_rfl
      split_ifs
      · rfl
      · exact wrap32_eq _ (by omega) (by omega)
      · rfl

/-- Instance of C30 at the largest modulus and the smallest argument. -/
theorem modinv_no_overflow_witness :
    (∀ v ∈ modinvIntermediates (-2147483648) 2147483647, |v| ≤ 2147483647) ∧
    modinv32 (-2147483648) 2147483647 = modinv (-2147483648) 2147483647 :=
  modinv_no_overflow (-2147483648) 2147483647 (by decide) (by decide) (by decide)

end GaussianSolver
